import Mathlib

/-!
# Binarisation kernel: sequential, shared-memory and hybrid (row-block) versions

Shallow embedding of `serial.c`, `main_omp.c` and `main_mpi_final.c`.

Modelling conventions.

* A C buffer is a total map from index to value (`Nat → α`).  The contents a
  buffer has right after `malloc` are indeterminate, so every such buffer takes
  its initial contents as a parameter.
* `int` is 32 bits wide.  An `int` value that the program stores, passes to a call or
  uses as an allocation size or loop bound (`rows * N`, the running `offset`,
  `my_rows * N`, `(my_rows + 2) * N`, `N * N`) is the exact value wrapped to 32 bits
  (`wrap32`).  An index expression (`r * N + c`, `(i - 1) * N + j`, the start of a halo
  window) is evaluated exactly and checked against the block it indexes: a block has at
  most `2^31 - 1` elements, so an index inside its block has not overflowed, and a run
  with an index outside its block has no defined result.  Row counts, ranks and loop
  counters are `Nat`; `r = i + dx` and `c = j + dy`, which can be `-1`, are `Int`.
* A buffer returned by `malloc` is a pair of an extent (`mallocElems`, `none` for
  `NULL`) and contents.  Every stage of the hybrid run comes in two parts: the contents
  its stores produce (`scatteredBuf`, `haloedBuf`, `computedBuf`, `hybridBuf`) and the
  check that every window and index it uses lies in its block (`scatterOk`, `haloOk`,
  `interiorOk`, `borderOk`, `gatherOk`); the run-level definitions `scattered`,
  `haloed`, `hybrid` are `none` when a check fails.
* `float` arithmetic is abstract: the kernels are parametric in the operations
  they use (`FloatOps`), so every equality proved between two kernels holds for
  IEEE arithmetic as well as for exact arithmetic.  Every `float` expression is
  taken to have a `float` value (no excess precision), so `somma / conta` used in a
  comparison and `media = somma / conta` stored first are the same value.
* A `for` loop is `forLoop`; an OpenMP `parallel for` whose iterations write
  disjoint cells is run in index order.
* The MPI processes are the ranks `0 .. size-1`; each rank has its own buffers
  (`Nat → Nat → α`, first argument the rank).  A message carries the contents its
  send window had when the operations were posted (after scatter).  For a rank that
  owns a row the send windows are rows written by scatter and never by a receive.
-/

namespace HpcHybrid

/-! ## Loops -/

/-- The loop `for (int i = lo; i < hi; i++) s = body i s`. -/
def forLoop {σ : Type} (lo hi : Nat) (body : Nat → σ → σ) (s : σ) : σ :=
  (List.range' lo (hi - lo)).foldl (fun acc i => body i acc) s

/-! ## Machine integers and allocation -/

/-- The value of a 32-bit `int` expression whose exact value is `x` (two's complement
wrap-around): the representative of `x` modulo `2^32` in `[-2^31, 2^31)`. -/
def wrap32 (x : Int) : Int := (x + 2147483648) % 4294967296 - 2147483648

/-- The largest value of a 32-bit signed `int`, `2^31 - 1`. -/
def INT_MAX : Nat := 2147483647

/-- The number of elements of the block returned by `malloc(count * sizeof(T))` for the
`int` value `count`, or `none` when the call returns `NULL`.  A negative `count` converts
to a `size_t` of at least `2^63`, a request that fails; a request with `count ≥ 0` is taken
to succeed (what the program does when it fails is the subject of `hybridMain`). -/
def mallocElems (count : Int) : Option Nat :=
  if count < 0 then none else some count.toNat

/-- The `len` elements from index `lo` on lie in a block of extent `e`. -/
def inBlock (e : Option Nat) (lo len : Int) : Bool :=
  match e with
  | some n => decide (0 ≤ lo ∧ 0 ≤ len ∧ lo + len ≤ (n : Int))
  | none => false

/-! ## Floating point operations used by the kernels -/

/-- The operations on `float` that the kernels use. -/
structure FloatOps (α : Type) where
  /-- The literal `0.0f`. -/
  zero : α
  /-- The sum of `somma += x`. -/
  add : α → α → α
  /-- The quotient of `somma / conta`. -/
  div : α → α → α
  /-- The conversion of the `int` operand `conta` in `somma / conta`. -/
  ofInt : Int → α
  /-- The comparison `x > y`. -/
  gt : α → α → Bool

/-- Exact rational arithmetic, used to evaluate the kernels on concrete inputs. -/
def ratOps : FloatOps ℚ :=
  ⟨0, fun x y => x + y, fun x y => x / y, fun n => (n : ℚ), fun x y => decide (y < x)⟩

/-- The pairs `(dx, dy)` in the order of the loops
`for dx = -RAGGIO .. RAGGIO`, `for dy = -RAGGIO .. RAGGIO` with `RAGGIO = 1`. -/
def window : List (Int × Int) :=
  [(-1, -1), (-1, 0), (-1, 1), (0, -1), (0, 0), (0, 1), (1, -1), (1, 0), (1, 1)]

/-! ## Partition (main_mpi_final.c, lines 56-71) -/

/-- The value of `base_rows = N / size`. -/
def base_rows (N size : Nat) : Nat := N / size

/-- The value of `remainder = N % size`. -/
def remainder (N size : Nat) : Nat := N % size

/-- The value of `my_rows = base_rows + (rank < remainder ? 1 : 0)`. -/
def my_rows (N size rank : Nat) : Nat :=
  base_rows N size + (if rank < remainder N size then 1 else 0)

/-- The variables updated by the loop that fills the plan on rank 0 (all `int`). -/
structure PlanState where
  /-- The array `sendcounts`. -/
  sendcounts : Nat → Int
  /-- The array `displs`. -/
  displs : Nat → Int
  /-- The running `offset`. -/
  offset : Int

/-- One iteration of the loop `for (int i = 0; i < size; i++)` of lines 65-70: the
product `rows * N` and the sum `offset + sendcounts[i]` are `int` operations. -/
def planStep (N size : Nat) (i : Nat) (st : PlanState) : PlanState :=
  let rows : Int := (base_rows N size : Int) + (if i < remainder N size then 1 else 0)
  let sendcounts := Function.update st.sendcounts i (wrap32 (rows * (N : Int)))
  let displs := Function.update st.displs i st.offset
  ⟨sendcounts, displs, wrap32 (st.offset + sendcounts i)⟩

/-- The plan built on rank 0; `sendcounts0`, `displs0` are the contents of the two
arrays after `malloc`. -/
def planLoop (N size : Nat) (sendcounts0 displs0 : Nat → Int) : PlanState :=
  forLoop 0 size (planStep N size) ⟨sendcounts0, displs0, 0⟩

/-- The counts of a plan as the collectives use them (a valid call has no negative
count). -/
def planCounts (p : PlanState) : Nat → Nat := fun r => (p.sendcounts r).toNat

/-- The displacements of a plan as the collectives use them. -/
def planDispls (p : PlanState) : Nat → Nat := fun r => (p.displs r).toNat

/-- The first global row of rank `r`: the number of rows of the ranks before it. -/
def rowOffset (N size : Nat) : Nat → Nat
  | 0 => 0
  | r + 1 => rowOffset N size r + my_rows N size r

/-! ## Sequential reference kernel (serial.c, lines 67-110) -/

/-- The body of the two inner loops of serial.c (lines 77-84) for `(dx, dy) = d`, acting
on `acc = (somma, conta)`. -/
def serialStep {α : Type} (ops : FloatOps α) (N : Nat) (A : Nat → α) (i j : Nat)
    (acc : α × Nat) (d : Int × Int) : α × Nat :=
  let r : Int := (i : Int) + d.1
  let c : Int := (j : Int) + d.2
  if r ≥ 0 ∧ r < (N : Int) ∧ c ≥ 0 ∧ c < (N : Int) then
    (ops.add acc.1 (A (r * (N : Int) + c).toNat), acc.2 + 1)
  else acc

/-- The two inner loops of serial.c (lines 70-86) at cell `(i, j)`: the final
`(somma, conta)`. -/
def serialAcc {α : Type} (ops : FloatOps α) (N : Nat) (A : Nat → α) (i j : Nat) : α × Nat :=
  window.foldl (serialStep ops N A i j) (ops.zero, 0)

/-- The value stored for a cell: `(x > somma / conta) ? 1 : 0`. -/
def binarize {α : Type} (ops : FloatOps α) (x : α) (acc : α × Nat) : Int :=
  if ops.gt x (ops.div acc.1 (ops.ofInt (acc.2 : Int))) = true then 1 else 0

/-- The loops over `i` and `j` of serial.c; `T0` is `T` after `malloc`. -/
def serial {α : Type} (ops : FloatOps α) (N : Nat) (A : Nat → α) (T0 : Nat → Int) : Nat → Int :=
  forLoop 0 N (fun i T =>
    forLoop 0 N (fun j T =>
      Function.update T (i * N + j) (binarize ops (A (i * N + j)) (serialAcc ops N A i j))) T) T0

/-- The checksum loop `for (i = 0; i < N * N; i++) checksum += T[i]`: the bound `N * N`
is an `int` product, the sum is a `long long`. -/
def checksum (N : Nat) (T : Nat → Int) : Int :=
  forLoop 0 (wrap32 ((N : Int) * (N : Int))).toNat (fun i cs => cs + T i) 0

/-! ## Shared-memory kernel (main_omp.c, lines 43-68) -/

/-- The body of the two inner loops of main_omp.c (lines 52-58). -/
def ompStep {α : Type} (ops : FloatOps α) (N : Nat) (A : Nat → α) (i j : Nat)
    (acc : α × Nat) (d : Int × Int) : α × Nat :=
  let r : Int := (i : Int) + d.1
  let c : Int := (j : Int) + d.2
  if r ≥ 0 ∧ r < (N : Int) ∧ c ≥ 0 ∧ c < (N : Int) then
    (ops.add acc.1 (A (r * (N : Int) + c).toNat), acc.2 + 1)
  else acc

/-- The two inner loops of main_omp.c (lines 47-60) at cell `(i, j)`. -/
def ompAcc {α : Type} (ops : FloatOps α) (N : Nat) (A : Nat → α) (i j : Nat) : α × Nat :=
  window.foldl (ompStep ops N A i j) (ops.zero, 0)

/-- The `parallel for` over `i` of main_omp.c with its inner loop over `j`. -/
def omp {α : Type} (ops : FloatOps α) (N : Nat) (A : Nat → α) (T0 : Nat → Int) : Nat → Int :=
  forLoop 0 N (fun i T =>
    forLoop 0 N (fun j T =>
      Function.update T (i * N + j) (binarize ops (A (i * N + j)) (ompAcc ops N A i j))) T) T0

/-! ## Hybrid engine (main_mpi_final.c) -/

/-- Contents of the buffers of the hybrid program right after `malloc`
(`local_A`, `local_T` per rank). -/
structure Uninit (α : Type) where
  /-- Initial contents of `sendcounts` on rank 0. -/
  sendcounts : Nat → Int
  /-- Initial contents of `displs` on rank 0. -/
  displs : Nat → Int
  /-- Initial contents of `local_A` on each rank. -/
  local_A : Nat → Nat → α
  /-- Initial contents of `local_T` on each rank. -/
  local_T : Nat → Nat → Int
  /-- Initial contents of `full_T` on rank 0. -/
  full_T : Nat → Int

/-- The index of the root's send buffer whose element scatter stores at index `k` of the
receive buffer of `rank`, if it stores one there: the `sendcounts[rank]` elements starting
at `displs[rank]` go to `recvOff, recvOff + 1, ...` (at most `recvcount` of them). -/
def scatterSource (sendcounts displs : Nat → Nat) (recvOff recvcount rank k : Nat) :
    Option Nat :=
  if recvOff ≤ k ∧ k < recvOff + min (sendcounts rank) recvcount then
    some (displs rank + (k - recvOff))
  else none

/-- The call `MPI_Scatterv(sendbuf, sendcounts, displs, _, recvbuf + recvOff, recvcount, _, 0, _)`
as seen by `rank`: the contents of the receive buffer afterwards, for a call with
non-negative counts whose windows lie in their blocks. -/
def MPI_Scatterv {α : Type} (sendbuf : Nat → α) (sendcounts displs : Nat → Nat)
    (recvbuf : Nat → α) (recvOff recvcount rank : Nat) : Nat → α :=
  fun k =>
    match scatterSource sendcounts displs recvOff recvcount rank k with
    | some x => sendbuf x
    | none => recvbuf k

/-- The call `MPI_Gatherv(sendbuf, sendcount, _, recvbuf, recvcounts, displs, _, 0, _)`
on the root: for each rank `r` the elements sent by `r` are stored from `recvbuf[displs[r]]`
on; the contents of `recvbuf` afterwards, for a call with non-negative counts whose
windows lie in their blocks. -/
def MPI_Gatherv {β : Type} (sendbufs : Nat → Nat → β) (sendcount : Nat → Nat)
    (recvbuf : Nat → β) (recvcounts displs : Nat → Nat) (size : Nat) : Nat → β :=
  forLoop 0 size (fun r buf => fun k =>
    if displs r ≤ k ∧ k < displs r + min (sendcount r) (recvcounts r) then
      sendbufs r (k - displs r)
    else buf k) recvbuf

/-- Kind of a non-blocking operation. -/
inductive HaloKind where
  | Irecv
  | Isend
  deriving DecidableEq

/-- A posted non-blocking operation: `MPI_Irecv` / `MPI_Isend` on the `count` floats
starting at `local_A[buf]`, with peer rank `peer` and tag `tag`. -/
structure HaloOp where
  /-- Receive or send. -/
  kind : HaloKind
  /-- Index in `local_A` of the first element of the window. -/
  buf : Nat
  /-- Number of elements. -/
  count : Nat
  /-- Source (receive) or destination (send) rank. -/
  peer : Nat
  /-- Message tag. -/
  tag : Nat
  deriving DecidableEq

/-- The tag `TAG_GHOST`. -/
def TAG_GHOST : Nat := 10

/-- The requests `reqs[0 .. n_req)` posted by lines 116-127, in program order. -/
def reqs (N size my_rows rank : Nat) : List HaloOp :=
  (if rank > 0 then [⟨HaloKind.Irecv, 0, N, rank - 1, TAG_GHOST⟩] else []) ++
  (if (rank : Int) < (size : Int) - 1 then
    [⟨HaloKind.Irecv, (my_rows + 1) * N, N, rank + 1, TAG_GHOST⟩] else []) ++
  (if rank > 0 then [⟨HaloKind.Isend, N, N, rank - 1, TAG_GHOST⟩] else []) ++
  (if (rank : Int) < (size : Int) - 1 then
    [⟨HaloKind.Isend, my_rows * N, N, rank + 1, TAG_GHOST⟩] else [])

/-- The value of `n_req` when `MPI_Waitall` is called. -/
def n_req (N size my_rows rank : Nat) : Nat := (reqs N size my_rows rank).length

/-- The send posted by the peer of the receive `rcv` of `rank` that matches it
(destination `rank`, same tag). -/
def matchingSend (posted : Nat → List HaloOp) (rank : Nat) (rcv : HaloOp) : Option HaloOp :=
  (posted rcv.peer).find? (fun s =>
    decide (s.kind = HaloKind.Isend ∧ s.peer = rank ∧ s.tag = rcv.tag))

/-- The buffer `local_A` of `rank` when `MPI_Waitall` returns: every posted receive has
stored the message of its matching send.  `bufs` are the buffers of all ranks when the
operations were posted; a message carries the contents its window had then.  A receive
with no matching send would never complete; `matchingSend_up` and `matchingSend_down`
show that this case does not occur for the requests of `reqs`. -/
def MPI_Waitall {α : Type} (posted : Nat → List HaloOp) (bufs : Nat → Nat → α)
    (rank : Nat) : Nat → α :=
  (posted rank).foldl (fun buf op =>
    match op.kind with
    | HaloKind.Isend => buf
    | HaloKind.Irecv =>
      match matchingSend posted rank op with
      | some s => fun k =>
          if op.buf ≤ k ∧ k < op.buf + min s.count op.count then
            bufs op.peer (s.buf + (k - op.buf))
          else buf k
      | none => buf) (bufs rank)

/-- The body of the two inner loops of the interior phase (lines 143-149). -/
def interiorStep {α : Type} (ops : FloatOps α) (N : Nat) (local_A : Nat → α) (i j : Nat)
    (acc : α × Nat) (d : Int × Int) : α × Nat :=
  let r : Int := (i : Int) + d.1
  let c : Int := (j : Int) + d.2
  if c ≥ 0 ∧ c < (N : Int) then
    (ops.add acc.1 (local_A (r * (N : Int) + c).toNat), acc.2 + 1)
  else acc

/-- The two inner loops of the interior phase (lines 141-151) at local cell `(i, j)`. -/
def interiorAcc {α : Type} (ops : FloatOps α) (N : Nat) (local_A : Nat → α) (i j : Nat) :
    α × Nat :=
  window.foldl (interiorStep ops N local_A i j) (ops.zero, 0)

/-- The interior phase (lines 134-155): local rows `2 .. my_rows - 1`. -/
def interiorPhase {α : Type} (ops : FloatOps α) (N my_rows : Nat) (local_A : Nat → α)
    (local_T : Nat → Int) : Nat → Int :=
  forLoop 2 my_rows (fun i T =>
    forLoop 0 N (fun j T =>
      Function.update T ((i - 1) * N + j)
        (binarize ops (local_A (i * N + j)) (interiorAcc ops N local_A i j))) T) local_T

/-- The value of `valid_row` after lines 186-189, for local row `r`. -/
def valid_row (my_rows rank size : Nat) (r : Int) : Bool :=
  let valid_row : Bool := true
  let valid_row : Bool := if r = 0 ∧ rank = 0 then false else valid_row
  let valid_row : Bool :=
    if r = (my_rows : Int) + 1 ∧ (rank : Int) = (size : Int) - 1 then false else valid_row
  valid_row

/-- The body of the two inner loops of the border phase (lines 182-194). -/
def borderStep {α : Type} (ops : FloatOps α) (N my_rows rank size : Nat) (local_A : Nat → α)
    (i j : Nat) (acc : α × Nat) (d : Int × Int) : α × Nat :=
  let r : Int := (i : Int) + d.1
  let c : Int := (j : Int) + d.2
  if valid_row my_rows rank size r = true ∧ c ≥ 0 ∧ c < (N : Int) then
    (ops.add acc.1 (local_A (r * (N : Int) + c).toNat), acc.2 + 1)
  else acc

/-- The two inner loops of the border phase (lines 180-196) at local cell `(i, j)`. -/
def borderAcc {α : Type} (ops : FloatOps α) (N my_rows rank size : Nat) (local_A : Nat → α)
    (i j : Nat) : α × Nat :=
  window.foldl (borderStep ops N my_rows rank size local_A i j) (ops.zero, 0)

/-- The array `rows_to_calc[0 .. count_border)` of lines 165-169. -/
def rows_to_calc (my_rows : Nat) : List Nat :=
  (if my_rows ≥ 1 then [1] else []) ++ (if my_rows ≥ 2 then [my_rows] else [])

/-- The border phase (lines 172-199). -/
def borderPhase {α : Type} (ops : FloatOps α) (N my_rows rank size : Nat) (local_A : Nat → α)
    (local_T : Nat → Int) : Nat → Int :=
  (rows_to_calc my_rows).foldl (fun T i =>
    forLoop 0 N (fun j T =>
      Function.update T ((i - 1) * N + j)
        (binarize ops (local_A (i * N + j)) (borderAcc ops N my_rows rank size local_A i j)))
      T) local_T

/-- The plan on rank 0. -/
def plan {α : Type} (N size : Nat) (u : Uninit α) : PlanState :=
  planLoop N size u.sendcounts u.displs

/-- The `int` value `my_rows * N` that a rank passes as its count to both collectives. -/
def localCount (N size rank : Nat) : Int := wrap32 ((my_rows N size rank : Int) * (N : Int))

/-- The contents of `local_A` of `rank` after `MPI_Scatterv` (receive buffer
`&local_A[N]`, receive count `my_rows * N`). -/
def scatteredBuf {α : Type} (N size : Nat) (full_A : Nat → α) (u : Uninit α) (rank : Nat) :
    Nat → α :=
  MPI_Scatterv full_A (planCounts (plan N size u)) (planDispls (plan N size u))
    (u.local_A rank) N (localCount N size rank).toNat rank

/-- The requests posted by each rank. -/
def posted (N size : Nat) (rank : Nat) : List HaloOp :=
  reqs N size (my_rows N size rank) rank

/-- The contents of `local_A` of `rank` after `MPI_Waitall`. -/
def haloedBuf {α : Type} (N size : Nat) (full_A : Nat → α) (u : Uninit α) (rank : Nat) :
    Nat → α :=
  MPI_Waitall (posted N size) (scatteredBuf N size full_A u) rank

/-- The contents of `local_T` of `rank` after both compute phases.  The interior phase
runs before `MPI_Waitall`, on the buffer as scattered; the border phase after it. -/
def computedBuf {α : Type} (ops : FloatOps α) (N size : Nat) (full_A : Nat → α)
    (u : Uninit α) (rank : Nat) : Nat → Int :=
  borderPhase ops N (my_rows N size rank) rank size (haloedBuf N size full_A u rank)
    (interiorPhase ops N (my_rows N size rank) (scatteredBuf N size full_A u rank)
      (u.local_T rank))

/-- The contents of `full_T` on rank 0 after `MPI_Gatherv`. -/
def hybridBuf {α : Type} (ops : FloatOps α) (N size : Nat) (full_A : Nat → α)
    (u : Uninit α) : Nat → Int :=
  MPI_Gatherv (computedBuf ops N size full_A u) (fun r => (localCount N size r).toNat)
    u.full_T (planCounts (plan N size u)) (planDispls (plan N size u)) size

/-! ## Allocation and control flow of the hybrid program -/

/-- Outcome of the six `malloc` calls of one process: `true` for a valid pointer, `false`
for `NULL`. -/
structure Allocs where
  /-- The call of line 61 (rank 0). -/
  sendcounts : Bool
  /-- The call of line 62 (rank 0). -/
  displs : Bool
  /-- The call of line 78. -/
  local_A : Bool
  /-- The call of line 79. -/
  local_T : Bool
  /-- The call of line 86 (rank 0). -/
  full_A : Bool
  /-- The call of line 87 (rank 0). -/
  full_T : Bool
  deriving DecidableEq

/-- What an observer of one process of the hybrid program sees. -/
inductive Event where
  /-- A message written to standard error. -/
  | errorMessage
  /-- The process enters `MPI_Scatterv`. -/
  | scatterv
  /-- The process enters `MPI_Gatherv`. -/
  | gatherv
  /-- An element is read or written through a `NULL` pointer; the behaviour of the
  process is undefined from here on. -/
  | nullAccess
  /-- The line `Tempo: ...` is printed. -/
  | tempoLine
  /-- The line `Checksum: ...` is printed. -/
  | checksumLine
  /-- The process returns from `main` with this status. -/
  | exit (status : Int)
  deriving DecidableEq

/-- A step of `main` as far as allocation is concerned. -/
inductive Stmt where
  /-- The step reads or writes `len` elements through a pointer that is valid iff `ok`. -/
  | access (ok : Bool) (len : Nat)
  /-- The step is visible to the observer. -/
  | emit (e : Event)
  deriving DecidableEq

/-- Runs the steps in order up to the first access through `NULL`. -/
def run : List Stmt → List Event
  | [] => []
  | Stmt.access ok len :: rest =>
    if ok = false ∧ 0 < len then [Event.nullAccess] else run rest
  | Stmt.emit e :: rest => e :: run rest

/-- The steps of `main` in main_mpi_final.c on process `rank` of `size`, in program
order.  No step tests a pointer returned by `malloc`, and no step writes to standard
error. -/
def hybridMain (N size rank : Nat) (a : Allocs) : List Stmt :=
  -- lines 60-71: the plan loop stores `sendcounts[i]`, `displs[i]` for `i < size`
  (if rank = 0 then [Stmt.access a.sendcounts size, Stmt.access a.displs size] else []) ++
  -- lines 85-95: the initialisation loop stores `full_A[i]` for `i < N * N`
  (if rank = 0 then [Stmt.access a.full_A (N * N)] else []) ++
  -- lines 102-104: scatter stores `my_rows * N` elements from `local_A[N]` on
  [Stmt.emit Event.scatterv, Stmt.access a.local_A (my_rows N size rank * N)] ++
  -- lines 116-127: every posted operation has a window of `N` elements of `local_A`
  [Stmt.access a.local_A (n_req N size (my_rows N size rank) rank * N)] ++
  -- lines 134-155: the interior phase stores rows `2 .. my_rows - 1` of `local_T`
  [Stmt.access a.local_T ((my_rows N size rank - 2) * N)] ++
  -- lines 172-199: the border phase stores `count_border` rows of `local_T`
  [Stmt.access a.local_T ((rows_to_calc (my_rows N size rank)).length * N)] ++
  -- lines 206-208: gather stores `N * N` elements of `full_T` on rank 0
  [Stmt.emit Event.gatherv] ++
  (if rank = 0 then [Stmt.access a.full_T (N * N)] else []) ++
  -- lines 214-224: output on rank 0
  (if rank = 0 then [Stmt.emit Event.tempoLine, Stmt.emit Event.checksumLine] else []) ++
  -- line 236
  [Stmt.emit (Event.exit 0)]

/-- Buffers whose contents after `malloc` are all zero (freshly mapped pages). -/
def zeroUninit : Uninit ℚ :=
  ⟨fun _ => 0, fun _ => 0, fun _ _ => 0, fun _ _ => 0, fun _ => 0⟩

/-- The matrix whose entry at index `k` is `k`. -/
def rampMatrix : Nat → ℚ := fun k => (k : ℚ)

/-- A matrix with small integer entries. -/
def sampleMatrix : Nat → ℚ := fun k => ((k * 7 % 5 : Nat) : ℚ)

/-! ## Iteration spaces of the two compute phases -/

/-- The values of `i` in the loop `for (int i = 2; i < my_rows; i++)` of line 135. -/
def interiorRows (my_rows : Nat) : List Nat := List.range' 2 (my_rows - 2)

/-- The cells `(i, j)` of the loop `for (int j = 0; j < N; j++)` on row `i`. -/
def rowCells (N i : Nat) : List (Nat × Nat) := (List.range N).map (fun j => (i, j))

/-- The local cells processed by the interior phase, in order. -/
def interiorCells (N my_rows : Nat) : List (Nat × Nat) :=
  (interiorRows my_rows).flatMap (rowCells N)

/-- The local cells processed by the border phase, in order. -/
def borderCells (N my_rows : Nat) : List (Nat × Nat) :=
  (rows_to_calc my_rows).flatMap (rowCells N)

/-- The index `(i - 1) * N + j` of `local_T` written for the local cell `(i, j)`. -/
def writeIndex (N : Nat) (p : Nat × Nat) : Nat := (p.1 - 1) * N + p.2

/-! ## Indices read by the stencil of the hybrid engine -/

/-- The index `r * N + c` of `local_A` read by the body of the interior stencil for
`(dx, dy) = d` at the local cell `(i, j)`, if the body reads (lines 143-147). -/
def interiorRead (N i j : Nat) (d : Int × Int) : Option Int :=
  let r : Int := (i : Int) + d.1
  let c : Int := (j : Int) + d.2
  if c ≥ 0 ∧ c < (N : Int) then some (r * (N : Int) + c) else none

/-- The index `r * N + c` of `local_A` read by the body of the border stencil for
`(dx, dy) = d` at the local cell `(i, j)`, if the body reads (lines 182-192). -/
def borderRead (N my_rows rank size i j : Nat) (d : Int × Int) : Option Int :=
  let r : Int := (i : Int) + d.1
  let c : Int := (j : Int) + d.2
  if valid_row my_rows rank size r = true ∧ c ≥ 0 ∧ c < (N : Int) then
    some (r * (N : Int) + c)
  else none

/-! ## Blocks of the hybrid program and defined runs -/

/-- The extent of `local_A` on `rank`: `malloc((my_rows + 2) * N * sizeof(float))`,
where `(my_rows + 2) * N` is an `int` product (line 78). -/
def local_A_elems (N size rank : Nat) : Option Nat :=
  mallocElems (wrap32 (((my_rows N size rank : Int) + 2) * (N : Int)))

/-- The extent of `local_T` on `rank`: `malloc(my_rows * N * sizeof(int))` (line 79). -/
def local_T_elems (N size rank : Nat) : Option Nat :=
  mallocElems (wrap32 ((my_rows N size rank : Int) * (N : Int)))

/-- The extent of `full_A` and of `full_T` on rank 0: `malloc(N * N * sizeof(..))`
(lines 86-87). -/
def full_elems (N : Nat) : Option Nat :=
  mallocElems (wrap32 ((N : Int) * (N : Int)))

/-- The scatter is a valid call: for every rank the send window
`[displs[r], displs[r] + sendcounts[r])` lies in `full_A`, the receive window
`[N, N + sendcounts[r])` lies in `local_A`, and the message is not longer than the
receive count `my_rows * N`. -/
def scatterOk {α : Type} (N size : Nat) (u : Uninit α) : Bool :=
  decide (∀ r, r < size →
    inBlock (full_elems N) ((plan N size u).displs r) ((plan N size u).sendcounts r) = true ∧
    inBlock (local_A_elems N size r) (N : Int) ((plan N size u).sendcounts r) = true ∧
    (plan N size u).sendcounts r ≤ localCount N size r)

/-- The window of every posted halo operation lies in `local_A` of its rank. -/
def haloOk (N size : Nat) : Bool :=
  decide (∀ r, r < size → ∀ op, op ∈ posted N size r →
    inBlock (local_A_elems N size r) (op.buf : Int) (op.count : Int) = true)

/-- The element read at index `x`, if any, lies in a block of extent `e`. -/
def readOk (e : Option Nat) (x : Option Int) : Bool :=
  match x with
  | some i => inBlock e i 1
  | none => true

/-- Every element the interior phase of `rank` reads lies in `local_A` and every element
it writes lies in `local_T`. -/
def interiorOk (N size rank : Nat) : Bool :=
  (interiorCells N (my_rows N size rank)).all (fun p =>
    inBlock (local_A_elems N size rank) ((p.1 * N + p.2 : Nat) : Int) 1 &&
    window.all (fun d => readOk (local_A_elems N size rank) (interiorRead N p.1 p.2 d)) &&
    inBlock (local_T_elems N size rank) ((writeIndex N p : Nat) : Int) 1)

/-- Every element the border phase of `rank` reads lies in `local_A` and every element
it writes lies in `local_T`. -/
def borderOk (N size rank : Nat) : Bool :=
  (borderCells N (my_rows N size rank)).all (fun p =>
    inBlock (local_A_elems N size rank) ((p.1 * N + p.2 : Nat) : Int) 1 &&
    window.all (fun d => readOk (local_A_elems N size rank)
      (borderRead N (my_rows N size rank) rank size p.1 p.2 d)) &&
    inBlock (local_T_elems N size rank) ((writeIndex N p : Nat) : Int) 1)

/-- The gather is a valid call: for every rank the receive window
`[displs[r], displs[r] + sendcounts[r])` lies in `full_T`, the send window
`[0, my_rows * N)` lies in `local_T`, and the message is not longer than
`sendcounts[r]`. -/
def gatherOk {α : Type} (N size : Nat) (u : Uninit α) : Bool :=
  decide (∀ r, r < size →
    inBlock (full_elems N) ((plan N size u).displs r) ((plan N size u).sendcounts r) = true ∧
    inBlock (local_T_elems N size r) 0 (localCount N size r) = true ∧
    localCount N size r ≤ (plan N size u).sendcounts r)

/-- The run reaches the return of `MPI_Waitall` with every access so far in its block
(scatter, posted halo operations, interior phase). -/
def haloReached {α : Type} (N size : Nat) (u : Uninit α) : Bool :=
  scatterOk N size u && haloOk N size && decide (∀ r, r < size → interiorOk N size r = true)

/-- The run reaches the checksum with every access in its block. -/
def runOk {α : Type} (N size : Nat) (u : Uninit α) : Bool :=
  haloReached N size u && decide (∀ r, r < size → borderOk N size r = true) &&
    gatherOk N size u

/-- The buffer `local_A` of `rank` after `MPI_Scatterv`, `none` when the call is not
valid. -/
def scattered {α : Type} (N size : Nat) (full_A : Nat → α) (u : Uninit α) (rank : Nat) :
    Option (Nat → α) :=
  if scatterOk N size u = true then some (scatteredBuf N size full_A u rank) else none

/-- The buffer `local_A` of `rank` when `MPI_Waitall` returns, `none` when the run has no
defined state there. -/
def haloed {α : Type} (N size : Nat) (full_A : Nat → α) (u : Uninit α) (rank : Nat) :
    Option (Nat → α) :=
  if haloReached N size u = true then some (haloedBuf N size full_A u rank) else none

/-- The array `full_T` on rank 0 after `MPI_Gatherv`, `none` when the run has no defined
result. -/
def hybrid {α : Type} (ops : FloatOps α) (N size : Nat) (full_A : Nat → α) (u : Uninit α) :
    Option (Nat → Int) :=
  if runOk N size u = true then some (hybridBuf ops N size full_A u) else none

/-- The gather of arbitrary result blocks into `recvbuf` with the plan of the run, `none`
when the call is not valid. -/
def gathered {α β : Type} (N size : Nat) (u : Uninit α) (blocks : Nat → Nat → β)
    (recvbuf : Nat → β) : Option (Nat → β) :=
  if gatherOk N size u = true then
    some (MPI_Gatherv blocks (fun r => (localCount N size r).toNat) recvbuf
      (planCounts (plan N size u)) (planDispls (plan N size u)) size)
  else none

/-- Buffers whose contents after `malloc` are zero except `local_A`, which holds `10`. -/
def tenUninit : Uninit ℚ :=
  ⟨fun _ => 0, fun _ => 0, fun _ _ => 10, fun _ _ => 0, fun _ => 0⟩

/-! ## Input initialisation (serial.c line 60, main_mpi_final.c line 93) -/

/-- The constant `MAX_VAL`. -/
def MAX_VAL : ℚ := 100

/-- The integer nearest to `q`, the even one of the two when `q` lies half way. -/
def roundHalfEven (q : ℚ) : Int :=
  if q - (⌊q⌋ : ℚ) < 1 / 2 then ⌊q⌋
  else if 1 / 2 < q - (⌊q⌋ : ℚ) then ⌊q⌋ + 1
  else if ⌊q⌋ % 2 = 0 then ⌊q⌋ else ⌊q⌋ + 1

/-- The number of halvings that bring `x` below `2`, at most `fuel` of them: for
`1 ≤ x < 2^(fuel + 1)` the exponent `e` with `2^e ≤ x < 2^(e + 1)`. -/
def halvings : Nat → ℚ → Nat
  | 0, _ => 0
  | fuel + 1, x => if 2 ≤ x then halvings fuel (x / 2) + 1 else 0

/-- The number of doublings that bring `x` to `1` or above, at most `fuel` of them. -/
def doublings : Nat → ℚ → Nat
  | 0, _ => 0
  | fuel + 1, x => if x < 1 then doublings fuel (x * 2) + 1 else 0

/-- The binary32 exponent of `x ≥ 0`: the `e` with `2^e ≤ x < 2^(e + 1)`, not below
`-126` (the exponent of the subnormal numbers and of zero) and not above `127`. -/
def exponentF32 (x : ℚ) : Int :=
  if 1 ≤ x then (halvings 127 x : Int) else -(doublings 126 x : Int)

/-- The spacing of binary32 numbers around `x ≥ 0`: `2^(e - 23)` for the exponent `e` of
`x`. -/
def ulpF32 (x : ℚ) : ℚ := (2 : ℚ) ^ (exponentF32 x - 23)

/-- The binary32 number nearest to `x ≥ 0` (ties to even): `x` in units of the spacing,
rounded to an integer, times the spacing.  Results of magnitude `2^128` and more, which
binary32 turns into an infinity, do not occur in the program. -/
def roundMagF32 (x : ℚ) : ℚ := (roundHalfEven (x / ulpF32 x) : ℚ) * ulpF32 x

/-- The binary32 number a real result `x` is rounded to (round to nearest, ties to even):
the magnitude is rounded, the sign is kept. -/
def roundF32 (x : ℚ) : ℚ :=
  if 0 ≤ x then roundMagF32 x else -roundMagF32 (-x)

/-- The value `((float)rand() / RAND_MAX) * MAX_VAL` stored for the value `v` returned by
`rand()`: the conversions of `v` and of `RAND_MAX` to `float`, the quotient and the
product are each rounded by `rnd` (`roundF32` for the `float` of the program, the
identity for exact arithmetic).  `RAND_MAX` is the constant of `stdlib.h`. -/
def initValue (rnd : ℚ → ℚ) (RAND_MAX v : Nat) : ℚ :=
  rnd (rnd (rnd (v : ℚ) / rnd (RAND_MAX : ℚ)) * MAX_VAL)

/-! ## Lemmas on loops -/

theorem forLoop_of_le {σ : Type} (lo hi : Nat) (body : Nat → σ → σ) (s : σ) (h : hi ≤ lo) :
    forLoop lo hi body s = s := by
  have : hi - lo = 0 := by omega
  simp [forLoop, this]

theorem forLoop_succ {σ : Type} (lo hi : Nat) (body : Nat → σ → σ) (s : σ) (h : lo ≤ hi) :
    forLoop lo (hi + 1) body s = body hi (forLoop lo hi body s) := by
  have e : hi + 1 - lo = (hi - lo) + 1 := by omega
  have e2 : lo + (hi - lo) = hi := by omega
  simp [forLoop, e, List.range'_concat, List.foldl_append, e2]

/-! ## Lemmas on the partition -/

theorem rowOffset_succ (N size r : Nat) :
    rowOffset N size (r + 1) = rowOffset N size r + my_rows N size r := rfl

theorem rowOffset_closed (N size r : Nat) :
    rowOffset N size r = r * (N / size) + min r (N % size) := by
  induction r with
  | zero => simp [rowOffset]
  | succ r ih =>
    rw [rowOffset_succ, ih]
    unfold my_rows base_rows remainder
    split_ifs with h
    · rw [Nat.min_eq_left (by omega), Nat.min_eq_left (by omega)]; ring
    · rw [Nat.min_eq_right (by omega), Nat.min_eq_right (by omega)]; ring

theorem rowOffset_size (N size : Nat) (h : 1 ≤ size) : rowOffset N size size = N := by
  rw [rowOffset_closed]
  have := Nat.mod_lt N (show size > 0 by omega)
  rw [Nat.min_eq_right (by omega)]
  have := Nat.div_add_mod N size
  linarith [Nat.mul_comm size (N / size)]

theorem rowOffset_mono (N size : Nat) {a b : Nat} (h : a ≤ b) :
    rowOffset N size a ≤ rowOffset N size b := by
  induction h with
  | refl => exact le_refl _
  | step _ ih => rw [rowOffset_succ]; omega

theorem rowOffset_succ_le (N size : Nat) {a b : Nat} (h : a < b) :
    rowOffset N size a + my_rows N size a ≤ rowOffset N size b := by
  rw [← rowOffset_succ]; exact rowOffset_mono N size h

theorem rowOffset_sum (N size r : Nat) :
    ((List.range r).map (my_rows N size)).sum = rowOffset N size r := by
  induction r with
  | zero => simp [rowOffset]
  | succ r ih => simp [List.range_succ, ih, rowOffset_succ]

theorem my_rows_le (N size r : Nat) (hsize : 1 ≤ size) (hr : r < size) :
    my_rows N size r ≤ N := by
  have h := rowOffset_mono N size (show r + 1 ≤ size by omega)
  rw [rowOffset_succ, rowOffset_size N size hsize] at h
  omega

theorem rowOffset_le (N size n : Nat) (hsize : 1 ≤ size) (hn : n ≤ size) :
    rowOffset N size n ≤ N := by
  have h := rowOffset_mono N size hn
  rw [rowOffset_size N size hsize] at h
  exact h

/-! ## Lemmas on machine integers -/

theorem wrap32_of_fits (x : Int) (h0 : 0 ≤ x) (h1 : x ≤ 2147483647) : wrap32 x = x := by
  unfold wrap32
  omega

theorem mul_le_INT_MAX (a b : Nat) (ha : a ≤ 46341) (hb : b ≤ 46339) : a * b ≤ INT_MAX := by
  have h := Nat.mul_le_mul ha hb
  have e : 46341 * 46339 ≤ INT_MAX := by decide
  exact le_trans h e

/-- A product of a factor up to `46341` and a factor up to `46339` is not wrapped. -/
theorem wrap32_mul (a b : Nat) (ha : a ≤ 46341) (hb : b ≤ 46339) :
    wrap32 ((a : Int) * (b : Int)) = ((a * b : Nat) : Int) := by
  have h := mul_le_INT_MAX a b ha hb
  unfold INT_MAX at h
  have e : ((a : Int) * (b : Int)) = ((a * b : Nat) : Int) := by push_cast; ring
  rw [e]
  exact wrap32_of_fits _ (Int.natCast_nonneg _) (by exact_mod_cast h)

theorem mallocElems_natCast (n : Nat) : mallocElems (n : Int) = some n := by
  unfold mallocElems
  rw [if_neg (by omega), Int.toNat_natCast]

theorem inBlock_some (n : Nat) (lo len : Nat) (h : lo + len ≤ n) :
    inBlock (some n) (lo : Int) (len : Int) = true := by
  unfold inBlock
  simp only [decide_eq_true_eq]
  omega

/-- The count a rank passes to the collectives is the `int` the plan records for it, for
every `N`: both are the product `rows * N` wrapped. -/
theorem planLoop_sendcounts_wrap (N size : Nat) (sc0 dp0 : Nat → Int) (n : Nat) :
    ∀ i, i < n → (forLoop 0 n (planStep N size) ⟨sc0, dp0, 0⟩).sendcounts i =
      wrap32 ((my_rows N size i : Int) * (N : Int)) := by
  induction n with
  | zero => intro i hi; omega
  | succ n ih =>
    intro i hi
    rw [forLoop_succ _ _ _ _ (Nat.zero_le n)]
    by_cases e : i = n
    · subst e
      simp only [planStep, Function.update_same, my_rows]
      congr 2
      split_ifs <;> simp
    · simp only [planStep, Function.update_noteq e]
      exact ih i (by omega)

/-- For `N ≤ 46339`, after `n ≤ size` iterations the plan holds the exact counts and
offsets of the ranks `< n`. -/
theorem planLoop_inv (N size : Nat) (hN : N ≤ 46339) (hsize : 1 ≤ size)
    (sc0 dp0 : Nat → Int) (n : Nat) (hn : n ≤ size) :
    (forLoop 0 n (planStep N size) ⟨sc0, dp0, 0⟩).offset =
      ((rowOffset N size n * N : Nat) : Int) ∧
    (∀ i, i < n → (forLoop 0 n (planStep N size) ⟨sc0, dp0, 0⟩).sendcounts i =
      ((my_rows N size i * N : Nat) : Int)) ∧
    (∀ i, i < n → (forLoop 0 n (planStep N size) ⟨sc0, dp0, 0⟩).displs i =
      ((rowOffset N size i * N : Nat) : Int)) := by
  induction n with
  | zero =>
    refine ⟨?_, fun i hi => by omega, fun i hi => by omega⟩
    rw [forLoop_of_le _ _ _ _ (le_refl 0)]
    simp [rowOffset]
  | succ n ih =>
    obtain ⟨h1, h2, h3⟩ := ih (by omega)
    have hw := planLoop_sendcounts_wrap N size sc0 dp0 (n + 1) n (by omega)
    have hm := my_rows_le N size n hsize (by omega)
    have hrw : wrap32 ((my_rows N size n : Int) * (N : Int)) =
        ((my_rows N size n * N : Nat) : Int) := wrap32_mul _ _ (by omega) hN
    rw [hrw] at hw
    rw [forLoop_succ _ _ _ _ (Nat.zero_le n)] at hw ⊢
    refine ⟨?_, ?_, ?_⟩
    · have ho := rowOffset_le N size (n + 1) hsize hn
      have hfit := mul_le_INT_MAX (rowOffset N size (n + 1)) N (by omega) hN
      unfold INT_MAX at hfit
      have e : (forLoop 0 n (planStep N size) ⟨sc0, dp0, 0⟩).offset +
          (planStep N size n (forLoop 0 n (planStep N size) ⟨sc0, dp0, 0⟩)).sendcounts n =
          ((rowOffset N size (n + 1) * N : Nat) : Int) := by
        rw [hw, h1, rowOffset_succ]; push_cast; ring
      show wrap32 ((forLoop 0 n (planStep N size) ⟨sc0, dp0, 0⟩).offset +
          (planStep N size n (forLoop 0 n (planStep N size) ⟨sc0, dp0, 0⟩)).sendcounts n) = _
      rw [e]
      exact wrap32_of_fits _ (Int.natCast_nonneg _) (by exact_mod_cast hfit)
    · intro i hi
      by_cases e : i = n
      · subst e; exact hw
      · simp only [planStep, Function.update_noteq e]
        exact h2 i (by omega)
    · intro i hi
      by_cases e : i = n
      · subst e; simp only [planStep, Function.update_same]; exact h1
      · simp only [planStep, Function.update_noteq e]
        exact h3 i (by omega)

theorem planLoop_sendcounts (N size : Nat) (hN : N ≤ 46339) (sc0 dp0 : Nat → Int) (r : Nat)
    (hr : r < size) :
    (planLoop N size sc0 dp0).sendcounts r = ((my_rows N size r * N : Nat) : Int) :=
  (planLoop_inv N size hN (by omega) sc0 dp0 size (le_refl _)).2.1 r hr

theorem planLoop_displs (N size : Nat) (hN : N ≤ 46339) (sc0 dp0 : Nat → Int) (r : Nat)
    (hr : r < size) :
    (planLoop N size sc0 dp0).displs r = ((rowOffset N size r * N : Nat) : Int) :=
  (planLoop_inv N size hN (by omega) sc0 dp0 size (le_refl _)).2.2 r hr

/-! ## Lemmas on loops that fill a buffer -/

theorem row_div_mod (N a j : Nat) (hj : j < N) : (a * N + j) / N = a ∧ (a * N + j) % N = j := by
  have hN : 0 < N := by omega
  constructor
  · rw [Nat.add_comm, Nat.add_mul_div_right _ _ hN, Nat.div_eq_of_lt hj]; simp
  · rw [Nat.add_comm, Nat.add_mul_mod_self_right, Nat.mod_eq_of_lt hj]

theorem row_bounds (N a k : Nat) (h1 : a * N ≤ k) (h2 : k < a * N + N) :
    k / N = a ∧ k % N < N ∧ k = a * N + k % N := by
  have hN : 0 < N := by
    rcases Nat.eq_zero_or_pos N with h | h
    · subst h; omega
    · exact h
  obtain ⟨j, rfl⟩ : ∃ j, k = a * N + j := ⟨k - a * N, by omega⟩
  have hj : j < N := by omega
  obtain ⟨e1, e2⟩ := row_div_mod N a j hj
  refine ⟨e1, Nat.mod_lt _ hN, ?_⟩
  rw [e2]

/-- A loop that stores `v j` at index `b + j` for `j < n`. -/
theorem forLoop_update_row {β : Type} (n b : Nat) (v : Nat → β) (T : Nat → β) (k : Nat) :
    forLoop 0 n (fun j T => Function.update T (b + j) (v j)) T k =
      if b ≤ k ∧ k < b + n then v (k - b) else T k := by
  induction n with
  | zero =>
    rw [forLoop_of_le _ _ _ _ (le_refl 0)]
    have : ¬ (b ≤ k ∧ k < b + 0) := by omega
    rw [if_neg this]
  | succ n ih =>
    rw [forLoop_succ _ _ _ _ (Nat.zero_le n)]
    by_cases e : k = b + n
    · subst e
      rw [Function.update_same, if_pos (by omega)]
      congr 1; omega
    · rw [Function.update_noteq e, ih]
      by_cases c : b ≤ k ∧ k < b + n
      · rw [if_pos c, if_pos (by omega)]
      · rw [if_neg c, if_neg (by omega)]

/-- Two nested loops that store `v i j` at index `(i - c) * N + j`, rows `lo ≤ i < hi`. -/
theorem forLoop_update_rows {β : Type} (N c lo : Nat) (hc : c ≤ lo) (v : Nat → Nat → β)
    (T : Nat → β) (k : Nat) (hi : Nat) (hlo : lo ≤ hi) :
    forLoop lo hi (fun i T =>
        forLoop 0 N (fun j T => Function.update T ((i - c) * N + j) (v i j)) T) T k =
      if (lo - c) * N ≤ k ∧ k < (hi - c) * N then v (k / N + c) (k % N) else T k := by
  induction hi, hlo using Nat.le_induction with
  | base =>
    rw [forLoop_of_le _ _ _ _ (le_refl lo)]
    have : ¬ ((lo - c) * N ≤ k ∧ k < (lo - c) * N) := by omega
    rw [if_neg this]
  | succ hi hlo ih =>
    rw [forLoop_succ _ _ _ _ hlo, forLoop_update_row, ih]
    have e : (hi + 1 - c) * N = (hi - c) * N + N := by
      have : hi + 1 - c = (hi - c) + 1 := by omega
      rw [this]; ring
    have hmono : (lo - c) * N ≤ (hi - c) * N := Nat.mul_le_mul_right N (by omega)
    by_cases c1 : (hi - c) * N ≤ k ∧ k < (hi - c) * N + N
    · obtain ⟨d1, _, d3⟩ := row_bounds N (hi - c) k c1.1 c1.2
      rw [if_pos c1, if_pos (by omega)]
      have e1 : k / N + c = hi := by omega
      have e2 : k - (hi - c) * N = k % N := by omega
      rw [e1, e2]
    · rw [if_neg c1]
      by_cases c2 : (lo - c) * N ≤ k ∧ k < (hi - c) * N
      · rw [if_pos c2, if_pos (by omega)]
      · rw [if_neg c2, if_neg (by omega)]

/-- Folding a step function that agrees with another on every element of the list. -/
theorem foldl_congr_mem {σ ι : Type} (f g : σ → ι → σ) (l : List ι)
    (h : ∀ d, d ∈ l → ∀ s, f s d = g s d) (s : σ) : l.foldl f s = l.foldl g s := by
  induction l generalizing s with
  | nil => rfl
  | cons a l ih =>
    simp only [List.foldl_cons]
    rw [h a (List.mem_cons_self a l) s]
    exact ih (fun d hd => h d (List.mem_cons_of_mem a hd)) _

theorem mem_window (d : Int × Int) (h : d ∈ window) :
    (d.1 = -1 ∨ d.1 = 0 ∨ d.1 = 1) ∧ (d.2 = -1 ∨ d.2 = 0 ∨ d.2 = 1) := by
  simp only [window, List.mem_cons, List.mem_singleton, List.not_mem_nil, or_false] at h
  rcases h with h | h | h | h | h | h | h | h | h <;> subst h <;> simp

/-! ## The sequential and the shared-memory kernel, cell by cell -/

theorem serial_at {α : Type} (ops : FloatOps α) (N : Nat) (A : Nat → α) (T0 : Nat → Int)
    (k : Nat) (hk : k < N * N) :
    serial ops N A T0 k =
      binarize ops (A ((k / N) * N + k % N)) (serialAcc ops N A (k / N) (k % N)) := by
  have h := forLoop_update_rows N 0 0 (le_refl 0)
    (fun i j => binarize ops (A (i * N + j)) (serialAcc ops N A i j)) T0 k N (Nat.zero_le N)
  simp only [Nat.sub_zero, Nat.zero_mul, Nat.zero_le, true_and, Nat.add_zero] at h
  unfold serial
  rw [h, if_pos hk]

theorem omp_eq_serial {α : Type} (ops : FloatOps α) (N : Nat) (A : Nat → α) (T0 : Nat → Int) :
    omp ops N A T0 = serial ops N A T0 := rfl

/-! ## Scatter -/

/-- For `N ≤ 46339` the count the plan stores for a rank is its exact number of cells. -/
theorem plan_sendcounts_int {α : Type} (N size : Nat) (hfit : N ≤ 46339) (u : Uninit α)
    (r : Nat) (hr : r < size) :
    (plan N size u).sendcounts r = ((my_rows N size r * N : Nat) : Int) :=
  planLoop_sendcounts N size hfit _ _ r hr

/-- For `N ≤ 46339` the displacement the plan stores for a rank is its exact first cell. -/
theorem plan_displs_int {α : Type} (N size : Nat) (hfit : N ≤ 46339) (u : Uninit α)
    (r : Nat) (hr : r < size) :
    (plan N size u).displs r = ((rowOffset N size r * N : Nat) : Int) :=
  planLoop_displs N size hfit _ _ r hr

theorem plan_sendcounts {α : Type} (N size : Nat) (hfit : N ≤ 46339) (u : Uninit α) (r : Nat)
    (hr : r < size) :
    planCounts (plan N size u) r = my_rows N size r * N := by
  unfold planCounts
  rw [plan_sendcounts_int N size hfit u r hr, Int.toNat_natCast]

theorem plan_displs {α : Type} (N size : Nat) (hfit : N ≤ 46339) (u : Uninit α) (r : Nat)
    (hr : r < size) :
    planDispls (plan N size u) r = rowOffset N size r * N := by
  unfold planDispls
  rw [plan_displs_int N size hfit u r hr, Int.toNat_natCast]

/-- For `N ≤ 46339` the element count a rank passes to scatter and gather is exact. -/
theorem localCount_eq (N size : Nat) (hfit : N ≤ 46339) (r : Nat) (hr : r < size) :
    localCount N size r = ((my_rows N size r * N : Nat) : Int) := by
  unfold localCount
  have hm := my_rows_le N size r (by omega) hr
  exact wrap32_mul _ _ (by omega) hfit

theorem localCount_toNat (N size : Nat) (hfit : N ≤ 46339) (r : Nat) (hr : r < size) :
    (localCount N size r).toNat = my_rows N size r * N := by
  rw [localCount_eq N size hfit r hr, Int.toNat_natCast]

theorem MPI_Scatterv_eq {α : Type} (sendbuf : Nat → α) (sendcounts displs : Nat → Nat)
    (recvbuf : Nat → α) (recvOff recvcount rank k : Nat) :
    MPI_Scatterv sendbuf sendcounts displs recvbuf recvOff recvcount rank k =
      if recvOff ≤ k ∧ k < recvOff + min (sendcounts rank) recvcount then
        sendbuf (displs rank + (k - recvOff))
      else recvbuf k := by
  unfold MPI_Scatterv scatterSource
  split_ifs <;> rfl

/-- The buffer of a rank after scatter, index by index. -/
theorem scattered_eq {α : Type} (N size : Nat) (hfit : N ≤ 46339)
    (full_A : Nat → α) (u : Uninit α) (r : Nat)
    (hr : r < size) (k : Nat) :
    scatteredBuf N size full_A u r k =
      if N ≤ k ∧ k < N + my_rows N size r * N then full_A (rowOffset N size r * N + (k - N))
      else u.local_A r k := by
  unfold scatteredBuf
  rw [MPI_Scatterv_eq, plan_sendcounts N size hfit u r hr, plan_displs N size hfit u r hr,
    localCount_toNat N size hfit r hr, Nat.min_self]

/-- Local row `l` (`1 ≤ l ≤ my_rows`) holds global row `rowOffset + l - 1`. -/
theorem scattered_real {α : Type} (N size : Nat) (hfit : N ≤ 46339)
    (full_A : Nat → α) (u : Uninit α) (r : Nat)
    (hr : r < size) (l c : Nat) (hl1 : 1 ≤ l) (hl2 : l ≤ my_rows N size r) (hc : c < N) :
    scatteredBuf N size full_A u r (l * N + c) =
      full_A ((rowOffset N size r + l - 1) * N + c) := by
  rw [scattered_eq N size hfit full_A u r hr]
  obtain ⟨l', rfl⟩ : ∃ l', l = l' + 1 := ⟨l - 1, by omega⟩
  have h1 : (l' + 1) * N + c = N + (l' * N + c) := by ring
  have h2 : l' * N + N ≤ my_rows N size r * N := by
    have := Nat.mul_le_mul_right N hl2
    linarith [this]
  rw [if_pos (by omega)]
  congr 1
  have h3 : rowOffset N size r + (l' + 1) - 1 = rowOffset N size r + l' := by omega
  rw [h3, h1, Nat.add_mul]
  omega

/-- Scatter leaves the indices outside local rows `1 .. my_rows` as they were. -/
theorem scattered_frame {α : Type} (N size : Nat) (hfit : N ≤ 46339)
    (full_A : Nat → α) (u : Uninit α) (r : Nat)
    (hr : r < size) (k : Nat) (hk : k < N ∨ (my_rows N size r + 1) * N ≤ k) :
    scatteredBuf N size full_A u r k = u.local_A r k := by
  rw [scattered_eq N size hfit full_A u r hr]
  have e : (my_rows N size r + 1) * N = N + my_rows N size r * N := by ring
  rw [if_neg (by omega)]

/-! ## Halo exchange -/

theorem reqs_eq (N size m r : Nat) :
    reqs N size m r =
      (if 0 < r then [⟨HaloKind.Irecv, 0, N, r - 1, TAG_GHOST⟩] else []) ++
      (if r + 1 < size then [⟨HaloKind.Irecv, (m + 1) * N, N, r + 1, TAG_GHOST⟩] else []) ++
      (if 0 < r then [⟨HaloKind.Isend, N, N, r - 1, TAG_GHOST⟩] else []) ++
      (if r + 1 < size then [⟨HaloKind.Isend, m * N, N, r + 1, TAG_GHOST⟩] else []) := by
  unfold reqs
  have h : ((r : Int) < (size : Int) - 1) ↔ r + 1 < size := by omega
  simp only [h, gt_iff_lt]

theorem n_req_eq (N size m r : Nat) :
    n_req N size m r = 2 * (if 0 < r then 1 else 0) + 2 * (if r + 1 < size then 1 else 0) := by
  unfold n_req
  rw [reqs_eq]
  by_cases h1 : 0 < r <;> by_cases h2 : r + 1 < size <;> simp [h1, h2]

/-- The receive from the predecessor is matched by the predecessor's send of its last row. -/
theorem matchingSend_up (N size r : Nat) (h0 : 0 < r) (hr : r < size) :
    matchingSend (posted N size) r ⟨HaloKind.Irecv, 0, N, r - 1, TAG_GHOST⟩ =
      some ⟨HaloKind.Isend, my_rows N size (r - 1) * N, N, r, TAG_GHOST⟩ := by
  unfold matchingSend posted
  rw [reqs_eq]
  have e1 : r - 1 + 1 = r := by omega
  have e2 : r - 1 + 1 < size := by omega
  have e3 : r - 1 - 1 ≠ r := by omega
  by_cases h : 0 < r - 1 <;> simp [h, e1, e2, e3, hr]

/-- The receive from the successor is matched by the successor's send of its first row. -/
theorem matchingSend_down (N size m r : Nat) :
    matchingSend (posted N size) r ⟨HaloKind.Irecv, (m + 1) * N, N, r + 1, TAG_GHOST⟩ =
      some ⟨HaloKind.Isend, N, N, r, TAG_GHOST⟩ := by
  unfold matchingSend posted
  rw [reqs_eq]
  by_cases h : r + 1 + 1 < size <;> simp [h]

/-- The buffer of a rank after the halo exchange, index by index. -/
theorem haloed_eq {α : Type} (N size : Nat) (full_A : Nat → α) (u : Uninit α) (r : Nat)
    (hr : r < size) (k : Nat) :
    haloedBuf N size full_A u r k =
      if r + 1 < size ∧ (my_rows N size r + 1) * N ≤ k ∧ k < (my_rows N size r + 1) * N + N then
        scatteredBuf N size full_A u (r + 1) (N + (k - (my_rows N size r + 1) * N))
      else if 0 < r ∧ k < N then
        scatteredBuf N size full_A u (r - 1) (my_rows N size (r - 1) * N + k)
      else scatteredBuf N size full_A u r k := by
  unfold haloedBuf MPI_Waitall
  have hp : posted N size r = reqs N size (my_rows N size r) r := rfl
  rw [hp, reqs_eq]
  by_cases h1 : 0 < r <;> by_cases h2 : r + 1 < size
  · simp only [h1, h2, if_true, List.cons_append, List.nil_append, List.foldl_cons,
      List.foldl_nil, matchingSend_up N size r h1 hr, matchingSend_down N size _ r,
      Nat.min_self, true_and, Nat.zero_le, Nat.zero_add, Nat.sub_zero]
  · simp only [h1, h2, if_true, if_false, List.cons_append, List.nil_append, List.foldl_cons,
      List.foldl_nil, matchingSend_up N size r h1 hr, List.append_nil,
      Nat.min_self, true_and, false_and, Nat.zero_le, Nat.zero_add, Nat.sub_zero]
  · simp only [h1, h2, if_true, if_false, List.cons_append, List.nil_append, List.foldl_cons,
      List.foldl_nil, matchingSend_down N size _ r, List.append_nil,
      Nat.min_self, true_and, false_and, Nat.zero_le, Nat.zero_add, Nat.sub_zero]
  · simp only [h1, h2, if_false, List.nil_append, List.foldl_nil, List.append_nil,
      false_and]

/-! ## The two compute phases, index by index -/

theorem interiorPhase_at {α : Type} (ops : FloatOps α) (N m : Nat) (A : Nat → α)
    (T : Nat → Int) (k : Nat) :
    interiorPhase ops N m A T k =
      if 2 ≤ m ∧ N ≤ k ∧ k < (m - 1) * N then
        binarize ops (A ((k / N + 1) * N + k % N)) (interiorAcc ops N A (k / N + 1) (k % N))
      else T k := by
  unfold interiorPhase
  by_cases hm : 2 ≤ m
  · have h := forLoop_update_rows N 1 2 (by omega)
      (fun i j => binarize ops (A (i * N + j)) (interiorAcc ops N A i j)) T k m hm
    rw [h]
    simp only [hm, true_and, show (2 - 1) * N = N by simp]
  · rw [forLoop_of_le _ _ _ _ (by omega), if_neg (by omega)]

theorem borderPhase_at {α : Type} (ops : FloatOps α) (N m rank size : Nat) (A : Nat → α)
    (T : Nat → Int) (k : Nat) :
    borderPhase ops N m rank size A T k =
      if 2 ≤ m ∧ (m - 1) * N ≤ k ∧ k < (m - 1) * N + N then
        binarize ops (A (m * N + (k - (m - 1) * N)))
          (borderAcc ops N m rank size A m (k - (m - 1) * N))
      else if 1 ≤ m ∧ k < N then
        binarize ops (A (1 * N + k)) (borderAcc ops N m rank size A 1 k)
      else T k := by
  unfold borderPhase rows_to_calc
  by_cases h1 : 1 ≤ m <;> by_cases h2 : 2 ≤ m
  · simp only [ge_iff_le, h1, h2, if_true, List.cons_append, List.nil_append, List.foldl_cons,
      List.foldl_nil, forLoop_update_row, true_and]
    simp only [Nat.sub_self, Nat.zero_mul, Nat.zero_le, Nat.zero_add, Nat.sub_zero, true_and]
  · simp only [ge_iff_le, h1, h2, if_true, if_false, List.cons_append, List.nil_append,
      List.foldl_cons, List.append_nil, List.foldl_nil, forLoop_update_row, true_and,
      false_and]
    simp only [Nat.sub_self, Nat.zero_mul, Nat.zero_le, Nat.zero_add, Nat.sub_zero, true_and]
  · omega
  · simp only [ge_iff_le, h1, h2, if_false, List.nil_append, List.foldl_nil, false_and]

/-- The result block of a rank: local result row `k / N` is local input row `k / N + 1`;
rows `2 .. my_rows - 1` come from the interior phase, rows `1` and `my_rows` from the
border phase. -/
theorem computed_at {α : Type} (ops : FloatOps α) (N size : Nat) (full_A : Nat → α)
    (u : Uninit α) (r k : Nat) (hk : k < my_rows N size r * N) :
    computedBuf ops N size full_A u r k =
      if 2 ≤ k / N + 1 ∧ k / N + 1 < my_rows N size r then
        binarize ops (scatteredBuf N size full_A u r ((k / N + 1) * N + k % N))
          (interiorAcc ops N (scatteredBuf N size full_A u r) (k / N + 1) (k % N))
      else
        binarize ops (haloedBuf N size full_A u r ((k / N + 1) * N + k % N))
          (borderAcc ops N (my_rows N size r) r size (haloedBuf N size full_A u r)
            (k / N + 1) (k % N)) := by
  have hN : 0 < N := by
    rcases Nat.eq_zero_or_pos N with h | h
    · subst h; simp at hk
    · exact h
  have hrow : k / N < my_rows N size r := (Nat.div_lt_iff_lt_mul hN).2 hk
  have hmod : k % N < N := Nat.mod_lt _ hN
  have hdm : k = (k / N) * N + k % N := by
    have := Nat.div_add_mod k N
    rw [Nat.mul_comm] at this; omega
  generalize hm : my_rows N size r = m at *
  generalize hq : k / N = q at *
  generalize hj : k % N = j at *
  unfold computedBuf
  rw [hm, borderPhase_at, interiorPhase_at]
  subst hdm
  have eq1 : (m - 1) * N + N = m * N := by
    obtain ⟨m', rfl⟩ : ∃ m', m = m' + 1 := ⟨m - 1, by omega⟩
    simp only [Nat.add_sub_cancel]; ring
  obtain ⟨d1, d2⟩ := row_div_mod N q j hmod
  by_cases c1 : q = m - 1
  · -- last row
    by_cases c2 : 2 ≤ m
    · have hlast : (m - 1) * N ≤ q * N + j ∧ q * N + j < (m - 1) * N + N := by
        subst c1; omega
      rw [if_pos ⟨c2, hlast⟩, if_neg (by omega)]
      have e : q * N + j - (m - 1) * N = j := by subst c1; omega
      have e2 : q + 1 = m := by omega
      rw [e, e2]
    · have hm1 : m = 1 := by omega
      subst hm1
      have hq0 : q = 0 := by omega
      subst hq0
      rw [if_neg (by omega), if_pos (by omega), if_neg (by omega)]
      simp
  · by_cases c3 : q = 0
    · subst c3
      have hnl : ¬ (2 ≤ m ∧ (m - 1) * N ≤ 0 * N + j ∧ 0 * N + j < (m - 1) * N + N) := by
        intro h
        have : 1 * N ≤ (m - 1) * N := Nat.mul_le_mul_right N (by omega)
        omega
      rw [if_neg hnl, if_pos (by omega), if_neg (by omega)]
      simp
    · have hq2 : q + 1 ≤ m - 1 := by omega
      have hle : (q + 1) * N ≤ (m - 1) * N := Nat.mul_le_mul_right N hq2
      have hge : 1 * N ≤ q * N := Nat.mul_le_mul_right N (by omega)
      have e3 : (q + 1) * N = q * N + N := by ring
      rw [if_neg (by omega), if_neg (by omega), if_pos (by omega), if_pos (by omega), d1, d2]

/-! ## Gather -/

/-- The element the root stores at `k`, when `k` lies in the window of rank `r` and in the
window of no later rank. -/
theorem MPI_Gatherv_at {β : Type} (sendbufs : Nat → Nat → β) (sendcount : Nat → Nat)
    (recvbuf : Nat → β) (recvcounts displs : Nat → Nat) (r k : Nat) (size : Nat)
    (hr : r < size)
    (hin : displs r ≤ k ∧ k < displs r + min (sendcount r) (recvcounts r))
    (hlater : ∀ r', r < r' → r' < size →
      ¬ (displs r' ≤ k ∧ k < displs r' + min (sendcount r') (recvcounts r'))) :
    MPI_Gatherv sendbufs sendcount recvbuf recvcounts displs size k =
      sendbufs r (k - displs r) := by
  unfold MPI_Gatherv
  induction size with
  | zero => omega
  | succ n ih =>
    rw [forLoop_succ _ _ _ _ (Nat.zero_le n)]
    by_cases e : r = n
    · subst e
      simp only [hin, and_self, if_true]
    · have hn := hlater n (by omega) (by omega)
      simp only [hn, if_false]
      exact ih (by omega) (fun r' h1 h2 => hlater r' h1 (by omega))

/-- Outside every window the root's buffer is unchanged. -/
theorem MPI_Gatherv_frame {β : Type} (sendbufs : Nat → Nat → β) (sendcount : Nat → Nat)
    (recvbuf : Nat → β) (recvcounts displs : Nat → Nat) (k : Nat) (size : Nat)
    (hout : ∀ r', r' < size →
      ¬ (displs r' ≤ k ∧ k < displs r' + min (sendcount r') (recvcounts r'))) :
    MPI_Gatherv sendbufs sendcount recvbuf recvcounts displs size k = recvbuf k := by
  unfold MPI_Gatherv
  induction size with
  | zero => rw [forLoop_of_le _ _ _ _ (le_refl 0)]
  | succ n ih =>
    rw [forLoop_succ _ _ _ _ (Nat.zero_le n)]
    have hn := hout n (by omega)
    simp only [hn, if_false]
    exact ih (fun r' h => hout r' (by omega))

/-! ## Owner of a global row -/

theorem exists_owner (N size : Nat) (hsize : 1 ≤ size) (g : Nat) (hg : g < N) :
    ∃ r, r < size ∧ rowOffset N size r ≤ g ∧ g < rowOffset N size r + my_rows N size r := by
  have key : ∀ n, g < rowOffset N size n →
      ∃ r, r < n ∧ rowOffset N size r ≤ g ∧ g < rowOffset N size r + my_rows N size r := by
    intro n
    induction n with
    | zero => intro h; simp [rowOffset] at h
    | succ n ih =>
      intro h
      by_cases c : g < rowOffset N size n
      · obtain ⟨r, h1, h2, h3⟩ := ih c
        exact ⟨r, by omega, h2, h3⟩
      · exact ⟨n, by omega, by omega, by rw [rowOffset_succ] at h; exact h⟩
  exact key size (by rw [rowOffset_size N size hsize]; exact hg)

theorem owner_unique (N size : Nat) (g r r' : Nat)
    (h1 : rowOffset N size r ≤ g) (h2 : g < rowOffset N size r + my_rows N size r)
    (h1' : rowOffset N size r' ≤ g) (h2' : g < rowOffset N size r' + my_rows N size r') :
    r = r' := by
  rcases Nat.lt_trichotomy r r' with h | h | h
  · have := rowOffset_succ_le N size h; omega
  · exact h
  · have := rowOffset_succ_le N size h; omega

/-! ## The buffers of the hybrid engine against the global matrix -/

/-- When no rank is empty, local row `l` of rank `r` after the halo exchange is global row
`rowOffset r + l - 1`, for every `l` in `0 .. my_rows + 1` that is inside the matrix. -/
theorem haloed_cell {α : Type} (N size : Nat) (hfit : N ≤ 46339)
    (full_A : Nat → α) (u : Uninit α)
    (hne : ∀ r, r < size → 1 ≤ my_rows N size r)
    (r : Nat) (hr : r < size) (l c : Nat) (hc : c < N)
    (hl : l ≤ my_rows N size r + 1) (htop : l = 0 → 0 < r)
    (hbot : l = my_rows N size r + 1 → r + 1 < size) :
    haloedBuf N size full_A u r (l * N + c) = full_A ((rowOffset N size r + l - 1) * N + c) := by
  rw [haloed_eq N size full_A u r hr]
  have em : (my_rows N size r + 1) * N = my_rows N size r * N + N := by ring
  by_cases c1 : l = my_rows N size r + 1
  · have h2 := hbot c1
    subst c1
    rw [if_pos ⟨h2, by omega, by omega⟩]
    have e : N + ((my_rows N size r + 1) * N + c - (my_rows N size r + 1) * N) = 1 * N + c := by
      omega
    rw [e, scattered_real N size hfit full_A u (r + 1) h2 1 c (le_refl 1) (hne _ h2) hc,
      rowOffset_succ]
    congr 2
  · have hlm : l ≤ my_rows N size r := by omega
    have hle : l * N + N ≤ my_rows N size r * N + N := by
      have := Nat.mul_le_mul_right N hlm
      omega
    rw [if_neg (by omega)]
    by_cases c2 : l = 0
    · have h0 := htop c2
      subst c2
      have hr' : r - 1 < size := by omega
      rw [if_pos ⟨h0, by omega⟩, show 0 * N + c = c by omega,
        scattered_real N size hfit full_A u (r - 1) hr' _ c (hne _ hr') (le_refl _) hc]
      have e : rowOffset N size r = rowOffset N size (r - 1) + my_rows N size (r - 1) := by
        obtain ⟨r', rfl⟩ : ∃ r', r = r' + 1 := ⟨r - 1, by omega⟩
        simp [rowOffset_succ]
      rw [e]
      congr 2
    · have hge : 1 * N ≤ l * N := Nat.mul_le_mul_right N (by omega)
      rw [if_neg (by omega),
        scattered_real N size hfit full_A u r hr l c (by omega) hlm hc]

theorem idx_toNat (R C : Int) (N l c : Nat) (hR : R = (l : Int)) (hC : C = (c : Int)) :
    (R * (N : Int) + C).toNat = l * N + c := by
  subst hR hC
  have : ((l : Int) * (N : Int) + (c : Int)) = ((l * N + c : Nat) : Int) := by push_cast; ring
  rw [this, Int.toNat_natCast]

/-- Facts on the position of a rank in the matrix, when no rank is empty. -/
theorem rank_position (N size : Nat) (hsize : 1 ≤ size)
    (hne : ∀ r, r < size → 1 ≤ my_rows N size r) (r : Nat) (hr : r < size) :
    (r = 0 → rowOffset N size r = 0) ∧ (0 < r → 1 ≤ rowOffset N size r) ∧
    (r + 1 = size → rowOffset N size r + my_rows N size r = N) ∧
    (r + 1 < size → rowOffset N size r + my_rows N size r + 1 ≤ N) ∧
    rowOffset N size r + my_rows N size r ≤ N := by
  have hN := rowOffset_size N size hsize
  refine ⟨?_, ?_, ?_, ?_, ?_⟩
  · intro h; subst h; rfl
  · intro h
    obtain ⟨r', rfl⟩ : ∃ r', r = r' + 1 := ⟨r - 1, by omega⟩
    have := hne r' (by omega)
    rw [rowOffset_succ]; omega
  · intro h
    rw [← rowOffset_succ, h, hN]
  · intro h
    have h2 : rowOffset N size (r + 1) + my_rows N size (r + 1) ≤ rowOffset N size size := by
      rw [← rowOffset_succ]; exact rowOffset_mono N size (by omega)
    have h3 := hne (r + 1) h
    rw [rowOffset_succ] at h2
    omega
  · have h := rowOffset_mono N size (show r + 1 ≤ size by omega)
    rw [rowOffset_succ, hN] at h
    exact h

/-! ## The stencil of the hybrid engine against the sequential stencil -/

/-- When no rank is empty, the rank tests of `valid_row` decide whether the global row is
inside the matrix. -/
theorem valid_row_iff (N size : Nat) (hsize : 1 ≤ size)
    (hne : ∀ r, r < size → 1 ≤ my_rows N size r) (r : Nat) (hr : r < size)
    (i : Nat) (hi1 : 1 ≤ i) (hi2 : i ≤ my_rows N size r) (dx : Int)
    (hdx : dx = -1 ∨ dx = 0 ∨ dx = 1) :
    valid_row (my_rows N size r) r size ((i : Int) + dx) = true ↔
      (((rowOffset N size r + i - 1 : Nat) : Int) + dx ≥ 0 ∧
        ((rowOffset N size r + i - 1 : Nat) : Int) + dx < (N : Int)) := by
  obtain ⟨p1, p2, p3, p4, p5⟩ := rank_position N size hsize hne r hr
  unfold valid_row
  simp only []
  split_ifs <;> simp <;> omega

theorem borderStep_eq_serialStep {α : Type} (ops : FloatOps α) (N size : Nat)
    (hfit : N ≤ 46339) (hsize : 1 ≤ size) (full_A : Nat → α) (u : Uninit α)
    (hne : ∀ r, r < size → 1 ≤ my_rows N size r) (r : Nat) (hr : r < size)
    (i j : Nat) (hi1 : 1 ≤ i) (hi2 : i ≤ my_rows N size r)
    (d : Int × Int) (hd : d ∈ window) (acc : α × Nat) :
    borderStep ops N (my_rows N size r) r size (haloedBuf N size full_A u r) i j acc d =
      serialStep ops N full_A (rowOffset N size r + i - 1) j acc d := by
  obtain ⟨hdx, hdy⟩ := mem_window d hd
  have hv := valid_row_iff N size hsize hne r hr i hi1 hi2 d.1 hdx
  obtain ⟨p1, p2, p3, p4, p5⟩ := rank_position N size hsize hne r hr
  unfold borderStep serialStep
  simp only []
  by_cases hc : (j : Int) + d.2 ≥ 0 ∧ (j : Int) + d.2 < (N : Int)
  · by_cases hrow : ((rowOffset N size r + i - 1 : Nat) : Int) + d.1 ≥ 0 ∧
        ((rowOffset N size r + i - 1 : Nat) : Int) + d.1 < (N : Int)
    · rw [if_pos ⟨hv.2 hrow, hc⟩, if_pos ⟨hrow.1, hrow.2, hc.1, hc.2⟩]
      obtain ⟨l, hl⟩ : ∃ l : Nat, (i : Int) + d.1 = (l : Int) :=
        ⟨((i : Int) + d.1).toNat, by omega⟩
      obtain ⟨c, hc'⟩ : ∃ c : Nat, (j : Int) + d.2 = (c : Int) :=
        ⟨((j : Int) + d.2).toNat, by omega⟩
      rw [idx_toNat _ _ N l c hl hc',
        idx_toNat _ _ N (rowOffset N size r + l - 1) c (by omega) hc',
        haloed_cell N size hfit full_A u hne r hr l c (by omega) (by omega) (by omega) (by omega)]
    · rw [if_neg (fun h => hrow (hv.1 h.1)), if_neg (fun h => hrow ⟨h.1, h.2.1⟩)]
  · rw [if_neg (fun h => hc h.2), if_neg (fun h => hc h.2.2)]

theorem interiorStep_eq_serialStep {α : Type} (ops : FloatOps α) (N size : Nat)
    (hfit : N ≤ 46339) (hsize : 1 ≤ size) (full_A : Nat → α) (u : Uninit α)
    (hne : ∀ r, r < size → 1 ≤ my_rows N size r) (r : Nat) (hr : r < size)
    (i j : Nat) (hi1 : 2 ≤ i) (hi2 : i < my_rows N size r)
    (d : Int × Int) (hd : d ∈ window) (acc : α × Nat) :
    interiorStep ops N (scatteredBuf N size full_A u r) i j acc d =
      serialStep ops N full_A (rowOffset N size r + i - 1) j acc d := by
  obtain ⟨hdx, hdy⟩ := mem_window d hd
  obtain ⟨p1, p2, p3, p4, p5⟩ := rank_position N size hsize hne r hr
  unfold interiorStep serialStep
  simp only []
  by_cases hc : (j : Int) + d.2 ≥ 0 ∧ (j : Int) + d.2 < (N : Int)
  · rw [if_pos hc, if_pos ⟨by omega, by omega, hc.1, hc.2⟩]
    obtain ⟨l, hl⟩ : ∃ l : Nat, (i : Int) + d.1 = (l : Int) :=
      ⟨((i : Int) + d.1).toNat, by omega⟩
    obtain ⟨c, hc'⟩ : ∃ c : Nat, (j : Int) + d.2 = (c : Int) :=
      ⟨((j : Int) + d.2).toNat, by omega⟩
    rw [idx_toNat _ _ N l c hl hc',
      idx_toNat _ _ N (rowOffset N size r + l - 1) c (by omega) hc',
      scattered_real N size hfit full_A u r hr l c (by omega) (by omega) (by omega)]
  · rw [if_neg hc, if_neg (fun h => hc h.2.2)]

/-- The result block of a rank holds the sequential result of its rows. -/
theorem computed_eq_serial {α : Type} (ops : FloatOps α) (N size : Nat)
    (hfit : N ≤ 46339) (hsize : 1 ≤ size) (full_A : Nat → α) (u : Uninit α)
    (hne : ∀ r, r < size → 1 ≤ my_rows N size r) (r : Nat) (hr : r < size)
    (q j : Nat) (hq : q < my_rows N size r) (hj : j < N) :
    computedBuf ops N size full_A u r (q * N + j) =
      binarize ops (full_A ((rowOffset N size r + q) * N + j))
        (serialAcc ops N full_A (rowOffset N size r + q) j) := by
  have hk : q * N + j < my_rows N size r * N := by
    have : (q + 1) * N ≤ my_rows N size r * N := Nat.mul_le_mul_right N hq
    have e : (q + 1) * N = q * N + N := by ring
    omega
  obtain ⟨d1, d2⟩ := row_div_mod N q j hj
  have eg : rowOffset N size r + (q + 1) - 1 = rowOffset N size r + q := by omega
  rw [computed_at ops N size full_A u r _ hk, d1, d2]
  split_ifs with h
  · rw [scattered_real N size hfit full_A u r hr (q + 1) j (by omega) (by omega) hj, eg]
    congr 1
    unfold interiorAcc serialAcc
    rw [← eg]
    exact foldl_congr_mem _ _ _ (fun d hd s =>
      interiorStep_eq_serialStep ops N size hfit hsize full_A u hne r hr (q + 1) j h.1 h.2
        d hd s) _
  · rw [haloed_cell N size hfit full_A u hne r hr (q + 1) j hj (by omega) (by omega) (by omega), eg]
    congr 1
    unfold borderAcc serialAcc
    rw [← eg]
    exact foldl_congr_mem _ _ _ (fun d hd s =>
      borderStep_eq_serialStep ops N size hfit hsize full_A u hne r hr (q + 1) j (by omega)
        (by omega) d hd s) _

theorem my_rows_pos (N size : Nat) (hsize : 1 ≤ size) (hN : size ≤ N) (r : Nat) :
    1 ≤ my_rows N size r := by
  unfold my_rows base_rows
  have : 1 ≤ N / size := (Nat.one_le_div_iff (by omega)).2 hN
  omega

/-- The window of the owner of `k` in the gathered array, and no later window, holds `k`. -/
theorem hybrid_at {α : Type} (ops : FloatOps α) (N size : Nat) (hfit : N ≤ 46339)
    (full_A : Nat → α) (u : Uninit α) (r : Nat) (hr : r < size) (q j : Nat)
    (hq : q < my_rows N size r) (hj : j < N) :
    hybridBuf ops N size full_A u ((rowOffset N size r + q) * N + j) =
      computedBuf ops N size full_A u r (q * N + j) := by
  unfold hybridBuf
  have hk : q * N + j < my_rows N size r * N := by
    have : (q + 1) * N ≤ my_rows N size r * N := Nat.mul_le_mul_right N hq
    have e : (q + 1) * N = q * N + N := by ring
    omega
  have e1 : (rowOffset N size r + q) * N + j = rowOffset N size r * N + (q * N + j) := by ring
  rw [MPI_Gatherv_at _ _ _ _ _ r _ size hr]
  · rw [plan_displs N size hfit u r hr]
    congr 1
    omega
  · rw [plan_displs N size hfit u r hr, plan_sendcounts N size hfit u r hr,
      localCount_toNat N size hfit r hr, Nat.min_self]
    omega
  · intro r' h1 h2
    rw [plan_displs N size hfit u r' h2, plan_sendcounts N size hfit u r' h2,
      localCount_toNat N size hfit r' h2, Nat.min_self]
    have h3 := rowOffset_succ_le N size h1
    have h4 : (rowOffset N size r + my_rows N size r) * N ≤ rowOffset N size r' * N :=
      Nat.mul_le_mul_right N h3
    have e2 : (rowOffset N size r + my_rows N size r) * N =
        rowOffset N size r * N + my_rows N size r * N := by ring
    omega

/-- When no rank is empty (`size ≤ N`), the gathered array is the sequential result. -/
theorem hybrid_eq_serial_of_le {α : Type} (ops : FloatOps α) (N size : Nat)
    (hfit : N ≤ 46339) (hsize : 1 ≤ size) (hN : size ≤ N) (full_A : Nat → α) (u : Uninit α) (T0 : Nat → Int)
    (k : Nat) (hk : k < N * N) :
    hybridBuf ops N size full_A u k = serial ops N full_A T0 k := by
  have hN0 : 0 < N := by omega
  have hg : k / N < N := (Nat.div_lt_iff_lt_mul hN0).2 hk
  have hj : k % N < N := Nat.mod_lt _ hN0
  have hdm : k = (k / N) * N + k % N := by
    have := Nat.div_add_mod k N
    rw [Nat.mul_comm] at this; omega
  obtain ⟨r, hr, h1, h2⟩ := exists_owner N size hsize (k / N) hg
  have hne : ∀ r, r < size → 1 ≤ my_rows N size r := fun r _ => my_rows_pos N size hsize hN r
  have eg : k / N = rowOffset N size r + (k / N - rowOffset N size r) := by omega
  rw [serial_at ops N full_A T0 k hk]
  conv_lhs => rw [hdm, eg]
  rw [hybrid_at ops N size hfit full_A u r hr _ _ (by omega) hj,
    computed_eq_serial ops N size hfit hsize full_A u hne r hr _ _ (by omega) hj, ← eg]


/-! ## Further lemmas: program events, checksum, processed cells, indices -/

theorem run_no_errorMessage (l : List Stmt)
    (h : ∀ s, s ∈ l → s ≠ Stmt.emit Event.errorMessage) : Event.errorMessage ∉ run l := by
  induction l with
  | nil => simp [run]
  | cons s l ih =>
    have ih' := ih (fun t ht => h t (List.mem_cons_of_mem s ht))
    cases s with
    | access ok len =>
      unfold run
      split_ifs
      · simp
      · exact ih'
    | emit e =>
      unfold run
      have he : e ≠ Event.errorMessage := fun c =>
        h (Stmt.emit e) (List.mem_cons_self _ _) (by rw [c])
      simp only [List.mem_cons, not_or]
      exact ⟨fun c => he c.symm, ih'⟩

/-- No run of the hybridBuf program writes an error message. -/
theorem hybridMain_no_errorMessage (N size rank : Nat) (a : Allocs) :
    Event.errorMessage ∉ run (hybridMain N size rank a) := by
  apply run_no_errorMessage
  intro s hs hc
  subst hc
  unfold hybridMain at hs
  by_cases h : rank = 0 <;> simp [h] at hs

/-- A process of rank other than `0` enters the scatter whatever its allocations gave. -/
theorem hybridMain_enters_scatterv (N size rank : Nat) (a : Allocs) :
    (run (hybridMain N size (rank + 1) a)).head? = some Event.scatterv := by
  simp [hybridMain, run]

theorem sumLoop_eq (T : Nat → Int) (n : Nat) :
    forLoop 0 n (fun i cs => cs + T i) 0 = ((List.range n).map T).sum := by
  induction n with
  | zero => rw [forLoop_of_le _ _ _ _ (le_refl 0)]; rfl
  | succ n ih =>
    rw [forLoop_succ _ _ _ _ (Nat.zero_le n), ih, List.range_succ, List.map_append,
      List.sum_append]
    simp

/-- For `N ≤ 46339` the loop bound `N * N` of the checksum is exact. -/
theorem checksum_bound (N : Nat) (hfit : N ≤ 46339) :
    (wrap32 ((N : Int) * (N : Int))).toNat = N * N := by
  rw [wrap32_mul N N (by omega) hfit, Int.toNat_natCast]

theorem checksum_eq_sum (N : Nat) (hfit : N ≤ 46339) (T : Nat → Int) :
    checksum N T = ((List.range (N * N)).map T).sum := by
  unfold checksum
  rw [checksum_bound N hfit]
  exact sumLoop_eq T (N * N)

/-- An array of ones sums to its length. -/
theorem sum_ones (n : Nat) : ((List.range n).map (fun _ => (1 : Int))).sum = (n : Int) := by
  induction n with
  | zero => rfl
  | succ n ih => rw [List.range_succ, List.map_append, List.sum_append, ih]; simp

/-- The sum of entries that are `0` or `1` is the number of entries equal to `1`. -/
theorem sum_binary (T : Nat → Int) (n : Nat) (h : ∀ i, i < n → T i = 0 ∨ T i = 1) :
    ((List.range n).map T).sum = ((List.range n).countP (fun i => decide (T i = 1)) : Nat) ∧
    ((List.range n).countP (fun i => decide (T i = 1))) ≤ n := by
  induction n with
  | zero => simp
  | succ n ih =>
    obtain ⟨h1, h2⟩ := ih (fun i hi => h i (by omega))
    rw [List.range_succ, List.map_append, List.sum_append, List.countP_append, h1]
    rcases h n (by omega) with e | e
    · constructor
      · simp [e]
      · simp [e]; omega
    · constructor
      · simp [e]
      · simp [e]; omega

theorem binarize_binary {α : Type} (ops : FloatOps α) (x : α) (acc : α × Nat) :
    binarize ops x acc = 0 ∨ binarize ops x acc = 1 := by
  unfold binarize
  split_ifs
  · exact Or.inr rfl
  · exact Or.inl rfl

theorem computed_binary {α : Type} (ops : FloatOps α) (N size : Nat) (full_A : Nat → α)
    (u : Uninit α) (r k : Nat) (hk : k < my_rows N size r * N) :
    computedBuf ops N size full_A u r k = 0 ∨ computedBuf ops N size full_A u r k = 1 := by
  rw [computed_at ops N size full_A u r k hk]
  split_ifs
  · exact binarize_binary _ _ _
  · exact binarize_binary _ _ _

/-- Every cell of the gathered array is the cell of the result block of its owner. -/
theorem hybrid_owner {α : Type} (ops : FloatOps α) (N size : Nat) (hfit : N ≤ 46339)
    (hsize : 1 ≤ size)
    (full_A : Nat → α) (u : Uninit α) (k : Nat) (hk : k < N * N) :
    ∃ r q, r < size ∧ q < my_rows N size r ∧ k / N = rowOffset N size r + q ∧
      hybridBuf ops N size full_A u k = computedBuf ops N size full_A u r (q * N + k % N) := by
  have hN0 : 0 < N := by
    rcases Nat.eq_zero_or_pos N with h | h
    · subst h; simp at hk
    · exact h
  have hg : k / N < N := (Nat.div_lt_iff_lt_mul hN0).2 hk
  have hj : k % N < N := Nat.mod_lt _ hN0
  have hdm : k = (k / N) * N + k % N := by
    have := Nat.div_add_mod k N
    rw [Nat.mul_comm] at this; omega
  obtain ⟨r, hr, h1, h2⟩ := exists_owner N size hsize (k / N) hg
  have eg : k / N = rowOffset N size r + (k / N - rowOffset N size r) := by omega
  refine ⟨r, k / N - rowOffset N size r, hr, by omega, eg, ?_⟩
  conv_lhs => rw [hdm, eg]
  exact hybrid_at ops N size hfit full_A u r hr _ _ (by omega) hj

theorem hybrid_binary {α : Type} (ops : FloatOps α) (N size : Nat) (hfit : N ≤ 46339)
    (hsize : 1 ≤ size)
    (full_A : Nat → α) (u : Uninit α) (k : Nat) (hk : k < N * N) :
    hybridBuf ops N size full_A u k = 0 ∨ hybridBuf ops N size full_A u k = 1 := by
  obtain ⟨r, q, hr, hq, _, e⟩ := hybrid_owner ops N size hfit hsize full_A u k hk
  rw [e]
  apply computed_binary
  have hN0 : 0 < N := by
    rcases Nat.eq_zero_or_pos N with h | h
    · subst h; simp at hk
    · exact h
  have hj : k % N < N := Nat.mod_lt _ hN0
  have : (q + 1) * N ≤ my_rows N size r * N := Nat.mul_le_mul_right N hq
  have e2 : (q + 1) * N = q * N + N := by ring
  omega

theorem checksum_congr (N : Nat) (hfit : N ≤ 46339) (T T' : Nat → Int)
    (h : ∀ k, k < N * N → T k = T' k) :
    checksum N T = checksum N T' := by
  rw [checksum_eq_sum N hfit, checksum_eq_sum N hfit]
  congr 1
  apply List.map_congr_left
  intro k hk
  exact h k (List.mem_range.1 hk)

/-- When no rank is empty in either run, the checksum depends neither on the number of
workers nor on what the buffers held after `malloc`. -/
theorem checksum_hybrid_eq_of_le {α : Type} (ops : FloatOps α) (N W1 W2 : Nat)
    (hfit : N ≤ 46339)
    (h1 : 1 ≤ W1) (h1' : W1 ≤ N) (h2 : 1 ≤ W2) (h2' : W2 ≤ N) (full_A : Nat → α)
    (u1 u2 : Uninit α) :
    checksum N (hybridBuf ops N W1 full_A u1) = checksum N (hybridBuf ops N W2 full_A u2) := by
  apply checksum_congr N hfit
  intro k hk
  rw [hybrid_eq_serial_of_le ops N W1 hfit h1 h1' full_A u1 (fun _ => 0) k hk,
    hybrid_eq_serial_of_le ops N W2 hfit h2 h2' full_A u2 (fun _ => 0) k hk]

theorem forLoop_eq_foldl_range {σ : Type} (n : Nat) (body : Nat → σ → σ) (s : σ) :
    forLoop 0 n body s = (List.range n).foldl (fun acc i => body i acc) s := by
  unfold forLoop
  rw [Nat.sub_zero, List.range_eq_range']

theorem foldl_flatMap_cells {σ : Type} (N : Nat) (rows : List Nat)
    (f : σ → Nat × Nat → σ) (s : σ) :
    (rows.flatMap (rowCells N)).foldl f s =
      rows.foldl (fun acc i => (List.range N).foldl (fun acc j => f acc (i, j)) acc) s := by
  induction rows generalizing s with
  | nil => rfl
  | cons i rows ih =>
    rw [List.flatMap_cons, List.foldl_append, List.foldl_cons, ih]
    congr 1
    unfold rowCells
    rw [List.foldl_map]

/-- The interior phase is the fold of its store over `interiorCells`. -/
theorem interiorPhase_eq_foldl {α : Type} (ops : FloatOps α) (N m : Nat) (A : Nat → α)
    (T : Nat → Int) :
    interiorPhase ops N m A T =
      (interiorCells N m).foldl (fun T p =>
        Function.update T (writeIndex N p)
          (binarize ops (A (p.1 * N + p.2)) (interiorAcc ops N A p.1 p.2))) T := by
  unfold interiorPhase interiorCells
  rw [foldl_flatMap_cells]
  unfold forLoop interiorRows writeIndex
  simp only [Nat.sub_zero, List.range_eq_range']

/-- The border phase is the fold of its store over `borderCells`. -/
theorem borderPhase_eq_foldl {α : Type} (ops : FloatOps α) (N m rank size : Nat)
    (A : Nat → α) (T : Nat → Int) :
    borderPhase ops N m rank size A T =
      (borderCells N m).foldl (fun T p =>
        Function.update T (writeIndex N p)
          (binarize ops (A (p.1 * N + p.2)) (borderAcc ops N m rank size A p.1 p.2))) T := by
  unfold borderPhase borderCells
  rw [foldl_flatMap_cells]
  unfold forLoop writeIndex
  simp only [Nat.sub_zero, List.range_eq_range']

theorem mem_interiorRows (m i : Nat) : i ∈ interiorRows m ↔ 2 ≤ i ∧ i < m := by
  unfold interiorRows
  rw [List.mem_range'_1]
  omega

theorem mem_rows_to_calc (m i : Nat) :
    i ∈ rows_to_calc m ↔ (i = 1 ∧ 1 ≤ m) ∨ (i = m ∧ 2 ≤ m) := by
  unfold rows_to_calc
  by_cases h1 : 1 ≤ m <;> by_cases h2 : 2 ≤ m <;> simp [h1, h2]

theorem mem_processed_rows (m i : Nat) :
    i ∈ interiorRows m ++ rows_to_calc m ↔ 1 ≤ i ∧ i ≤ m := by
  rw [List.mem_append, mem_interiorRows, mem_rows_to_calc]
  omega

theorem nodup_processed_rows (m : Nat) : (interiorRows m ++ rows_to_calc m).Nodup := by
  rw [List.nodup_append]
  refine ⟨List.nodup_range' 2 (m - 2), ?_, ?_⟩
  · unfold rows_to_calc
    by_cases h1 : 1 ≤ m <;> by_cases h2 : 2 ≤ m <;> simp [h1, h2]
    omega
  · intro a ha hb
    rw [mem_interiorRows] at ha
    rw [mem_rows_to_calc] at hb
    omega

theorem mem_rowCells (N i : Nat) (p : Nat × Nat) : p ∈ rowCells N i ↔ p.1 = i ∧ p.2 < N := by
  unfold rowCells
  rw [List.mem_map]
  constructor
  · rintro ⟨j, hj, rfl⟩
    exact ⟨rfl, List.mem_range.1 hj⟩
  · rintro ⟨h1, h2⟩
    exact ⟨p.2, List.mem_range.2 h2, by rw [← h1]⟩

theorem processed_cells_eq (N m : Nat) :
    interiorCells N m ++ borderCells N m =
      (interiorRows m ++ rows_to_calc m).flatMap (rowCells N) := by
  unfold interiorCells borderCells
  rw [List.flatMap_append]

theorem mem_processed_cells (N m : Nat) (p : Nat × Nat) :
    p ∈ interiorCells N m ++ borderCells N m ↔ (1 ≤ p.1 ∧ p.1 ≤ m) ∧ p.2 < N := by
  rw [processed_cells_eq, List.mem_flatMap]
  constructor
  · rintro ⟨i, hi, hp⟩
    rw [mem_rowCells] at hp
    rw [mem_processed_rows] at hi
    rw [hp.1]
    exact ⟨hi, hp.2⟩
  · rintro ⟨h1, h2⟩
    exact ⟨p.1, (mem_processed_rows m p.1).2 h1, (mem_rowCells N p.1 p).2 ⟨rfl, h2⟩⟩

theorem nodup_processed_cells (N m : Nat) : (interiorCells N m ++ borderCells N m).Nodup := by
  rw [processed_cells_eq, List.nodup_flatMap]
  constructor
  · intro i _
    unfold rowCells
    apply List.Nodup.map _ (List.nodup_range N)
    intro a b h
    exact (Prod.mk.inj h).2
  · refine List.Pairwise.imp ?_ (nodup_processed_rows m)
    intro a b hab p hpa hpb
    rw [mem_rowCells] at hpa hpb
    exact hab (hpa.1.symm.trans hpb.1)

theorem writeIndex_inj (N : Nat) (p q : Nat × Nat) (hp1 : 1 ≤ p.1) (hp2 : p.2 < N)
    (hq1 : 1 ≤ q.1) (hq2 : q.2 < N) (h : writeIndex N p = writeIndex N q) : p = q := by
  unfold writeIndex at h
  obtain ⟨a1, a2⟩ := row_div_mod N (p.1 - 1) p.2 hp2
  obtain ⟨b1, b2⟩ := row_div_mod N (q.1 - 1) q.2 hq2
  rw [h] at a1 a2
  have e1 : p.1 = q.1 := by omega
  have e2 : p.2 = q.2 := by omega
  exact Prod.ext e1 e2

/-- The interior step reads `local_A` at `interiorRead` and nowhere else. -/
theorem interiorStep_eq_read {α : Type} (ops : FloatOps α) (N : Nat) (A : Nat → α)
    (i j : Nat) (acc : α × Nat) (d : Int × Int) :
    interiorStep ops N A i j acc d =
      match interiorRead N i j d with
      | some x => (ops.add acc.1 (A x.toNat), acc.2 + 1)
      | none => acc := by
  unfold interiorStep interiorRead
  simp only []
  split_ifs <;> rfl

/-- The border step reads `local_A` at `borderRead` and nowhere else. -/
theorem borderStep_eq_read {α : Type} (ops : FloatOps α) (N m rank size : Nat) (A : Nat → α)
    (i j : Nat) (acc : α × Nat) (d : Int × Int) :
    borderStep ops N m rank size A i j acc d =
      match borderRead N m rank size i j d with
      | some x => (ops.add acc.1 (A x.toNat), acc.2 + 1)
      | none => acc := by
  unfold borderStep borderRead
  simp only []
  split_ifs <;> rfl

/-- A read of the interior stencil at a row `2 ≤ i < m` lies in local rows `1 .. m`. -/
theorem interiorRead_bounds (N m i j : Nat) (hi1 : 2 ≤ i) (hi2 : i < m) (d : Int × Int)
    (hd : d ∈ window) (x : Int) (hx : interiorRead N i j d = some x) :
    ∃ l c : Nat, 1 ≤ l ∧ l ≤ m ∧ c < N ∧ x = ((l * N + c : Nat) : Int) := by
  obtain ⟨hdx, hdy⟩ := mem_window d hd
  unfold interiorRead at hx
  simp only [] at hx
  split_ifs at hx with hc
  have hx' := Option.some.inj hx
  refine ⟨((i : Int) + d.1).toNat, ((j : Int) + d.2).toNat, by omega, by omega, by omega, ?_⟩
  have e1 : (i : Int) + d.1 = ((((i : Int) + d.1).toNat : Nat) : Int) := by omega
  have e2 : (j : Int) + d.2 = ((((j : Int) + d.2).toNat : Nat) : Int) := by omega
  rw [← hx']
  conv_lhs => rw [e1, e2]
  push_cast
  ring

/-- A read of the border stencil at a row `1 ≤ i ≤ m` lies in local rows `0 .. m + 1`. -/
theorem borderRead_bounds (N m rank size i j : Nat) (hi1 : 1 ≤ i) (hi2 : i ≤ m)
    (d : Int × Int) (hd : d ∈ window) (x : Int)
    (hx : borderRead N m rank size i j d = some x) :
    ∃ l c : Nat, l ≤ m + 1 ∧ c < N ∧ x = ((l * N + c : Nat) : Int) := by
  obtain ⟨hdx, hdy⟩ := mem_window d hd
  unfold borderRead at hx
  simp only [] at hx
  split_ifs at hx with hc
  have hx' := Option.some.inj hx
  refine ⟨((i : Int) + d.1).toNat, ((j : Int) + d.2).toNat, by omega, by omega, ?_⟩
  have e1 : (i : Int) + d.1 = ((((i : Int) + d.1).toNat : Nat) : Int) := by omega
  have e2 : (j : Int) + d.2 = ((((j : Int) + d.2).toNat : Nat) : Int) := by omega
  rw [← hx']
  conv_lhs => rw [e1, e2]
  push_cast
  ring

theorem row_index_lt (N l c b : Nat) (hl : l < b) (hc : c < N) : l * N + c < b * N := by
  have h1 : (l + 1) * N ≤ b * N := Nat.mul_le_mul_right N hl
  have e : (l + 1) * N = l * N + N := by ring
  omega

theorem row_index_ge (N l c : Nat) (hl : 1 ≤ l) : N ≤ l * N + c := by
  have h1 : 1 * N ≤ l * N := Nat.mul_le_mul_right N hl
  omega

theorem interiorStep_congr {α : Type} (ops : FloatOps α) (N m : Nat) (A B : Nat → α)
    (h : ∀ k, N ≤ k → k < (m + 1) * N → A k = B k)
    (i j : Nat) (hi1 : 2 ≤ i) (hi2 : i < m) (d : Int × Int) (hd : d ∈ window)
    (acc : α × Nat) :
    interiorStep ops N A i j acc d = interiorStep ops N B i j acc d := by
  rw [interiorStep_eq_read, interiorStep_eq_read]
  cases hx : interiorRead N i j d with
  | none => rfl
  | some x =>
    obtain ⟨l, c, h1, h2, h3, rfl⟩ := interiorRead_bounds N m i j hi1 hi2 d hd x hx
    simp only [Int.toNat_natCast]
    rw [h _ (row_index_ge N l c h1) (row_index_lt N l c (m + 1) (by omega) h3)]

theorem mem_reqs (N size m r : Nat) (op : HaloOp) (h : op ∈ reqs N size m r) :
    (op = ⟨HaloKind.Irecv, 0, N, r - 1, TAG_GHOST⟩ ∧ 0 < r) ∨
    (op = ⟨HaloKind.Irecv, (m + 1) * N, N, r + 1, TAG_GHOST⟩ ∧ r + 1 < size) ∨
    (op = ⟨HaloKind.Isend, N, N, r - 1, TAG_GHOST⟩ ∧ 0 < r) ∨
    (op = ⟨HaloKind.Isend, m * N, N, r + 1, TAG_GHOST⟩ ∧ r + 1 < size) := by
  rw [reqs_eq] at h
  simp only [List.mem_append] at h
  rcases h with ((h | h) | h) | h
  · split_ifs at h with c
    · exact Or.inl ⟨List.mem_singleton.1 h, c⟩
    · simp at h
  · split_ifs at h with c
    · exact Or.inr (Or.inl ⟨List.mem_singleton.1 h, c⟩)
    · simp at h
  · split_ifs at h with c
    · exact Or.inr (Or.inr (Or.inl ⟨List.mem_singleton.1 h, c⟩))
    · simp at h
  · split_ifs at h with c
    · exact Or.inr (Or.inr (Or.inr ⟨List.mem_singleton.1 h, c⟩))
    · simp at h

/-- Bounds of the indices read and written by the two phases, for any number of rows `m`. -/
theorem stencil_index_bounds (N size rank m : Nat) :
    (∀ i j d x, 2 ≤ i → i < m → j < N → d ∈ window → interiorRead N i j d = some x →
      0 ≤ x ∧ x < (((m + 2) * N : Nat) : Int)) ∧
    (∀ i j d x, i ∈ rows_to_calc m → j < N → d ∈ window →
      borderRead N m rank size i j d = some x → 0 ≤ x ∧ x < (((m + 2) * N : Nat) : Int)) ∧
    (∀ p, p ∈ interiorCells N m ++ borderCells N m → p.1 * N + p.2 < (m + 2) * N) ∧
    (∀ p, p ∈ interiorCells N m ++ borderCells N m → writeIndex N p < m * N) := by
  refine ⟨?_, ?_, ?_, ?_⟩
  · intro i j d x hi1 hi2 _ hd hx
    obtain ⟨l, c, h1, h2, h3, rfl⟩ := interiorRead_bounds N m i j hi1 hi2 d hd x hx
    exact ⟨Int.natCast_nonneg _, by exact_mod_cast row_index_lt N l c (m + 2) (by omega) h3⟩
  · intro i j d x hi _ hd hx
    rw [mem_rows_to_calc] at hi
    obtain ⟨l, c, h1, h3, rfl⟩ :=
      borderRead_bounds N m rank size i j (by omega) (by omega) d hd x hx
    exact ⟨Int.natCast_nonneg _, by exact_mod_cast row_index_lt N l c (m + 2) (by omega) h3⟩
  · intro p hp
    rw [mem_processed_cells] at hp
    exact row_index_lt N p.1 p.2 (m + 2) (by omega) hp.2
  · intro p hp
    rw [mem_processed_cells] at hp
    unfold writeIndex
    exact row_index_lt N (p.1 - 1) p.2 m (by omega) hp.2

/-- The number of operations of a given kind that rank `p` posts with peer `src`. -/
theorem countP_reqs (N size m p : Nat) (kind : HaloKind) (src : Nat) :
    (reqs N size m p).countP
        (fun o => decide (o.kind = kind ∧ o.peer = src ∧ o.tag = TAG_GHOST)) =
      (if 0 < p ∧ p - 1 = src then 1 else 0) +
        (if p + 1 < size ∧ p + 1 = src then 1 else 0) := by
  rw [reqs_eq]
  cases kind <;> by_cases h1 : 0 < p <;> by_cases h2 : p + 1 < size <;>
    simp only [h1, h2, if_true, if_false, List.append_nil, List.nil_append, List.cons_append,
      List.countP_cons, List.countP_nil, true_and, false_and, and_true, reduceCtorEq,
      decide_False, decide_True, Nat.zero_add, Nat.add_zero] <;>
    by_cases h3 : p - 1 = src <;> by_cases h4 : p + 1 = src <;>
    simp [h3, h4]

/-- When no rank is empty, the stencil of the owner of a cell accumulates what the
sequential stencil accumulates at that cell. -/
theorem hybridAcc_eq_serialAcc {α : Type} (ops : FloatOps α) (N size : Nat)
    (hfit : N ≤ 46339) (hsize : 1 ≤ size) (full_A : Nat → α) (u : Uninit α)
    (hne : ∀ r, r < size → 1 ≤ my_rows N size r) (r : Nat) (hr : r < size)
    (i j : Nat) (hi1 : 1 ≤ i) (hi2 : i ≤ my_rows N size r) :
    (2 ≤ i → i < my_rows N size r →
      interiorAcc ops N (scatteredBuf N size full_A u r) i j =
        serialAcc ops N full_A (rowOffset N size r + i - 1) j) ∧
    borderAcc ops N (my_rows N size r) r size (haloedBuf N size full_A u r) i j =
      serialAcc ops N full_A (rowOffset N size r + i - 1) j := by
  constructor
  · intro h1 h2
    unfold interiorAcc serialAcc
    exact foldl_congr_mem _ _ _ (fun d hd s =>
      interiorStep_eq_serialStep ops N size hfit hsize full_A u hne r hr i j h1 h2 d hd s) _
  · unfold borderAcc serialAcc
    exact foldl_congr_mem _ _ _ (fun d hd s =>
      borderStep_eq_serialStep ops N size hfit hsize full_A u hne r hr i j hi1 hi2 d hd s) _

theorem foldl_snd_mono {α : Type} (f : α × Nat → Int × Int → α × Nat)
    (hmono : ∀ acc d, acc.2 ≤ (f acc d).2) (l : List (Int × Int)) (a : α × Nat) :
    a.2 ≤ (l.foldl f a).2 := by
  induction l generalizing a with
  | nil => exact le_refl _
  | cons d l ih => exact le_trans (hmono a d) (ih (f a d))

/-- A stencil whose step never lowers `conta` and counts the centre ends with
`conta ≥ 1`. -/
theorem window_conta_pos {α : Type} (f : α × Nat → Int × Int → α × Nat)
    (hmono : ∀ acc d, acc.2 ≤ (f acc d).2)
    (hcentre : ∀ acc, (f acc (0, 0)).2 = acc.2 + 1) (a : α × Nat) :
    1 ≤ (window.foldl f a).2 := by
  have e : window = [(-1, -1), (-1, 0), (-1, 1), (0, -1)] ++
      (0, 0) :: [(0, 1), (1, -1), (1, 0), (1, 1)] := rfl
  rw [e, List.foldl_append, List.foldl_cons]
  refine le_trans ?_ (foldl_snd_mono f hmono _ _)
  rw [hcentre]
  omega

/-! ## Blocks and defined runs for `N ≤ 46339` -/

theorem inBlock_one (n : Nat) (x : Int) (h0 : 0 ≤ x) (h1 : x < (n : Int)) :
    inBlock (some n) x 1 = true := by
  unfold inBlock
  simp only [decide_eq_true_eq]
  omega

theorem local_A_elems_eq (N size : Nat) (hfit : N ≤ 46339) (r : Nat) (hr : r < size) :
    local_A_elems N size r = some ((my_rows N size r + 2) * N) := by
  unfold local_A_elems
  have hm := my_rows_le N size r (by omega) hr
  have e : ((my_rows N size r : Int) + 2) = ((my_rows N size r + 2 : Nat) : Int) := by
    push_cast; ring
  rw [e, wrap32_mul _ _ (by omega) hfit, mallocElems_natCast]

theorem local_T_elems_eq (N size : Nat) (hfit : N ≤ 46339) (r : Nat) (hr : r < size) :
    local_T_elems N size r = some (my_rows N size r * N) := by
  unfold local_T_elems
  have hm := my_rows_le N size r (by omega) hr
  rw [wrap32_mul _ _ (by omega) hfit, mallocElems_natCast]

theorem full_elems_eq (N : Nat) (hfit : N ≤ 46339) : full_elems N = some (N * N) := by
  unfold full_elems
  rw [wrap32_mul _ _ (by omega) hfit, mallocElems_natCast]

/-- The window of a rank in the global arrays ends inside them. -/
theorem window_le (N size r : Nat) (hr : r < size) :
    rowOffset N size r * N + my_rows N size r * N ≤ N * N := by
  have h := rowOffset_mono N size (show r + 1 ≤ size by omega)
  rw [rowOffset_succ, rowOffset_size N size (by omega)] at h
  have h2 := Nat.mul_le_mul_right N h
  rw [Nat.add_mul] at h2
  exact h2

theorem scatterOk_of_fits {α : Type} (N size : Nat) (hfit : N ≤ 46339) (u : Uninit α) :
    scatterOk N size u = true := by
  unfold scatterOk
  rw [decide_eq_true_eq]
  intro r hr
  rw [plan_sendcounts_int N size hfit u r hr, plan_displs_int N size hfit u r hr,
    full_elems_eq N hfit, local_A_elems_eq N size hfit r hr, localCount_eq N size hfit r hr]
  have e : (my_rows N size r + 2) * N = my_rows N size r * N + N + N := by ring
  exact ⟨inBlock_some _ _ _ (window_le N size r hr), inBlock_some _ _ _ (by omega), le_refl _⟩

theorem gatherOk_of_fits {α : Type} (N size : Nat) (hfit : N ≤ 46339) (u : Uninit α) :
    gatherOk N size u = true := by
  unfold gatherOk
  rw [decide_eq_true_eq]
  intro r hr
  rw [plan_sendcounts_int N size hfit u r hr, plan_displs_int N size hfit u r hr,
    full_elems_eq N hfit, local_T_elems_eq N size hfit r hr, localCount_eq N size hfit r hr]
  refine ⟨inBlock_some _ _ _ (window_le N size r hr), ?_, le_refl _⟩
  have h := inBlock_some (my_rows N size r * N) 0 (my_rows N size r * N) (by omega)
  simpa using h

theorem haloOk_of_fits (N size : Nat) (hfit : N ≤ 46339) : haloOk N size = true := by
  unfold haloOk
  rw [decide_eq_true_eq]
  intro r hr op hop
  have hp : posted N size r = reqs N size (my_rows N size r) r := rfl
  rw [hp] at hop
  rw [local_A_elems_eq N size hfit r hr]
  have e2 : (my_rows N size r + 2) * N = my_rows N size r * N + N + N := by ring
  have e1 : (my_rows N size r + 1) * N = my_rows N size r * N + N := by ring
  apply inBlock_some
  rcases mem_reqs N size _ r op hop with h | h | h | h <;> obtain ⟨rfl, _⟩ := h <;>
    simp only [] <;> omega

theorem mem_interiorCells (N m : Nat) (p : Nat × Nat) :
    p ∈ interiorCells N m ↔ 2 ≤ p.1 ∧ p.1 < m ∧ p.2 < N := by
  unfold interiorCells
  rw [List.mem_flatMap]
  constructor
  · rintro ⟨i, hi, hp⟩
    rw [mem_interiorRows] at hi
    rw [mem_rowCells] at hp
    omega
  · intro h
    exact ⟨p.1, (mem_interiorRows m p.1).2 ⟨h.1, h.2.1⟩, (mem_rowCells N p.1 p).2 ⟨rfl, h.2.2⟩⟩

theorem mem_borderCells (N m : Nat) (p : Nat × Nat) :
    p ∈ borderCells N m ↔ p.1 ∈ rows_to_calc m ∧ p.2 < N := by
  unfold borderCells
  rw [List.mem_flatMap]
  constructor
  · rintro ⟨i, hi, hp⟩
    rw [mem_rowCells] at hp
    rw [hp.1]
    exact ⟨hi, hp.2⟩
  · intro h
    exact ⟨p.1, h.1, (mem_rowCells N p.1 p).2 ⟨rfl, h.2⟩⟩

theorem interiorOk_of_fits (N size : Nat) (hfit : N ≤ 46339) (r : Nat) (hr : r < size) :
    interiorOk N size r = true := by
  unfold interiorOk
  rw [List.all_eq_true]
  intro p hp
  obtain ⟨b1, _, b3, b4⟩ := stencil_index_bounds N size r (my_rows N size r)
  have hp2 := List.mem_append_left (borderCells N (my_rows N size r)) hp
  rw [mem_interiorCells] at hp
  rw [local_A_elems_eq N size hfit r hr, local_T_elems_eq N size hfit r hr]
  simp only [Bool.and_eq_true, List.all_eq_true]
  refine ⟨⟨?_, ?_⟩, ?_⟩
  · exact inBlock_one _ _ (Int.natCast_nonneg _) (by exact_mod_cast b3 p hp2)
  · intro d hd
    cases hx : interiorRead N p.1 p.2 d with
    | none => rfl
    | some x =>
      obtain ⟨c1, c2⟩ := b1 p.1 p.2 d x hp.1 hp.2.1 hp.2.2 hd hx
      exact inBlock_one _ _ c1 c2
  · exact inBlock_one _ _ (Int.natCast_nonneg _) (by exact_mod_cast b4 p hp2)

theorem borderOk_of_fits (N size : Nat) (hfit : N ≤ 46339) (r : Nat) (hr : r < size) :
    borderOk N size r = true := by
  unfold borderOk
  rw [List.all_eq_true]
  intro p hp
  obtain ⟨_, b2, b3, b4⟩ := stencil_index_bounds N size r (my_rows N size r)
  have hp2 := List.mem_append_right (interiorCells N (my_rows N size r)) hp
  rw [mem_borderCells] at hp
  rw [local_A_elems_eq N size hfit r hr, local_T_elems_eq N size hfit r hr]
  simp only [Bool.and_eq_true, List.all_eq_true]
  refine ⟨⟨?_, ?_⟩, ?_⟩
  · exact inBlock_one _ _ (Int.natCast_nonneg _) (by exact_mod_cast b3 p hp2)
  · intro d hd
    cases hx : borderRead N (my_rows N size r) r size p.1 p.2 d with
    | none => rfl
    | some x =>
      obtain ⟨c1, c2⟩ := b2 p.1 p.2 d x hp.1 hp.2 hd hx
      exact inBlock_one _ _ c1 c2
  · exact inBlock_one _ _ (Int.natCast_nonneg _) (by exact_mod_cast b4 p hp2)

theorem haloReached_of_fits {α : Type} (N size : Nat) (hfit : N ≤ 46339) (u : Uninit α) :
    haloReached N size u = true := by
  unfold haloReached
  rw [scatterOk_of_fits N size hfit u, haloOk_of_fits N size hfit]
  simp only [Bool.and_self, Bool.true_and, decide_eq_true_eq]
  exact fun r hr => interiorOk_of_fits N size hfit r hr

theorem runOk_of_fits {α : Type} (N size : Nat) (hfit : N ≤ 46339) (u : Uninit α) :
    runOk N size u = true := by
  unfold runOk
  rw [haloReached_of_fits N size hfit u, gatherOk_of_fits N size hfit u]
  simp only [Bool.and_true, Bool.true_and, decide_eq_true_eq]
  exact fun r hr => borderOk_of_fits N size hfit r hr

/-- For `N ≤ 46339` the scatter is defined and leaves `scatteredBuf`. -/
theorem scattered_eq_some {α : Type} (N size : Nat) (hfit : N ≤ 46339) (full_A : Nat → α)
    (u : Uninit α) (r : Nat) :
    scattered N size full_A u r = some (scatteredBuf N size full_A u r) := by
  unfold scattered
  rw [if_pos (scatterOk_of_fits N size hfit u)]

/-- For `N ≤ 46339` the halo exchange is defined and leaves `haloedBuf`. -/
theorem haloed_eq_some {α : Type} (N size : Nat) (hfit : N ≤ 46339) (full_A : Nat → α)
    (u : Uninit α) (r : Nat) :
    haloed N size full_A u r = some (haloedBuf N size full_A u r) := by
  unfold haloed
  rw [if_pos (haloReached_of_fits N size hfit u)]

/-- For `N ≤ 46339` the run is defined and gathers `hybridBuf`. -/
theorem hybrid_eq_some {α : Type} (ops : FloatOps α) (N size : Nat) (hfit : N ≤ 46339)
    (full_A : Nat → α) (u : Uninit α) :
    hybrid ops N size full_A u = some (hybridBuf ops N size full_A u) := by
  unfold hybrid
  rw [if_pos (runOk_of_fits N size hfit u)]


/-- For `N ≤ 46339` the gather of any blocks is defined. -/
theorem gathered_eq_some {α β : Type} (N size : Nat) (hfit : N ≤ 46339) (u : Uninit α)
    (blocks : Nat → Nat → β) (recvbuf : Nat → β) :
    gathered N size u blocks recvbuf =
      some (MPI_Gatherv blocks (fun r => (localCount N size r).toNat) recvbuf
        (planCounts (plan N size u)) (planDispls (plan N size u)) size) := by
  unfold gathered
  rw [if_pos (gatherOk_of_fits N size hfit u)]

/-- For `N ≤ 46339` the element of block `r` at `q * N + j` is gathered at global row
`rowOffset r + q`, whatever the blocks hold. -/
theorem gather_plan_at {α β : Type} (N size : Nat) (hfit : N ≤ 46339) (u : Uninit α)
    (blocks : Nat → Nat → β) (recvbuf : Nat → β) (r : Nat) (hr : r < size) (q j : Nat)
    (hq : q < my_rows N size r) (hj : j < N) :
    MPI_Gatherv blocks (fun r => (localCount N size r).toNat) recvbuf
        (planCounts (plan N size u)) (planDispls (plan N size u)) size
        ((rowOffset N size r + q) * N + j) = blocks r (q * N + j) := by
  have hk : q * N + j < my_rows N size r * N := by
    have : (q + 1) * N ≤ my_rows N size r * N := Nat.mul_le_mul_right N hq
    have e : (q + 1) * N = q * N + N := by ring
    omega
  have e1 : (rowOffset N size r + q) * N + j = rowOffset N size r * N + (q * N + j) := by ring
  rw [MPI_Gatherv_at _ _ _ _ _ r _ size hr]
  · rw [plan_displs N size hfit u r hr]
    congr 1
    omega
  · rw [plan_displs N size hfit u r hr, plan_sendcounts N size hfit u r hr,
      localCount_toNat N size hfit r hr, Nat.min_self]
    omega
  · intro r' h1 h2
    rw [plan_displs N size hfit u r' h2, plan_sendcounts N size hfit u r' h2,
      localCount_toNat N size hfit r' h2, Nat.min_self]
    have h3 := rowOffset_succ_le N size h1
    have h4 : (rowOffset N size r + my_rows N size r) * N ≤ rowOffset N size r' * N :=
      Nat.mul_le_mul_right N h3
    have e2 : (rowOffset N size r + my_rows N size r) * N =
        rowOffset N size r * N + my_rows N size r * N := by ring
    omega

/-! ## Rounding to binary32 -/

theorem roundHalfEven_bounds (q : ℚ) : ⌊q⌋ ≤ roundHalfEven q ∧ roundHalfEven q ≤ ⌊q⌋ + 1 := by
  unfold roundHalfEven
  split_ifs <;> constructor <;> omega

theorem roundHalfEven_intCast (n : Int) : roundHalfEven (n : ℚ) = n := by
  unfold roundHalfEven
  rw [Int.floor_intCast]
  simp

theorem roundHalfEven_mono (q q' : ℚ) (h : q ≤ q') : roundHalfEven q ≤ roundHalfEven q' := by
  have hf : ⌊q⌋ ≤ ⌊q'⌋ := Int.floor_mono h
  rcases lt_or_eq_of_le hf with hlt | heq
  · have h1 := (roundHalfEven_bounds q).2
    have h2 := (roundHalfEven_bounds q').1
    omega
  · unfold roundHalfEven
    rw [← heq]
    have hd : q - (⌊q⌋ : ℚ) ≤ q' - (⌊q⌋ : ℚ) := by linarith
    split_ifs <;> first | omega | (exfalso; linarith)

theorem halvings_le (fuel : Nat) : ∀ x : ℚ, halvings fuel x ≤ fuel := by
  induction fuel with
  | zero => intro x; simp [halvings]
  | succ f ih =>
    intro x
    unfold halvings
    split_ifs
    · have := ih (x / 2); omega
    · omega

theorem halvings_lower (fuel : Nat) : ∀ x : ℚ, 1 ≤ x → (2 : ℚ) ^ (halvings fuel x) ≤ x := by
  induction fuel with
  | zero => intro x hx; simpa [halvings] using hx
  | succ f ih =>
    intro x hx
    unfold halvings
    split_ifs with h
    · have := ih (x / 2) (by linarith)
      rw [pow_succ]
      linarith
    · simpa using hx

theorem halvings_upper (fuel : Nat) :
    ∀ x : ℚ, halvings fuel x < fuel → x < (2 : ℚ) ^ (halvings fuel x + 1) := by
  induction fuel with
  | zero => intro x h; omega
  | succ f ih =>
    intro x
    unfold halvings
    split_ifs with h
    · intro hlt
      have := ih (x / 2) (by omega)
      rw [pow_succ]
      linarith
    · intro _
      simpa using lt_of_not_le h

theorem doublings_le (fuel : Nat) : ∀ x : ℚ, doublings fuel x ≤ fuel := by
  induction fuel with
  | zero => intro x; simp [doublings]
  | succ f ih =>
    intro x
    unfold doublings
    split_ifs
    · have := ih (x * 2); omega
    · omega

theorem doublings_pos (fuel : Nat) (x : ℚ) (hx : x < 1) : 1 ≤ doublings (fuel + 1) x := by
  unfold doublings
  rw [if_pos hx]
  omega

theorem doublings_upper (fuel : Nat) :
    ∀ x : ℚ, x < 2 → x * (2 : ℚ) ^ (doublings fuel x) < 2 := by
  induction fuel with
  | zero => intro x hx; simpa [doublings] using hx
  | succ f ih =>
    intro x hx
    unfold doublings
    split_ifs with h
    · have := ih (x * 2) (by linarith)
      rw [pow_succ]
      linarith
    · simpa using hx

theorem doublings_lower (fuel : Nat) :
    ∀ x : ℚ, doublings fuel x < fuel → 1 ≤ x * (2 : ℚ) ^ (doublings fuel x) := by
  induction fuel with
  | zero => intro x h; omega
  | succ f ih =>
    intro x
    unfold doublings
    split_ifs with h
    · intro hlt
      have := ih (x * 2) (by omega)
      rw [pow_succ]
      linarith
    · intro _
      simpa using le_of_not_lt h


theorem exponentF32_range (x : ℚ) : -126 ≤ exponentF32 x ∧ exponentF32 x ≤ 127 := by
  unfold exponentF32
  split_ifs
  · have := halvings_le 127 x; omega
  · have := doublings_le 126 x; omega

/-- Below the largest exponent, `x` lies below the next power of two. -/
theorem exponentF32_upper (x : ℚ) (h : exponentF32 x < 127) :
    x < (2 : ℚ) ^ (exponentF32 x + 1) := by
  unfold exponentF32 at h ⊢
  split_ifs at h ⊢ with h1
  · have hu := halvings_upper 127 x (by omega)
    have e : ((halvings 127 x : Int) + 1) = ((halvings 127 x + 1 : Nat) : Int) := by
      push_cast; ring
    rw [e, zpow_natCast]
    exact hu
  · have hx : x < 1 := lt_of_not_le h1
    have hu := doublings_upper 126 x (by linarith)
    have hp : (0 : ℚ) < (2 : ℚ) ^ (doublings 126 x) := by positivity
    rw [zpow_add₀ (two_ne_zero), zpow_neg, zpow_natCast, zpow_one]
    rw [← div_eq_inv_mul, lt_div_iff₀ hp]
    exact hu

/-- Above the smallest exponent, `x` is at least the power of two of its exponent. -/
theorem exponentF32_lower (x : ℚ) (h : -126 < exponentF32 x) :
    (2 : ℚ) ^ (exponentF32 x) ≤ x := by
  unfold exponentF32 at h ⊢
  split_ifs at h ⊢ with h1
  · rw [zpow_natCast]
    exact halvings_lower 127 x h1
  · have hl := doublings_lower 126 x (by omega)
    have hp : (0 : ℚ) < (2 : ℚ) ^ (doublings 126 x) := by positivity
    rw [zpow_neg, zpow_natCast, inv_le_iff_one_le_mul₀ hp]
    exact hl

theorem exponentF32_mono (x y : ℚ) (h : x ≤ y) : exponentF32 x ≤ exponentF32 y := by
  by_contra hc
  push_neg at hc
  have rx := exponentF32_range x
  have ry := exponentF32_range y
  have h1 := exponentF32_lower x (by omega)
  have h2 := exponentF32_upper y (by omega)
  have h3 : (2 : ℚ) ^ (exponentF32 y + 1) ≤ (2 : ℚ) ^ (exponentF32 x) :=
    zpow_le_zpow_right₀ (by norm_num) (by omega)
  linarith

theorem ulpF32_pos (x : ℚ) : 0 < ulpF32 x := by
  unfold ulpF32
  exact zpow_pos (by norm_num) _

theorem roundMagF32_nonneg (x : ℚ) (hx : 0 ≤ x) : 0 ≤ roundMagF32 x := by
  unfold roundMagF32
  have hu := ulpF32_pos x
  have h0 : roundHalfEven (0 : ℚ) ≤ roundHalfEven (x / ulpF32 x) :=
    roundHalfEven_mono _ _ (div_nonneg hx (le_of_lt hu))
  have e : roundHalfEven (0 : ℚ) = 0 := by
    have := roundHalfEven_intCast 0
    simpa using this
  rw [e] at h0
  have : (0 : ℚ) ≤ (roundHalfEven (x / ulpF32 x) : ℚ) := by exact_mod_cast h0
  exact mul_nonneg this (le_of_lt hu)

/-- Below the largest exponent, the rounded value is at most the next power of two. -/
theorem roundMagF32_le_pow (x : ℚ) (h : exponentF32 x < 127) :
    roundMagF32 x ≤ (2 : ℚ) ^ (exponentF32 x + 1) := by
  have hu := ulpF32_pos x
  have hx := exponentF32_upper x h
  have e : (2 : ℚ) ^ (exponentF32 x + 1) = (((2 ^ 24 : Int)) : ℚ) * ulpF32 x := by
    unfold ulpF32
    rw [show exponentF32 x + 1 = 24 + (exponentF32 x - 23) by ring, zpow_add₀ (two_ne_zero)]
    norm_num
  have hq : x / ulpF32 x ≤ (((2 ^ 24 : Int)) : ℚ) := by
    rw [div_le_iff₀ hu, ← e]
    exact le_of_lt hx
  have hr := roundHalfEven_mono _ _ hq
  rw [roundHalfEven_intCast] at hr
  unfold roundMagF32
  rw [e]
  exact mul_le_mul_of_nonneg_right (by exact_mod_cast hr) (le_of_lt hu)

/-- Above the smallest exponent, the rounded value is at least the power of two of the
exponent. -/
theorem pow_le_roundMagF32 (x : ℚ) (h : -126 < exponentF32 x) :
    (2 : ℚ) ^ (exponentF32 x) ≤ roundMagF32 x := by
  have hu := ulpF32_pos x
  have hx := exponentF32_lower x h
  have e : (2 : ℚ) ^ (exponentF32 x) = (((2 ^ 23 : Int)) : ℚ) * ulpF32 x := by
    unfold ulpF32
    rw [show exponentF32 x = 23 + (exponentF32 x - 23) by ring, zpow_add₀ (two_ne_zero)]
    norm_num
  have hq : (((2 ^ 23 : Int)) : ℚ) ≤ x / ulpF32 x := by
    rw [le_div_iff₀ hu, ← e]
    exact hx
  have hr := roundHalfEven_mono _ _ hq
  rw [roundHalfEven_intCast] at hr
  unfold roundMagF32
  rw [e]
  exact mul_le_mul_of_nonneg_right (by exact_mod_cast hr) (le_of_lt hu)

theorem roundMagF32_mono (x y : ℚ) (h : x ≤ y) : roundMagF32 x ≤ roundMagF32 y := by
  have he := exponentF32_mono x y h
  rcases lt_or_eq_of_le he with hlt | heq
  · have rx := exponentF32_range x
    have ry := exponentF32_range y
    have h1 := roundMagF32_le_pow x (by omega)
    have h2 := pow_le_roundMagF32 y (by omega)
    have h3 : (2 : ℚ) ^ (exponentF32 x + 1) ≤ (2 : ℚ) ^ (exponentF32 y) :=
      zpow_le_zpow_right₀ (by norm_num) (by omega)
    linarith
  · have hu := ulpF32_pos x
    have e : ulpF32 y = ulpF32 x := by unfold ulpF32; rw [heq]
    unfold roundMagF32
    rw [e]
    have hq : x / ulpF32 x ≤ y / ulpF32 x := div_le_div_of_nonneg_right h (le_of_lt hu)
    have hr := roundHalfEven_mono _ _ hq
    exact mul_le_mul_of_nonneg_right (by exact_mod_cast hr) (le_of_lt hu)

/-- Rounding to binary32 is monotone. -/
theorem roundF32_mono (x y : ℚ) (h : x ≤ y) : roundF32 x ≤ roundF32 y := by
  unfold roundF32
  split_ifs with hx hy hy
  · exact roundMagF32_mono x y h
  · linarith
  · have h1 := roundMagF32_nonneg (-x) (by linarith)
    have h2 := roundMagF32_nonneg y hy
    linarith
  · have := roundMagF32_mono (-y) (-x) (by linarith)
    linarith

theorem roundF32_zero : roundF32 0 = 0 := by decide!
theorem roundF32_one : roundF32 1 = 1 := by decide!
theorem roundF32_hundred : roundF32 100 = 100 := by decide!

/-! ## Claims -/

/-- Claim C1, evaluated where it fails: with `N = 1` and two workers, rank 1 owns no row,
yet rank 0 is not the last rank, so it counts its lower ghost row, which holds what rank 1
sent from its never written buffer.  On the matrix `[5]` with zeroed buffers the run is
defined, the hybrid engine stores `1` (mean `(5 + 0) / 2`), the sequential kernel `0`
(mean `5`), and the two checksums are `1` and `0`. -/
theorem C1_hybrid_differs_from_serial_N1_W2 :
    my_rows 1 2 0 = 1 ∧ my_rows 1 2 1 = 0 ∧
    (hybrid ratOps 1 2 (fun _ => 5) zeroUninit).map (fun T => T 0) = some 1 ∧
    serial ratOps 1 (fun _ => 5) (fun _ => 0) 0 = 0 ∧
    (hybrid ratOps 1 2 (fun _ => 5) zeroUninit).map (checksum 1) = some 1 ∧
    checksum 1 (serial ratOps 1 (fun _ => 5) (fun _ => 0)) = 0 := by
  decide!

/-- Claim C2 as stated fails beyond the range of `int`: with `N = 65536`, `W = 2` the
running offset `32768 * 65536 = 2^31` wraps, `displs[1]` holds `-2147483648`, the row
ranges are `[0, 32768)` and `[-32768, 0)`, and row `40000` lies in neither; with
`N = 46341`, `W = 1` the product `rows * N = 2147488281` wraps and `sendcounts[0]` holds
`-2147479015`. -/
theorem C2_partition_plan_counterexample :
    (planLoop 65536 2 (fun _ => 0) (fun _ => 0)).displs 1 = -2147483648 ∧
    (planLoop 65536 2 (fun _ => 0) (fun _ => 0)).displs 1 / ((65536 : Nat) : Int) = -32768 ∧
    ¬ (∃ i, i < 2 ∧
      (planLoop 65536 2 (fun _ => 0) (fun _ => 0)).displs i / ((65536 : Nat) : Int) ≤
        ((40000 : Nat) : Int) ∧
      ((40000 : Nat) : Int) <
        (planLoop 65536 2 (fun _ => 0) (fun _ => 0)).displs i / ((65536 : Nat) : Int) +
          ((65536 / 2 + (if i < 65536 % 2 then 1 else 0) : Nat) : Int)) ∧
    (planLoop 46341 1 (fun _ => 0) (fun _ => 0)).sendcounts 0 = -2147479015 ∧
    ¬ ((planLoop 46341 1 (fun _ => 0) (fun _ => 0)).sendcounts 0 =
      (((46341 / 1 + (if 0 < 46341 % 1 then 1 else 0)) * 46341 : Nat) : Int)) := by
  decide

/-- Claim C2, amended to the range of `int`: for `0 ≤ N ≤ 46339` and every `W ≥ 1` the
plan built by the coordinator has `sendcounts[i] = rows_i * N` with
`rows_i = N / W + (i < N % W ? 1 : 0)`, `displs[0] = 0`,
`displs[i+1] = displs[i] + sendcounts[i]`; the row counts sum to `N`; every row `g < N`
lies in exactly one range `[displs[i]/N, displs[i]/N + rows_i)`; the ranges are pairwise
disjoint, each starts where the previous one ends, the first starts at `0` and the last
ends at `N`. -/
theorem C2_partition_plan_contiguous_exact (N W : Nat) (hN : N ≤ 46339) (hW : 1 ≤ W)
    (sc0 dp0 : Nat → Int) :
    (∀ i, i < W → (planLoop N W sc0 dp0).sendcounts i =
      (((N / W + (if i < N % W then 1 else 0)) * N : Nat) : Int)) ∧
    (planLoop N W sc0 dp0).displs 0 = 0 ∧
    (∀ i, i + 1 < W → (planLoop N W sc0 dp0).displs (i + 1) =
      (planLoop N W sc0 dp0).displs i + (planLoop N W sc0 dp0).sendcounts i) ∧
    ((List.range W).map (fun i => N / W + (if i < N % W then 1 else 0))).sum = N ∧
    (∀ g, g < N → ∃! i, i < W ∧ (planLoop N W sc0 dp0).displs i / (N : Int) ≤ (g : Int) ∧
      (g : Int) < (planLoop N W sc0 dp0).displs i / (N : Int) +
        ((N / W + (if i < N % W then 1 else 0) : Nat) : Int)) ∧
    (∀ i j, i < j → j < W →
      (planLoop N W sc0 dp0).displs i / (N : Int) +
          ((N / W + (if i < N % W then 1 else 0) : Nat) : Int) ≤
        (planLoop N W sc0 dp0).displs j / (N : Int)) ∧
    (∀ i, i + 1 < W → (planLoop N W sc0 dp0).displs (i + 1) / (N : Int) =
      (planLoop N W sc0 dp0).displs i / (N : Int) +
        ((N / W + (if i < N % W then 1 else 0) : Nat) : Int)) ∧
    (planLoop N W sc0 dp0).displs (W - 1) / (N : Int) +
      ((N / W + (if W - 1 < N % W then 1 else 0) : Nat) : Int) = (N : Int) := by
  have hrows : ∀ i, N / W + (if i < N % W then 1 else 0) = my_rows N W i := fun _ => rfl
  have hsc := planLoop_sendcounts N W hN sc0 dp0
  have hdp := planLoop_displs N W hN sc0 dp0
  simp only [hrows]
  have hdiv : ∀ i, i < W → (planLoop N W sc0 dp0).displs i / (N : Int) =
      ((if N = 0 then 0 else rowOffset N W i : Nat) : Int) := by
    intro i hi
    rw [hdp i hi]
    split_ifs with h0
    · subst h0; simp
    · push_cast
      exact Int.mul_ediv_cancel _ (by omega)
  have hzero : N = 0 → ∀ i, my_rows N W i = 0 := by
    intro h0 i
    subst h0
    simp [my_rows, base_rows, remainder]
  refine ⟨hsc, ?_, ?_, ?_, ?_, ?_, ?_, ?_⟩
  · rw [hdp 0 (by omega)]; simp [rowOffset]
  · intro i hi
    rw [hdp _ hi, hdp i (by omega), hsc i (by omega), rowOffset_succ, Nat.add_mul]
    push_cast
    rfl
  · have h := rowOffset_sum N W W
    rw [rowOffset_size N W hW] at h
    exact h
  · intro g hg
    have hN0 : N ≠ 0 := by omega
    obtain ⟨r, hr, h1, h2⟩ := exists_owner N W hW g hg
    refine ⟨r, ⟨hr, ?_, ?_⟩, ?_⟩
    · rw [hdiv r hr, if_neg hN0]; exact_mod_cast h1
    · rw [hdiv r hr, if_neg hN0]; exact_mod_cast h2
    · rintro r' ⟨hr', h1', h2'⟩
      rw [hdiv r' hr', if_neg hN0] at h1' h2'
      exact owner_unique N W g r' r (by exact_mod_cast h1') (by exact_mod_cast h2') h1 h2
  · intro i j hij hj
    rw [hdiv i (by omega), hdiv j hj]
    split_ifs with h0
    · rw [hzero h0 i]; simp
    · exact_mod_cast rowOffset_succ_le N W hij
  · intro i hi
    rw [hdiv _ hi, hdiv i (by omega)]
    split_ifs with h0
    · rw [hzero h0 i]; simp
    · rw [rowOffset_succ]; push_cast; rfl
  · rw [hdiv _ (by omega)]
    split_ifs with h0
    · rw [hzero h0 _, h0]; simp
    · have e : rowOffset N W (W - 1) + my_rows N W (W - 1) = N := by
        rw [← rowOffset_succ, show W - 1 + 1 = W by omega, rowOffset_size N W hW]
      exact_mod_cast e

/-- Witness of the amended C2 at `N = 5`, `W = 2`. -/
theorem C2_partition_plan_witness :
    5 ≤ 46339 ∧ 1 ≤ 2 ∧
    ((∀ i, i < 2 → (planLoop 5 2 (fun _ => 0) (fun _ => 0)).sendcounts i =
      (((5 / 2 + (if i < 5 % 2 then 1 else 0)) * 5 : Nat) : Int)) ∧
    (planLoop 5 2 (fun _ => 0) (fun _ => 0)).displs 0 = 0 ∧
    (∀ i, i + 1 < 2 → (planLoop 5 2 (fun _ => 0) (fun _ => 0)).displs (i + 1) =
      (planLoop 5 2 (fun _ => 0) (fun _ => 0)).displs i +
        (planLoop 5 2 (fun _ => 0) (fun _ => 0)).sendcounts i) ∧
    ((List.range 2).map (fun i => 5 / 2 + (if i < 5 % 2 then 1 else 0))).sum = 5 ∧
    (∀ g : Nat, g < 5 → ∃! i, i < 2 ∧
      (planLoop 5 2 (fun _ => 0) (fun _ => 0)).displs i / ((5 : Nat) : Int) ≤ (g : Int) ∧
      (g : Int) < (planLoop 5 2 (fun _ => 0) (fun _ => 0)).displs i / ((5 : Nat) : Int) +
        ((5 / 2 + (if i < 5 % 2 then 1 else 0) : Nat) : Int)) ∧
    (∀ i j, i < j → j < 2 →
      (planLoop 5 2 (fun _ => 0) (fun _ => 0)).displs i / ((5 : Nat) : Int) +
          ((5 / 2 + (if i < 5 % 2 then 1 else 0) : Nat) : Int) ≤
        (planLoop 5 2 (fun _ => 0) (fun _ => 0)).displs j / ((5 : Nat) : Int)) ∧
    (∀ i, i + 1 < 2 →
      (planLoop 5 2 (fun _ => 0) (fun _ => 0)).displs (i + 1) / ((5 : Nat) : Int) =
      (planLoop 5 2 (fun _ => 0) (fun _ => 0)).displs i / ((5 : Nat) : Int) +
        ((5 / 2 + (if i < 5 % 2 then 1 else 0) : Nat) : Int)) ∧
    (planLoop 5 2 (fun _ => 0) (fun _ => 0)).displs (2 - 1) / ((5 : Nat) : Int) +
      ((5 / 2 + (if 2 - 1 < 5 % 2 then 1 else 0) : Nat) : Int) = ((5 : Nat) : Int)) :=
  ⟨by decide, by decide,
    C2_partition_plan_contiguous_exact 5 2 (by decide) (by decide) (fun _ => 0) (fun _ => 0)⟩

/-- Claim C3: for every `N`, `W` and rank `r < W` (so `W ≥ 1`), the first `N % W` ranks get
`N / W + 1` rows and the others `N / W`; when `N < W` the ranks with zero rows are exactly
those with `r ≥ N` (the partition is a total function, no input is an error); and the
count `my_rows` a rank computes for itself is the one recorded in the plan: for every `N`
the `int` stored in `sendcounts[r]` is the `int` product `my_rows * N` the rank computes
(`localCount`), and for `N ≤ 46339` it is the exact product. -/
theorem C3_row_counts (N W r : Nat) (hr : r < W) (sc0 dp0 : Nat → Int) :
    (r < N % W → my_rows N W r = N / W + 1) ∧
    (¬ r < N % W → my_rows N W r = N / W) ∧
    (N < W → (my_rows N W r = 0 ↔ N ≤ r)) ∧
    (planLoop N W sc0 dp0).sendcounts r = localCount N W r ∧
    (N ≤ 46339 →
      (planLoop N W sc0 dp0).sendcounts r = ((my_rows N W r * N : Nat) : Int)) := by
  refine ⟨?_, ?_, ?_, planLoop_sendcounts_wrap N W sc0 dp0 W r hr,
    fun hN => planLoop_sendcounts N W hN sc0 dp0 r hr⟩
  · intro h; simp [my_rows, base_rows, remainder, h]
  · intro h; simp [my_rows, base_rows, remainder, h]
  · intro h
    have h1 : N / W = 0 := Nat.div_eq_of_lt h
    have h2 : N % W = N := Nat.mod_eq_of_lt h
    simp only [my_rows, base_rows, remainder, h1, h2]
    split_ifs with hc <;> constructor <;> intro h3 <;>
      first
        | omega
        | exact h3.elim

/-- Witness of C3 at `N = 2`, `W = 3`, rank `2` (a rank with no row). -/
theorem C3_row_counts_witness :
    2 < 3 ∧
    ((2 < 2 % 3 → my_rows 2 3 2 = 2 / 3 + 1) ∧
    (¬ 2 < 2 % 3 → my_rows 2 3 2 = 2 / 3) ∧
    (2 < 3 → (my_rows 2 3 2 = 0 ↔ 2 ≤ 2)) ∧
    (planLoop 2 3 (fun _ => 0) (fun _ => 0)).sendcounts 2 = localCount 2 3 2 ∧
    (2 ≤ 46339 →
      (planLoop 2 3 (fun _ => 0) (fun _ => 0)).sendcounts 2 =
        ((my_rows 2 3 2 * 2 : Nat) : Int))) :=
  ⟨by decide, C3_row_counts 2 3 2 (by decide) (fun _ => 0) (fun _ => 0)⟩

/-- Claim C4 as stated fails beyond the range of `int`: with `N = 46341`, `W = 2` (every
worker owns a row) the allocation size `N * N` of `full_A` wraps to a negative `int`, the
allocation returns `NULL`, the scatter has no valid send buffer and the run has no defined
state after the halo exchange. -/
theorem C4_ghost_rows_counterexample :
    2 ≤ 2 ∧ 2 ≤ 46341 ∧
    wrap32 (((46341 : Nat) : Int) * ((46341 : Nat) : Int)) = -2147479015 ∧
    full_elems 46341 = none ∧
    ¬ ∃ A, haloed 46341 2 rampMatrix zeroUninit 1 = some A ∧
      A (0 * 46341 + 0) = rampMatrix ((rowOffset 46341 2 1 - 1) * 46341 + 0) := by
  refine ⟨by decide, by decide, by decide, by decide, ?_⟩
  rintro ⟨A, h, _⟩
  have hn : haloed 46341 2 rampMatrix zeroUninit 1 = none := if_neg (by decide)
  rw [hn] at h
  exact Option.noConfusion h

/-- Claim C4, amended to the range of `int`: for `W ≥ 2` and `W ≤ N ≤ 46339`, the run is
defined up to the end of the halo exchange, and then ghost row `0` of every rank `r > 0`
is global row `rowOffset r - 1`, which is the last real row (local row `my_rows`) of rank
`r - 1`, and ghost row `my_rows + 1` of every rank `r < W - 1` is global row
`rowOffset r + my_rows`, which is the first real row (local row `1`) of rank `r + 1`. -/
theorem C4_ghost_rows_after_halo {α : Type} (N W : Nat) (hfit : N ≤ 46339) (hW : 2 ≤ W)
    (hN : W ≤ N) (full_A : Nat → α) (u : Uninit α) (r : Nat) (hr : r < W) (c : Nat)
    (hc : c < N) :
    ∃ A, haloed N W full_A u r = some A ∧
    (0 < r → ∃ S, scattered N W full_A u (r - 1) = some S ∧
      A (0 * N + c) = full_A ((rowOffset N W r - 1) * N + c) ∧
      A (0 * N + c) = S (my_rows N W (r - 1) * N + c) ∧
      rowOffset N W r - 1 = rowOffset N W (r - 1) + my_rows N W (r - 1) - 1) ∧
    (r + 1 < W → ∃ S, scattered N W full_A u (r + 1) = some S ∧
      A ((my_rows N W r + 1) * N + c) = full_A ((rowOffset N W r + my_rows N W r) * N + c) ∧
      A ((my_rows N W r + 1) * N + c) = S (1 * N + c) ∧
      rowOffset N W r + my_rows N W r = rowOffset N W (r + 1)) := by
  have hne : ∀ r, r < W → 1 ≤ my_rows N W r := fun r _ => my_rows_pos N W (by omega) hN r
  refine ⟨haloedBuf N W full_A u r, haloed_eq_some N W hfit full_A u r, ?_, ?_⟩
  · intro h0
    have hr' : r - 1 < W := by omega
    have e : rowOffset N W r - 1 = rowOffset N W (r - 1) + my_rows N W (r - 1) - 1 := by
      obtain ⟨r', rfl⟩ : ∃ r', r = r' + 1 := ⟨r - 1, by omega⟩
      simp [rowOffset_succ]
    refine ⟨scatteredBuf N W full_A u (r - 1), scattered_eq_some N W hfit full_A u (r - 1),
      ?_, ?_, e⟩
    · rw [haloed_cell N W hfit full_A u hne r hr 0 c hc (by omega) (fun _ => h0) (by omega)]
      rfl
    · rw [haloed_cell N W hfit full_A u hne r hr 0 c hc (by omega) (fun _ => h0) (by omega),
        scattered_real N W hfit full_A u (r - 1) hr' _ c (hne _ hr') (le_refl _) hc, ← e]
      rfl
  · intro h1
    refine ⟨scatteredBuf N W full_A u (r + 1), scattered_eq_some N W hfit full_A u (r + 1),
      ?_, ?_, rfl⟩
    · rw [haloed_cell N W hfit full_A u hne r hr _ c hc (le_refl _) (by omega) (fun _ => h1)]
      rfl
    · rw [haloed_cell N W hfit full_A u hne r hr _ c hc (le_refl _) (by omega) (fun _ => h1),
        scattered_real N W hfit full_A u (r + 1) h1 1 c (le_refl 1) (hne _ h1) hc,
        rowOffset_succ]
      rfl

/-- Witness of the amended C4 at `N = 5`, `W = 2`: the ranges are `[0,3)` and `[3,5)`, the
lower ghost row of rank 0 is global row 3 and the upper ghost row of rank 1 is global
row 2. -/
theorem C4_ghost_rows_witness :
    5 ≤ 46339 ∧ 2 ≤ 2 ∧ 2 ≤ 5 ∧ 0 < 2 ∧ 1 < 2 ∧ 4 < 5 ∧
    rowOffset 5 2 0 = 0 ∧ my_rows 5 2 0 = 3 ∧ rowOffset 5 2 1 = 3 ∧ my_rows 5 2 1 = 2 ∧
    (∃ A, haloed 5 2 rampMatrix zeroUninit 0 = some A ∧
      A ((my_rows 5 2 0 + 1) * 5 + 4) =
        rampMatrix ((rowOffset 5 2 0 + my_rows 5 2 0) * 5 + 4)) ∧
    (∃ A, haloed 5 2 rampMatrix zeroUninit 1 = some A ∧
      A (0 * 5 + 4) = rampMatrix ((rowOffset 5 2 1 - 1) * 5 + 4)) := by
  refine ⟨by decide, by decide, by decide, by decide, by decide, by decide, by decide,
    by decide, by decide, by decide, ?_, ?_⟩
  · obtain ⟨A, h1, _, h3⟩ := C4_ghost_rows_after_halo 5 2 (by decide) (by decide)
      (by decide) rampMatrix zeroUninit 0 (by decide) 4 (by decide)
    obtain ⟨_, _, h4, _⟩ := h3 (by decide)
    exact ⟨A, h1, h4⟩
  · obtain ⟨A, h1, h2, _⟩ := C4_ghost_rows_after_halo 5 2 (by decide) (by decide)
      (by decide) rampMatrix zeroUninit 1 (by decide) 4 (by decide)
    obtain ⟨_, _, h4, _⟩ := h2 (by decide)
    exact ⟨A, h1, h4⟩

/-- Claim C5, evaluated where the code departs from it: with `N = 1`, `W = 2` rank 1 owns
no row (`my_rows = 0`, the plan sends it `0` elements), yet it posts two halo operations,
a receive from rank 0 into `local_A[0 .. 1)` and a send to rank 0 of `local_A[1 .. 2)`,
the "first row" of line 123.  Scatter wrote nothing there, so the element sent is what
`malloc` left (`10` in `tenUninit`), and rank 0 receives it in its lower ghost row
(index `2`). -/
theorem C5_zero_row_worker_posts_N1_W2 :
    my_rows 1 2 1 = 0 ∧
    (plan 1 2 tenUninit).sendcounts 1 = 0 ∧
    n_req 1 2 (my_rows 1 2 1) 1 = 2 ∧
    posted 1 2 1 =
      [⟨HaloKind.Irecv, 0, 1, 0, TAG_GHOST⟩, ⟨HaloKind.Isend, 1, 1, 0, TAG_GHOST⟩] ∧
    (scattered 1 2 (fun _ => 5) tenUninit 1).map (fun A => A 1) =
      some (tenUninit.local_A 1 1) ∧
    tenUninit.local_A 1 1 = 10 ∧
    (haloed 1 2 (fun _ => 5) tenUninit 0).map (fun A => A 2) = some 10 := by
  decide!

/-- Claim C6, evaluated where it fails: with `N = 3` and four workers, rank 2 owns the
single row 2 (the last row of the matrix) and is not the last rank, so for the cell
`(2, 1)`, a boundary cell that is no corner, the border phase counts its lower ghost row
and ends with `conta = 9`; the sequential kernel counts 6 cells there. -/
theorem C6_conta_last_row_N3_W4 :
    rowOffset 3 4 2 = 2 ∧ my_rows 3 4 2 = 1 ∧ rows_to_calc (my_rows 3 4 2) = [1] ∧
    (haloed 3 4 rampMatrix zeroUninit 2).map
      (fun A => (borderAcc ratOps 3 (my_rows 3 4 2) 2 4 A 1 1).2) = some 9 ∧
    (serialAcc ratOps 3 rampMatrix 2 1).2 = 6 := by
  decide!

/-- Claim C7 as stated fails beyond the range of `int`: with `W = 1`, `N = 46340` the
allocation size `(my_rows + 2) * N = 2147488280` of `local_A` wraps to a negative `int`,
the allocation returns `NULL`, scatter has no valid receive buffer and the hybrid run has
no defined result, while the sequential kernel is defined for every `N`. -/
theorem C7_single_worker_counterexample :
    wrap32 ((((my_rows 46340 1 0 : Nat) : Int) + 2) * ((46340 : Nat) : Int)) = -2147479016 ∧
    local_A_elems 46340 1 0 = none ∧
    ¬ ∃ T, hybrid ratOps 46340 1 rampMatrix zeroUninit = some T ∧
      ∀ k, k < 46340 * 46340 →
        T k = omp ratOps 46340 rampMatrix (fun _ => 0) k ∧
        T k = serial ratOps 46340 rampMatrix (fun _ => 0) k := by
  refine ⟨by decide, by decide, ?_⟩
  rintro ⟨T, h, _⟩
  have hn : hybrid ratOps 46340 1 rampMatrix zeroUninit = none := if_neg (by decide)
  rw [hn] at h
  exact Option.noConfusion h

/-- Claim C7, amended to the range of `int`: with a single worker no halo operation is
posted, and for `0 ≤ N ≤ 46339` and every input the hybrid run is defined and stores in
every cell what the shared-memory kernel and the sequential kernel store. -/
theorem C7_single_worker_equals_omp_and_serial {α : Type} (ops : FloatOps α) (N : Nat)
    (hfit : N ≤ 46339) (full_A : Nat → α) (u : Uninit α) (T0 T1 : Nat → Int) :
    n_req N 1 (my_rows N 1 0) 0 = 0 ∧
    ∃ T, hybrid ops N 1 full_A u = some T ∧
      ∀ k, k < N * N →
        T k = omp ops N full_A T0 k ∧ T k = serial ops N full_A T1 k := by
  refine ⟨by rw [n_req_eq]; simp, hybridBuf ops N 1 full_A u,
    hybrid_eq_some ops N 1 hfit full_A u, ?_⟩
  intro k hk
  have hN : 1 ≤ N := by
    rcases Nat.eq_zero_or_pos N with h | h
    · subst h; simp at hk
    · exact h
  constructor
  · rw [omp_eq_serial]
    exact hybrid_eq_serial_of_le ops N 1 hfit (le_refl 1) hN full_A u T0 k hk
  · exact hybrid_eq_serial_of_le ops N 1 hfit (le_refl 1) hN full_A u T1 k hk

/-- Witness of the amended C7 at `N = 4`. -/
theorem C7_single_worker_witness :
    4 ≤ 46339 ∧
    (n_req 4 1 (my_rows 4 1 0) 0 = 0 ∧
    ∃ T, hybrid ratOps 4 1 sampleMatrix zeroUninit = some T ∧
      ∀ k, k < 4 * 4 →
        T k = omp ratOps 4 sampleMatrix (fun _ => 0) k ∧
        T k = serial ratOps 4 sampleMatrix (fun _ => 0) k) :=
  ⟨by decide, C7_single_worker_equals_omp_and_serial ratOps 4 (by decide) sampleMatrix
    zeroUninit (fun _ => 0) (fun _ => 0)⟩

/-- Claim C8 as stated fails beyond the range of `int`: with `N = 46341`, `W = 1` the
count `sendcounts[0]` holds `-2147479015` and the allocation size `N * N` of `full_T`
wraps to the same negative `int`, so the allocation returns `NULL`; the hypothesis on the
blocks holds (no index is below a negative count) and the gather is no valid call, so it
reassembles nothing. -/
theorem C8_gather_counterexample :
    (plan 46341 1 zeroUninit).sendcounts 0 = -2147479015 ∧
    full_elems 46341 = none ∧
    (∀ r, r < 1 → ∀ k : Nat, (k : Int) < (plan 46341 1 zeroUninit).sendcounts r →
      rampMatrix k = rampMatrix (planDispls (plan 46341 1 zeroUninit) r + k)) ∧
    ¬ ∃ T, gathered 46341 1 zeroUninit (fun _ k => rampMatrix k) (fun _ => 0) = some T ∧
      ∀ i, i < 46341 * 46341 → T i = rampMatrix i := by
  have hs : (plan 46341 1 zeroUninit).sendcounts 0 = -2147479015 := by decide
  refine ⟨hs, by decide, ?_, ?_⟩
  · intro r hr k hk
    obtain rfl : r = 0 := by omega
    rw [hs] at hk
    omega
  · rintro ⟨T, h, _⟩
    have hn : gathered 46341 1 zeroUninit (fun _ k => rampMatrix k) (fun _ => 0) = none :=
      if_neg (by decide)
    rw [hn] at h
    exact Option.noConfusion h

/-- Claim C8, amended to the range of `int`: for `0 ≤ N ≤ 46339` and `W ≥ 1` gather is the
inverse of scatter under the shared plan.  If the block of every rank `r` is the slice of
`X` of length `sendcounts[r]` at `displs[r]`, the gather with the same `sendcounts`,
`displs` is a valid call and rebuilds `X` on `[0, N * N)`; and local result row `k` of
rank `r` lands at global row `rowOffset r + k`, the global row that scatter stores in
local input row `k + 1`. -/
theorem C8_gather_inverts_scatter {α : Type} (N W : Nat) (hfit : N ≤ 46339) (hW : 1 ≤ W)
    (X : Nat → α) (blocks : Nat → Nat → α) (recvbuf : Nat → α) (u : Uninit α)
    (hblocks : ∀ r, r < W → ∀ k : Nat, (k : Int) < (plan N W u).sendcounts r →
      blocks r k = X (planDispls (plan N W u) r + k)) :
    ∃ T, gathered N W u blocks recvbuf = some T ∧
    (∀ i, i < N * N → T i = X i) ∧
    (∀ r k c, r < W → k < my_rows N W r → c < N →
      T ((rowOffset N W r + k) * N + c) = blocks r (k * N + c) ∧
      ∃ A, scattered N W X u r = some A ∧
        A ((k + 1) * N + c) = X ((rowOffset N W r + k) * N + c)) := by
  refine ⟨_, gathered_eq_some N W hfit u blocks recvbuf, ?_, ?_⟩
  · intro i hi
    have hN0 : 0 < N := by
      rcases Nat.eq_zero_or_pos N with h | h
      · subst h; simp at hi
      · exact h
    have hg : i / N < N := (Nat.div_lt_iff_lt_mul hN0).2 hi
    have hj : i % N < N := Nat.mod_lt _ hN0
    have hdm : i = (i / N) * N + i % N := by
      have := Nat.div_add_mod i N
      rw [Nat.mul_comm] at this; omega
    obtain ⟨r, hr, h1, h2⟩ := exists_owner N W hW (i / N) hg
    have eg : i / N = rowOffset N W r + (i / N - rowOffset N W r) := by omega
    have hq : i / N - rowOffset N W r < my_rows N W r := by omega
    have hkc : (i / N - rowOffset N W r) * N + i % N < my_rows N W r * N := by
      have : (i / N - rowOffset N W r + 1) * N ≤ my_rows N W r * N :=
        Nat.mul_le_mul_right N hq
      have e : (i / N - rowOffset N W r + 1) * N = (i / N - rowOffset N W r) * N + N := by
        ring
      omega
    have e3 : (rowOffset N W r + (i / N - rowOffset N W r)) * N + i % N =
        rowOffset N W r * N + ((i / N - rowOffset N W r) * N + i % N) := by ring
    conv_lhs => rw [hdm, eg]
    rw [gather_plan_at N W hfit u blocks recvbuf r hr _ _ hq hj,
      hblocks r hr _ (by rw [plan_sendcounts_int N W hfit u r hr]; exact_mod_cast hkc),
      plan_displs N W hfit u r hr, ← e3, ← eg, ← hdm]
  · intro r k c hr hk hc
    refine ⟨gather_plan_at N W hfit u blocks recvbuf r hr k c hk hc,
      scatteredBuf N W X u r, scattered_eq_some N W hfit X u r, ?_⟩
    have e : rowOffset N W r + (k + 1) - 1 = rowOffset N W r + k := by omega
    rw [scattered_real N W hfit X u r hr (k + 1) c (by omega) (by omega) hc, e]

/-- Witness of the amended C8 at `N = 2`, `W = 2`, with `X[i] = i`. -/
theorem C8_gather_inverts_scatter_witness :
    2 ≤ 46339 ∧ 1 ≤ 2 ∧
    (∀ r, r < 2 → ∀ k : Nat, (k : Int) < (plan 2 2 zeroUninit).sendcounts r →
      rampMatrix (planDispls (plan 2 2 zeroUninit) r + k) =
        rampMatrix (planDispls (plan 2 2 zeroUninit) r + k)) ∧
    ∃ T, gathered 2 2 zeroUninit
        (fun r k => rampMatrix (planDispls (plan 2 2 zeroUninit) r + k)) (fun _ => 0) =
        some T ∧
      ∀ i, i < 2 * 2 → T i = rampMatrix i := by
  refine ⟨by decide, by decide, fun _ _ _ _ => rfl, ?_⟩
  obtain ⟨T, h1, h2, _⟩ := C8_gather_inverts_scatter 2 2 (by decide) (by decide) rampMatrix
    (fun r k => rampMatrix (planDispls (plan 2 2 zeroUninit) r + k)) (fun _ => 0) zeroUninit
    (fun _ _ _ _ => rfl)
  exact ⟨T, h1, h2⟩

/-- Claim C9 as stated fails beyond the range of `int`: with `N = 46340`, `W = 1` the
allocation size `(my_rows + 2) * N` of `local_A` wraps to a negative `int`, the allocation
returns `NULL`, and scatter, which is to store row `0` at `local_A[N ..]`, is no valid
call: no row is delivered. -/
theorem C9_scatter_counterexample :
    local_A_elems 46340 1 0 = none ∧
    ¬ ∃ A, scattered 46340 1 rampMatrix zeroUninit 0 = some A ∧
      A ((0 - rowOffset 46340 1 0 + 1) * 46340 + 0) = rampMatrix (0 * 46340 + 0) := by
  refine ⟨by decide, ?_⟩
  rintro ⟨A, h, _⟩
  have hn : scattered 46340 1 rampMatrix zeroUninit 0 = none := if_neg (by decide)
  rw [hn] at h
  exact Option.noConfusion h

/-- Claim C9, amended to the range of `int`: for `0 ≤ N ≤ 46339` and `W ≥ 1`, every global
row `g < N` has exactly one owner `r`; the scatter is a valid call and stores row `g` in
local row `g - rowOffset r + 1` of its owner, so local rows `1 .. my_rows` hold the
owner's global rows in order; it leaves ghost row `0` and ghost row `my_rows + 1` of
every rank as they were; and every element of the matrix is stored at exactly one index
of exactly one rank. -/
theorem C9_scatter_exactly_once {α : Type} (N W : Nat) (hfit : N ≤ 46339) (hW : 1 ≤ W)
    (full_A : Nat → α) (u : Uninit α) :
    (∀ g, g < N → ∃! r, r < W ∧ rowOffset N W r ≤ g ∧
      g < rowOffset N W r + my_rows N W r) ∧
    (∀ r, r < W → ∃ A, scattered N W full_A u r = some A ∧
      (∀ g c, rowOffset N W r ≤ g → g < rowOffset N W r + my_rows N W r → c < N →
        1 ≤ g - rowOffset N W r + 1 ∧ g - rowOffset N W r + 1 ≤ my_rows N W r ∧
        A ((g - rowOffset N W r + 1) * N + c) = full_A (g * N + c) ∧
        scatterSource (planCounts (plan N W u)) (planDispls (plan N W u)) N
          (localCount N W r).toNat r ((g - rowOffset N W r + 1) * N + c) =
          some (g * N + c)) ∧
      (∀ c, c < N →
        A (0 * N + c) = u.local_A r (0 * N + c) ∧
        A ((my_rows N W r + 1) * N + c) = u.local_A r ((my_rows N W r + 1) * N + c))) ∧
    (∀ r r' k k' x, r < W → r' < W →
      scatterSource (planCounts (plan N W u)) (planDispls (plan N W u)) N
        (localCount N W r).toNat r k = some x →
      scatterSource (planCounts (plan N W u)) (planDispls (plan N W u)) N
        (localCount N W r').toNat r' k' = some x →
      r = r' ∧ k = k') := by
  have hsrc : ∀ r k x, r < W →
      scatterSource (planCounts (plan N W u)) (planDispls (plan N W u)) N
        (localCount N W r).toNat r k = some x →
      (N ≤ k ∧ k < N + my_rows N W r * N) ∧ x = rowOffset N W r * N + (k - N) := by
    intro r k x hr h
    unfold scatterSource at h
    rw [plan_sendcounts N W hfit u r hr, plan_displs N W hfit u r hr,
      localCount_toNat N W hfit r hr, Nat.min_self] at h
    split_ifs at h with hc
    exact ⟨hc, (Option.some.inj h).symm⟩
  refine ⟨?_, ?_, ?_⟩
  · intro g hg
    obtain ⟨r, hr, h1, h2⟩ := exists_owner N W hW g hg
    exact ⟨r, ⟨hr, h1, h2⟩, fun r' h => owner_unique N W g r' r h.2.1 h.2.2 h1 h2⟩
  · intro r hr
    refine ⟨scatteredBuf N W full_A u r, scattered_eq_some N W hfit full_A u r, ?_, ?_⟩
    · intro g c h1 h2 hc
      have e : rowOffset N W r + (g - rowOffset N W r + 1) - 1 = g := by omega
      refine ⟨by omega, by omega, ?_, ?_⟩
      · rw [scattered_real N W hfit full_A u r hr _ c (by omega) (by omega) hc, e]
      · unfold scatterSource
        rw [plan_sendcounts N W hfit u r hr, plan_displs N W hfit u r hr,
          localCount_toNat N W hfit r hr, Nat.min_self]
        have hle : (g - rowOffset N W r + 1) * N ≤ my_rows N W r * N :=
          Nat.mul_le_mul_right N (by omega)
        have e1 : (g - rowOffset N W r + 1) * N = (g - rowOffset N W r) * N + N := by ring
        have e2 : g * N = rowOffset N W r * N + (g - rowOffset N W r) * N := by
          rw [← Nat.add_mul]; congr 1; omega
        rw [if_pos (by omega)]
        congr 1
        omega
    · intro c hc
      constructor
      · exact scattered_frame N W hfit full_A u r hr _ (Or.inl (by omega))
      · exact scattered_frame N W hfit full_A u r hr _ (Or.inr (by omega))
  · intro r r' k k' x hr hr' h h'
    obtain ⟨⟨a1, a2⟩, a3⟩ := hsrc r k x hr h
    obtain ⟨⟨b1, b2⟩, b3⟩ := hsrc r' k' x hr' h'
    have hN : 0 < N := by
      rcases Nat.eq_zero_or_pos N with h0 | h0
      · subst h0; omega
      · exact h0
    have row : ∀ s, s < W → rowOffset N W s * N ≤ x →
        x < rowOffset N W s * N + my_rows N W s * N →
        rowOffset N W s ≤ x / N ∧ x / N < rowOffset N W s + my_rows N W s := by
      intro s _ l1 l2
      constructor
      · exact (Nat.le_div_iff_mul_le hN).2 l1
      · rw [Nat.div_lt_iff_lt_mul hN, Nat.add_mul]; exact l2
    obtain ⟨c1, c2⟩ := row r hr (by omega) (by omega)
    obtain ⟨c1', c2'⟩ := row r' hr' (by omega) (by omega)
    have err : r = r' := owner_unique N W (x / N) r r' c1 c2 c1' c2'
    subst err
    exact ⟨rfl, by omega⟩

/-- Witness of the amended C9 at `N = 5`, `W = 2`: global row 3 is local row 1 of
rank 1. -/
theorem C9_scatter_exactly_once_witness :
    5 ≤ 46339 ∧ 1 ≤ 2 ∧ 1 < 2 ∧ rowOffset 5 2 1 ≤ 3 ∧ 3 < rowOffset 5 2 1 + my_rows 5 2 1 ∧
    2 < 5 ∧
    ∃ A, scattered 5 2 rampMatrix zeroUninit 1 = some A ∧
      A ((3 - rowOffset 5 2 1 + 1) * 5 + 2) = rampMatrix (3 * 5 + 2) := by
  refine ⟨by decide, by decide, by decide, by decide, by decide, by decide, ?_⟩
  obtain ⟨A, h1, h2, _⟩ := (C9_scatter_exactly_once 5 2 (by decide) (by decide) rampMatrix
    zeroUninit).2.1 1 (by decide)
  exact ⟨A, h1, (h2 3 2 (by decide) (by decide) (by decide)).2.2.1⟩


/-! ## Allocation failures -/

/-- Claim C10, evaluated where it fails: on rank 1 of 2 with `N = 2`, when `malloc`
returns `NULL` for `local_T` and succeeds otherwise, the process enters `MPI_Scatterv`
with the failure undetected, writes no error message, and then stores through the null
pointer in the border phase.  On rank 0 with every allocation successful the run is
scatter, gather, the two output lines and `return 0`.  No run of any process writes an
error message, and every process of rank other than `0` enters the scatter whatever its
allocations gave. -/
theorem C10_allocation_failure_undetected :
    run (hybridMain 2 2 1 ⟨true, true, true, false, true, true⟩) =
      [Event.scatterv, Event.nullAccess] ∧
    run (hybridMain 2 2 0 ⟨true, true, true, true, true, true⟩) =
      [Event.scatterv, Event.gatherv, Event.tempoLine, Event.checksumLine,
        Event.exit 0] ∧
    (∀ N size rank a, Event.errorMessage ∉ run (hybridMain N size rank a)) ∧
    (∀ N size rank a, (run (hybridMain N size (rank + 1) a)).head? = some Event.scatterv) :=
  ⟨by decide, by decide, hybridMain_no_errorMessage, hybridMain_enters_scatterv⟩

/-! ## Input values -/

/-- Claim C11 as stated fails: `rand()` may return `RAND_MAX`, and then the stored value
is `100`, which is not below `100` (here with `RAND_MAX = 2147483647`), in exact
arithmetic and in binary32 alike; in binary32 the value `RAND_MAX - 1` is stored as `100`
as well, since `(float)2147483646 = (float)2147483647 = 2^31`. -/
theorem C11_input_value_counterexample :
    ¬ (2147483647 ≤ 2147483647 →
      0 ≤ initValue (fun x => x) 2147483647 2147483647 ∧
      initValue (fun x => x) 2147483647 2147483647 < 100) ∧
    initValue roundF32 2147483647 2147483647 = 100 ∧
    roundF32 2147483646 = 2147483648 ∧
    initValue roundF32 2147483647 2147483646 = 100 := by
  refine ⟨?_, by decide!, by decide!, by decide!⟩
  intro h
  have h2 := (h (le_refl _)).2
  norm_num [initValue, MAX_VAL] at h2

/-- Claim C11, amended: for every `v` with `0 ≤ v ≤ RAND_MAX` the stored value lies in the
closed interval `[0, 100]`, and `100` is stored for `v = RAND_MAX`.  This holds for every
rounding `rnd` that is monotone and leaves `0`, `1` and `100` unchanged, as do exact
arithmetic (the identity) and the rounding to the nearest binary32 number (`roundF32`,
by `roundF32_mono`, `roundF32_zero`, `roundF32_one`, `roundF32_hundred`). -/
theorem C11_input_value_range (rnd : ℚ → ℚ) (RAND_MAX v : Nat)
    (hmono : ∀ x y, x ≤ y → rnd x ≤ rnd y) (h0 : rnd 0 = 0) (h1 : rnd 1 = 1)
    (h100 : rnd 100 = 100) (hR : 0 < RAND_MAX) (hv : v ≤ RAND_MAX) :
    0 ≤ initValue rnd RAND_MAX v ∧ initValue rnd RAND_MAX v ≤ 100 ∧
    initValue rnd RAND_MAX RAND_MAX = 100 := by
  have hRq : (1 : ℚ) ≤ (RAND_MAX : ℚ) := by exact_mod_cast hR
  have hvq : (v : ℚ) ≤ (RAND_MAX : ℚ) := by exact_mod_cast hv
  have hv0 : (0 : ℚ) ≤ (v : ℚ) := by exact_mod_cast Nat.zero_le v
  have a1 : 0 ≤ rnd (v : ℚ) := by rw [← h0]; exact hmono _ _ hv0
  have a2 : rnd (v : ℚ) ≤ rnd (RAND_MAX : ℚ) := hmono _ _ hvq
  have a3 : 1 ≤ rnd (RAND_MAX : ℚ) := by rw [← h1]; exact hmono _ _ hRq
  have a4 : (0 : ℚ) < rnd (RAND_MAX : ℚ) := by linarith
  have b1 : 0 ≤ rnd (v : ℚ) / rnd (RAND_MAX : ℚ) := div_nonneg a1 (le_of_lt a4)
  have b2 : rnd (v : ℚ) / rnd (RAND_MAX : ℚ) ≤ 1 := by
    rw [div_le_iff₀ a4]; linarith
  have c1 : 0 ≤ rnd (rnd (v : ℚ) / rnd (RAND_MAX : ℚ)) := by
    rw [← h0]; exact hmono _ _ b1
  have c2 : rnd (rnd (v : ℚ) / rnd (RAND_MAX : ℚ)) ≤ 1 := by
    rw [← h1]; exact hmono _ _ b2
  unfold initValue MAX_VAL
  refine ⟨?_, ?_, ?_⟩
  · have h := hmono 0 (rnd (rnd (v : ℚ) / rnd (RAND_MAX : ℚ)) * 100) (by linarith)
    rw [h0] at h
    exact h
  · have h := hmono (rnd (rnd (v : ℚ) / rnd (RAND_MAX : ℚ)) * 100) 100 (by linarith)
    rw [h100] at h
    exact h
  · rw [div_self (ne_of_gt a4), h1, one_mul, h100]

/-- Witness of the amended C11 at `RAND_MAX = 2147483647`, `v = 1073741823`, for the
binary32 rounding of the program and for exact arithmetic. -/
theorem C11_input_value_range_witness :
    ((∀ x y : ℚ, x ≤ y → roundF32 x ≤ roundF32 y) ∧
    roundF32 0 = 0 ∧ roundF32 1 = 1 ∧ roundF32 100 = 100 ∧
    0 < 2147483647 ∧ 1073741823 ≤ 2147483647 ∧
    (0 ≤ initValue roundF32 2147483647 1073741823 ∧
    initValue roundF32 2147483647 1073741823 ≤ 100 ∧
    initValue roundF32 2147483647 2147483647 = 100)) ∧
    (0 ≤ initValue (fun x => x) 2147483647 1073741823 ∧
    initValue (fun x => x) 2147483647 1073741823 ≤ 100 ∧
    initValue (fun x => x) 2147483647 2147483647 = 100) :=
  ⟨⟨roundF32_mono, roundF32_zero, roundF32_one, roundF32_hundred, by decide, by decide,
    C11_input_value_range roundF32 2147483647 1073741823 roundF32_mono roundF32_zero
      roundF32_one roundF32_hundred (by decide) (by decide)⟩,
    C11_input_value_range (fun x => x) 2147483647 1073741823 (fun _ _ h => h) rfl rfl rfl
      (by decide) (by decide)⟩

/-! ## Checksum -/

/-- Claim C12 as stated fails beyond the range of `int`: with `N = 46341` the loop bound
`N * N` wraps to `-2147479015`, the loop body never runs and the checksum is `0` whatever
the array holds, for an array of ones too, whose `N * N` entries sum to `2147488281`;
and with `W = 1` the run has no defined gathered result (the allocation of `full_T`
returns `NULL`). -/
theorem C12_checksum_counterexample :
    wrap32 (((46341 : Nat) : Int) * ((46341 : Nat) : Int)) = -2147479015 ∧
    (∀ T, checksum 46341 T = 0) ∧
    ((List.range (46341 * 46341)).map (fun _ => (1 : Int))).sum = 2147488281 ∧
    ¬ (checksum 46341 (fun _ => 1) =
      ((List.range (46341 * 46341)).map (fun _ => (1 : Int))).sum) ∧
    ¬ ∃ T, hybrid ratOps 46341 1 rampMatrix zeroUninit = some T ∧
      checksum 46341 T = ((List.range (46341 * 46341)).map T).sum := by
  have hz : ∀ T, checksum 46341 T = 0 := by
    intro T
    unfold checksum
    have e : (wrap32 (((46341 : Nat) : Int) * ((46341 : Nat) : Int))).toNat = 0 := by decide
    rw [e]
    exact forLoop_of_le _ _ _ _ (le_refl 0)
  have hs : ((List.range (46341 * 46341)).map (fun _ => (1 : Int))).sum = 2147488281 := by
    rw [sum_ones]; norm_num
  refine ⟨by decide, hz, hs, ?_, ?_⟩
  · rw [hz, hs]; decide
  · rintro ⟨T, h, _⟩
    have hn : hybrid ratOps 46341 1 rampMatrix zeroUninit = none := if_neg (by decide)
    rw [hn] at h
    exact Option.noConfusion h

/-- Claim C12, amended to the range of `int`: for `0 ≤ N ≤ 46339`, every `W ≥ 1` and every
input the run is defined, the checksum of the coordinator is the sum of the `N * N`
entries of the gathered array, each of them is `0` or `1`, so the checksum is the number
of cells marked `1` and lies between `0` and `N * N`. -/
theorem C12_checksum_counts_ones {α : Type} (ops : FloatOps α) (N W : Nat)
    (hfit : N ≤ 46339) (hW : 1 ≤ W) (full_A : Nat → α) (u : Uninit α) :
    ∃ T, hybrid ops N W full_A u = some T ∧
      checksum N T = ((List.range (N * N)).map T).sum ∧
      (∀ k, k < N * N → T k = 0 ∨ T k = 1) ∧
      checksum N T =
        (((List.range (N * N)).countP (fun k => decide (T k = 1)) : Nat) : Int) ∧
      0 ≤ checksum N T ∧
      checksum N T ≤ ((N * N : Nat) : Int) := by
  have hb := hybrid_binary ops N W hfit hW full_A u
  obtain ⟨h1, h2⟩ := sum_binary (hybridBuf ops N W full_A u) (N * N) hb
  refine ⟨hybridBuf ops N W full_A u, hybrid_eq_some ops N W hfit full_A u, ?_⟩
  rw [checksum_eq_sum N hfit]
  refine ⟨rfl, hb, h1, ?_, ?_⟩
  · rw [h1]; exact Int.natCast_nonneg _
  · rw [h1]; exact_mod_cast h2

/-- Witness of the amended C12 at `N = 2`, `W = 3` (one rank owns no row). -/
theorem C12_checksum_counts_ones_witness :
    2 ≤ 46339 ∧ 1 ≤ 3 ∧
    ∃ T, hybrid ratOps 2 3 sampleMatrix zeroUninit = some T ∧
      checksum 2 T = ((List.range (2 * 2)).map T).sum ∧
      (∀ k, k < 2 * 2 → T k = 0 ∨ T k = 1) ∧
      checksum 2 T =
        (((List.range (2 * 2)).countP (fun k => decide (T k = 1)) : Nat) : Int) ∧
      0 ≤ checksum 2 T ∧
      checksum 2 T ≤ ((2 * 2 : Nat) : Int) :=
  ⟨by decide, by decide,
    C12_checksum_counts_ones ratOps 2 3 (by decide) (by decide) sampleMatrix zeroUninit⟩

/-- Claim C13, evaluated where it fails: on the `1 x 1` matrix `[5]` the checksum is `0`
with one worker and `1` with two workers (zeroed buffers), and with two workers it is `1`
or `0` according to what the never written buffer of rank 1 held (`0` or `10`); each of
the three runs is defined. -/
theorem C13_checksum_depends_on_workers_N1 :
    (hybrid ratOps 1 1 (fun _ => 5) zeroUninit).map (checksum 1) = some 0 ∧
    (hybrid ratOps 1 2 (fun _ => 5) zeroUninit).map (checksum 1) = some 1 ∧
    (hybrid ratOps 1 2 (fun _ => 5) tenUninit).map (checksum 1) = some 0 ∧
    my_rows 1 2 1 = 0 ∧
    (haloed 1 2 (fun _ => 5) zeroUninit 0).map (fun A => A ((my_rows 1 2 0 + 1) * 1 + 0)) =
      some (zeroUninit.local_A 1 1) := by
  decide!

/-! ## Rows and cells processed by the two phases -/

/-- Claim C14: for every `my_rows = m` the rows of the interior phase (`2 .. m - 1`)
followed by `rows_to_calc` list each local row of `1 .. m` exactly once and no other
row; with `m = 1` row 1 is listed once, by the border phase; with `m = 0` both lists are
empty; the two phases are the folds of their store over the listed cells, and the
indices `(i - 1) * N + j` they store to are pairwise different and are exactly the
indices below `m * N`. -/
theorem C14_each_row_processed_once (N m : Nat) :
    (interiorRows m ++ rows_to_calc m).Nodup ∧
    (∀ i, i ∈ interiorRows m ++ rows_to_calc m ↔ 1 ≤ i ∧ i ≤ m) ∧
    (interiorRows 1 = [] ∧ rows_to_calc 1 = [1]) ∧
    (interiorRows 0 = [] ∧ rows_to_calc 0 = []) ∧
    ((interiorCells N m ++ borderCells N m).map (writeIndex N)).Nodup ∧
    (∀ k, k ∈ (interiorCells N m ++ borderCells N m).map (writeIndex N) ↔ k < m * N) ∧
    (∀ (α : Type) (ops : FloatOps α) (A : Nat → α) (T : Nat → Int),
      interiorPhase ops N m A T =
        (interiorCells N m).foldl (fun T p =>
          Function.update T (writeIndex N p)
            (binarize ops (A (p.1 * N + p.2)) (interiorAcc ops N A p.1 p.2))) T) ∧
    (∀ (α : Type) (ops : FloatOps α) (rank size : Nat) (A : Nat → α) (T : Nat → Int),
      borderPhase ops N m rank size A T =
        (borderCells N m).foldl (fun T p =>
          Function.update T (writeIndex N p)
            (binarize ops (A (p.1 * N + p.2)) (borderAcc ops N m rank size A p.1 p.2))) T) := by
  refine ⟨nodup_processed_rows m, mem_processed_rows m, ⟨by decide, by decide⟩,
    ⟨by decide, by decide⟩, ?_, ?_, fun α ops A T => interiorPhase_eq_foldl ops N m A T,
    fun α ops rank size A T => borderPhase_eq_foldl ops N m rank size A T⟩
  · apply List.Nodup.map_on _ (nodup_processed_cells N m)
    intro p hp q hq h
    rw [mem_processed_cells] at hp hq
    exact writeIndex_inj N p q hp.1.1 hp.2 hq.1.1 hq.2 h
  · intro k
    rw [List.mem_map]
    constructor
    · rintro ⟨p, hp, rfl⟩
      rw [mem_processed_cells] at hp
      unfold writeIndex
      have h1 : (p.1 - 1 + 1) * N ≤ m * N := Nat.mul_le_mul_right N (by omega)
      have e : (p.1 - 1 + 1) * N = (p.1 - 1) * N + N := by ring
      omega
    · intro hk
      have hN : 0 < N := by
        rcases Nat.eq_zero_or_pos N with h | h
        · subst h; simp at hk
        · exact h
      have hq : k / N < m := (Nat.div_lt_iff_lt_mul hN).2 hk
      have hj : k % N < N := Nat.mod_lt _ hN
      refine ⟨(k / N + 1, k % N), (mem_processed_cells N m _).2 ⟨⟨by simp, by simpa using hq⟩,
        hj⟩, ?_⟩
      unfold writeIndex
      have := Nat.div_add_mod k N
      rw [Nat.mul_comm] at this
      simpa using this

/-! ## Indices read and written by the hybrid stencil -/

/-- Claim C15: the interior phase does not depend on the ghost rows.  If two buffers
agree on the real rows (indices `N ≤ k < (m + 1) * N`), the interior phase stores the
same values from either; every index it reads, the centre cell included, lies in local
rows `1 .. m`. -/
theorem C15_interior_independent_of_halo {α : Type} (ops : FloatOps α) (N m : Nat)
    (A B : Nat → α) (T : Nat → Int) (h : ∀ k, N ≤ k → k < (m + 1) * N → A k = B k) :
    interiorPhase ops N m A T = interiorPhase ops N m B T ∧
    (∀ i j d x, 2 ≤ i → i < m → j < N → d ∈ window → interiorRead N i j d = some x →
      ((N : Nat) : Int) ≤ x ∧ x < (((m + 1) * N : Nat) : Int)) ∧
    (∀ i j, 2 ≤ i → i < m → j < N → N ≤ i * N + j ∧ i * N + j < (m + 1) * N) := by
  refine ⟨?_, ?_, ?_⟩
  · funext k
    rw [interiorPhase_at, interiorPhase_at]
    split_ifs with hc
    · obtain ⟨hm, h1, h2⟩ := hc
      have hN : 0 < N := by
        rcases Nat.eq_zero_or_pos N with h0 | h0
        · subst h0; simp at h2
        · exact h0
      have hq1 : 1 ≤ k / N := (Nat.one_le_div_iff hN).2 h1
      have hq2 : k / N < m - 1 := (Nat.div_lt_iff_lt_mul hN).2 h2
      have hj : k % N < N := Nat.mod_lt _ hN
      rw [h _ (row_index_ge N _ _ (by omega)) (row_index_lt N _ _ (m + 1) (by omega) hj)]
      congr 1
      unfold interiorAcc
      exact foldl_congr_mem _ _ _ (fun d hd s =>
        interiorStep_congr ops N m A B h (k / N + 1) (k % N) (by omega) (by omega) d hd s) _
    · rfl
  · intro i j d x hi1 hi2 _ hd hx
    obtain ⟨l, c, h1, h2, h3, rfl⟩ := interiorRead_bounds N m i j hi1 hi2 d hd x hx
    exact ⟨by exact_mod_cast row_index_ge N l c h1,
      by exact_mod_cast row_index_lt N l c (m + 1) (by omega) h3⟩
  · intro i j hi1 hi2 hj
    exact ⟨row_index_ge N i j (by omega), row_index_lt N i j (m + 1) (by omega) hj⟩

/-- Witness of C15 at `N = 2`, `m = 3`: two buffers that differ on both ghost rows. -/
theorem C15_interior_independent_witness :
    (∀ k, 2 ≤ k → k < (3 + 1) * 2 →
      rampMatrix k = (fun k => if 2 ≤ k ∧ k < 8 then rampMatrix k else 77) k) ∧
    interiorPhase ratOps 2 3 rampMatrix (fun _ => 0) =
      interiorPhase ratOps 2 3 (fun k => if 2 ≤ k ∧ k < 8 then rampMatrix k else 77)
        (fun _ => 0) :=
  ⟨fun k h1 h2 => by simp [h1, show k < 8 by omega],
    (C15_interior_independent_of_halo ratOps 2 3 rampMatrix
      (fun k => if 2 ≤ k ∧ k < 8 then rampMatrix k else 77) (fun _ => 0)
      (fun k h1 h2 => by simp [h1, show k < 8 by omega])).1⟩

/-! ## Pairing of the halo operations -/

/-- Claim C16: for every `N`, `W` and rank `r < W` (zero-row ranks included), rank `r`
posts `2 * [r > 0] + 2 * [r < W - 1] ≤ 4` operations, all with tag `TAG_GHOST`, `N`
elements and a peer rank below `W`; it posts each of them once; for every send it posts,
its peer posts exactly one receive with source `r` and that tag; for every receive it
posts, its peer posts exactly one send with destination `r` and that tag, which is the
send `MPI_Waitall` pairs it with. -/
theorem C16_halo_operations_pair_up (N W r : Nat) (hr : r < W) :
    n_req N W (my_rows N W r) r =
      2 * (if 0 < r then 1 else 0) + 2 * (if r + 1 < W then 1 else 0) ∧
    n_req N W (my_rows N W r) r ≤ 4 ∧
    (∀ op, op ∈ posted N W r → op.peer < W ∧ op.tag = TAG_GHOST ∧ op.count = N) ∧
    (∀ op, op ∈ posted N W r →
      (posted N W r).countP
        (fun o => decide (o.kind = op.kind ∧ o.peer = op.peer ∧ o.tag = TAG_GHOST)) = 1) ∧
    (∀ op, op ∈ posted N W r → op.kind = HaloKind.Isend →
      (posted N W op.peer).countP
        (fun o => decide (o.kind = HaloKind.Irecv ∧ o.peer = r ∧ o.tag = TAG_GHOST)) = 1) ∧
    (∀ op, op ∈ posted N W r → op.kind = HaloKind.Irecv →
      (posted N W op.peer).countP
        (fun o => decide (o.kind = HaloKind.Isend ∧ o.peer = r ∧ o.tag = TAG_GHOST)) = 1 ∧
      (matchingSend (posted N W) r op).isSome = true) := by
  refine ⟨n_req_eq N W _ r, ?_, ?_, ?_, ?_, ?_⟩
  · rw [n_req_eq]; split_ifs <;> omega
  · intro op hop
    rcases mem_reqs N W _ r op hop with h | h | h | h <;> obtain ⟨rfl, h'⟩ := h <;>
      exact ⟨by simp only []; omega, rfl, rfl⟩
  · intro op hop
    unfold posted
    rcases mem_reqs N W _ r op hop with h | h | h | h <;> obtain ⟨rfl, h'⟩ := h <;>
      simp only [] <;> rw [countP_reqs] <;> split_ifs <;> omega
  · intro op hop hk
    unfold posted
    rcases mem_reqs N W _ r op hop with h | h | h | h <;> obtain ⟨rfl, h'⟩ := h <;>
      simp only [] at hk ⊢
    · cases hk
    · cases hk
    · rw [countP_reqs]; split_ifs <;> omega
    · rw [countP_reqs]; split_ifs <;> omega
  · intro op hop hk
    rcases mem_reqs N W _ r op hop with h | h | h | h <;> obtain ⟨rfl, h'⟩ := h <;>
      simp only [] at hk ⊢
    · constructor
      · unfold posted; rw [countP_reqs]; split_ifs <;> omega
      · rw [matchingSend_up N W r h' hr]; rfl
    · constructor
      · unfold posted; rw [countP_reqs]; split_ifs <;> omega
      · rw [matchingSend_down N W _ r]; rfl
    · cases hk
    · cases hk

/-- Witness of C16 at `N = 1`, `W = 3`, rank `1`, which owns no row and has two
neighbours: it posts four operations, and its send to rank 0 meets exactly one receive
of rank 0 from rank 1. -/
theorem C16_halo_operations_witness :
    1 < 3 ∧ my_rows 1 3 1 = 0 ∧ n_req 1 3 (my_rows 1 3 1) 1 = 4 ∧
    (⟨HaloKind.Isend, 1, 1, 0, TAG_GHOST⟩ : HaloOp) ∈ posted 1 3 1 ∧
    (posted 1 3 0).countP
      (fun o => decide (o.kind = HaloKind.Irecv ∧ o.peer = 1 ∧ o.tag = TAG_GHOST)) = 1 :=
  ⟨by decide, by decide, by decide, by decide,
    (C16_halo_operations_pair_up 1 3 1 (by decide)).2.2.2.2.1
      ⟨HaloKind.Isend, 1, 1, 0, TAG_GHOST⟩ (by decide) rfl⟩

/-! ## The hybrid engine when every rank owns a row -/

/-- Claim C17 as stated fails beyond the range of `int`: with `N = 46341`, `W = 2` every
worker owns a row, but the allocation size `N * N` of `full_A` and `full_T` wraps to a
negative `int`, the allocations return `NULL` and the run has no defined result, while
the sequential kernel is defined for every `N`. -/
theorem C17_hybrid_equals_serial_counterexample :
    1 ≤ 2 ∧ 2 ≤ 46341 ∧ full_elems 46341 = none ∧
    ¬ ∃ T, hybrid ratOps 46341 2 rampMatrix zeroUninit = some T ∧
      ∀ k, k < 46341 * 46341 → T k = serial ratOps 46341 rampMatrix (fun _ => 0) k := by
  refine ⟨by decide, by decide, by decide, ?_⟩
  rintro ⟨T, h, _⟩
  have hn : hybrid ratOps 46341 2 rampMatrix zeroUninit = none := if_neg (by decide)
  rw [hn] at h
  exact Option.noConfusion h

/-- Claim C17, amended to the range of `int`: when every worker owns a row
(`1 ≤ W ≤ N`) and `N ≤ 46339`, the run is defined and the gathered array equals the
sequential result cell for cell; for every local cell the interior and the border
stencil take, for each `(dx, dy)` in loop order, the step the sequential stencil takes at
the global cell, so `(somma, conta)` agree; and `valid_row` holds exactly when the
global row `rowOffset + i - 1 + dx` is in `[0, N)`. -/
theorem C17_hybrid_equals_serial_when_no_rank_empty {α : Type} (ops : FloatOps α)
    (N W : Nat) (hfit : N ≤ 46339) (hW : 1 ≤ W) (hN : W ≤ N) (full_A : Nat → α)
    (u : Uninit α) (T0 : Nat → Int) :
    (∃ T, hybrid ops N W full_A u = some T ∧
      ∀ k, k < N * N → T k = serial ops N full_A T0 k) ∧
    (∀ r, r < W → ∃ S A, scattered N W full_A u r = some S ∧
      haloed N W full_A u r = some A ∧
      (∀ i j d acc, 2 ≤ i → i < my_rows N W r → d ∈ window →
        interiorStep ops N S i j acc d =
          serialStep ops N full_A (rowOffset N W r + i - 1) j acc d) ∧
      (∀ i j d acc, 1 ≤ i → i ≤ my_rows N W r → d ∈ window →
        borderStep ops N (my_rows N W r) r W A i j acc d =
          serialStep ops N full_A (rowOffset N W r + i - 1) j acc d) ∧
      (∀ i j, 1 ≤ i → i ≤ my_rows N W r →
        (2 ≤ i → i < my_rows N W r →
          interiorAcc ops N S i j = serialAcc ops N full_A (rowOffset N W r + i - 1) j) ∧
        borderAcc ops N (my_rows N W r) r W A i j =
          serialAcc ops N full_A (rowOffset N W r + i - 1) j)) ∧
    (∀ r i dx, r < W → 1 ≤ i → i ≤ my_rows N W r → (dx = -1 ∨ dx = 0 ∨ dx = 1) →
      (valid_row (my_rows N W r) r W ((i : Int) + dx) = true ↔
        (((rowOffset N W r + i - 1 : Nat) : Int) + dx ≥ 0 ∧
          ((rowOffset N W r + i - 1 : Nat) : Int) + dx < (N : Int)))) := by
  have hne : ∀ r, r < W → 1 ≤ my_rows N W r := fun r _ => my_rows_pos N W hW hN r
  refine ⟨⟨hybridBuf ops N W full_A u, hybrid_eq_some ops N W hfit full_A u, ?_⟩, ?_, ?_⟩
  · intro k hk
    exact hybrid_eq_serial_of_le ops N W hfit hW hN full_A u T0 k hk
  · intro r hr
    refine ⟨scatteredBuf N W full_A u r, haloedBuf N W full_A u r,
      scattered_eq_some N W hfit full_A u r, haloed_eq_some N W hfit full_A u r, ?_, ?_, ?_⟩
    · intro i j d acc h1 h2 hd
      exact interiorStep_eq_serialStep ops N W hfit hW full_A u hne r hr i j h1 h2 d hd acc
    · intro i j d acc h1 h2 hd
      exact borderStep_eq_serialStep ops N W hfit hW full_A u hne r hr i j h1 h2 d hd acc
    · intro i j h1 h2
      exact hybridAcc_eq_serialAcc ops N W hfit hW full_A u hne r hr i j h1 h2
  · intro r i dx hr h1 h2 hdx
    exact valid_row_iff N W hW hne r hr i h1 h2 dx hdx

/-- Witness of the amended C17 at `N = 3`, `W = 2`. -/
theorem C17_hybrid_equals_serial_witness :
    3 ≤ 46339 ∧ 1 ≤ 2 ∧ 2 ≤ 3 ∧
    ∃ T, hybrid ratOps 3 2 sampleMatrix zeroUninit = some T ∧
      ∀ k, k < 3 * 3 → T k = serial ratOps 3 sampleMatrix (fun _ => 0) k :=
  ⟨by decide, by decide, by decide,
    (C17_hybrid_equals_serial_when_no_rank_empty ratOps 3 2 (by decide) (by decide)
      (by decide) sampleMatrix zeroUninit (fun _ => 0)).1⟩

/-! ## The divisor of the mean -/

/-- Claim C18: `conta ≥ 1` at every processed cell: in the sequential and the
shared-memory kernel for `i, j < N`, in the interior phase for `2 ≤ i < my_rows`, and in
the border phase for `i` in `rows_to_calc`, for every `N`, `W` and rank.  The centre cell
`(dx, dy) = (0, 0)` passes the row and column tests and `valid_row`. -/
theorem C18_conta_positive {α : Type} (ops : FloatOps α) (N W rank i j : Nat) (A : Nat → α)
    (hj : j < N) :
    (i < N → 1 ≤ (serialAcc ops N A i j).2 ∧ 1 ≤ (ompAcc ops N A i j).2) ∧
    (2 ≤ i → i < my_rows N W rank → 1 ≤ (interiorAcc ops N A i j).2) ∧
    (i ∈ rows_to_calc (my_rows N W rank) →
      1 ≤ (borderAcc ops N (my_rows N W rank) rank W A i j).2 ∧
      valid_row (my_rows N W rank) rank W ((i : Int) + 0) = true) := by
  refine ⟨?_, ?_, ?_⟩
  · intro hi
    constructor
    · unfold serialAcc
      apply window_conta_pos
      · intro acc d
        unfold serialStep
        simp only []
        split_ifs <;> simp
      · intro acc
        unfold serialStep
        simp only []
        rw [if_pos (by omega)]
    · unfold ompAcc
      apply window_conta_pos
      · intro acc d
        unfold ompStep
        simp only []
        split_ifs <;> simp
      · intro acc
        unfold ompStep
        simp only []
        rw [if_pos (by omega)]
  · intro _ _
    unfold interiorAcc
    apply window_conta_pos
    · intro acc d
      unfold interiorStep
      simp only []
      split_ifs <;> simp
    · intro acc
      unfold interiorStep
      simp only []
      rw [if_pos (by omega)]
  · intro hi
    rw [mem_rows_to_calc] at hi
    have hv : valid_row (my_rows N W rank) rank W ((i : Int) + 0) = true := by
      unfold valid_row
      simp only []
      rw [if_neg (by omega), if_neg (by omega)]
    refine ⟨?_, hv⟩
    unfold borderAcc
    apply window_conta_pos
    · intro acc d
      unfold borderStep
      simp only []
      split_ifs <;> simp
    · intro acc
      unfold borderStep
      simp only []
      rw [if_pos ⟨hv, by omega, by omega⟩]

/-- Witness of C18 at `N = 1`, `W = 2`, rank `0`, cell `(1, 0)` of the border phase. -/
theorem C18_conta_positive_witness :
    0 < 1 ∧ 1 ∈ rows_to_calc (my_rows 1 2 0) ∧
    1 ≤ (borderAcc ratOps 1 (my_rows 1 2 0) 0 2 rampMatrix 1 0).2 :=
  ⟨by decide, by decide,
    ((C18_conta_positive ratOps 1 2 0 1 0 rampMatrix (by decide)).2.2 (by decide)).1⟩

/-! ## Blocks and accesses -/

/-- Claim C19 as stated fails beyond the range of `int`: with `N = 46340`, `W = 1` the
`int` expression `(my_rows + 2) * N` is `-2147479016`, the allocation of `local_A`
returns `NULL`, and the border phase, at its first cell `(1, 0)`, reads index `46340`,
which is not below that bound and lies in no block. -/
theorem C19_accesses_counterexample :
    wrap32 ((((my_rows 46340 1 0 : Nat) : Int) + 2) * ((46340 : Nat) : Int)) =
      -2147479016 ∧
    local_A_elems 46340 1 0 = none ∧
    (1, 0) ∈ borderCells 46340 (my_rows 46340 1 0) ∧
    borderRead 46340 (my_rows 46340 1 0) 0 1 1 0 (0, 0) = some 46340 ∧
    ¬ ((46340 : Int) <
      wrap32 ((((my_rows 46340 1 0 : Nat) : Int) + 2) * ((46340 : Nat) : Int))) ∧
    readOk (local_A_elems 46340 1 0) (borderRead 46340 (my_rows 46340 1 0) 0 1 1 0 (0, 0)) =
      false ∧
    ¬ (borderOk 46340 1 0 = true) := by
  have hm : (1, 0) ∈ borderCells 46340 (my_rows 46340 1 0) :=
    (mem_borderCells 46340 _ (1, 0)).2 ⟨by decide, by decide⟩
  have hread : readOk (local_A_elems 46340 1 0)
      (borderRead 46340 (my_rows 46340 1 0) 0 1 1 0 (0, 0)) = false := by decide
  refine ⟨by decide, by decide, hm, by decide, by decide, hread, ?_⟩
  intro h
  unfold borderOk at h
  rw [List.all_eq_true] at h
  have h2 := h (1, 0) hm
  simp only [Bool.and_eq_true, List.all_eq_true] at h2
  have h3 := h2.1.2 (0, 0) (by decide)
  rw [hread] at h3
  exact Bool.noConfusion h3

/-- Claim C19, amended to the range of `int`: for `0 ≤ N ≤ 46339`, every `W ≥ 1` and
every rank `r < W` with its `m = my_rows` rows, `local_A` has `(m + 2) * N` elements and
`local_T` has `m * N`; the indices of `local_A` read by the interior and the border
stencil (neighbours and centre) and the windows of the posted halo operations, which
start at `0`, `N`, `m * N` or `(m + 1) * N` and have `N` elements, lie in
`[0, (m + 2) * N)`; the indices `(i - 1) * N + j` of `local_T` written by the two phases
lie in `[0, m * N)`; every access of the two phases and every halo window lies in its
block; and `n_req ≤ 4`. -/
theorem C19_accesses_in_bounds (N W r : Nat) (hfit : N ≤ 46339) (hr : r < W) :
    local_A_elems N W r = some ((my_rows N W r + 2) * N) ∧
    local_T_elems N W r = some (my_rows N W r * N) ∧
    (∀ i j d x, 2 ≤ i → i < my_rows N W r → j < N → d ∈ window →
      interiorRead N i j d = some x →
      0 ≤ x ∧ x < (((my_rows N W r + 2) * N : Nat) : Int)) ∧
    (∀ i j d x, i ∈ rows_to_calc (my_rows N W r) → j < N → d ∈ window →
      borderRead N (my_rows N W r) r W i j d = some x →
      0 ≤ x ∧ x < (((my_rows N W r + 2) * N : Nat) : Int)) ∧
    (∀ p, p ∈ interiorCells N (my_rows N W r) ++ borderCells N (my_rows N W r) →
      p.1 * N + p.2 < (my_rows N W r + 2) * N) ∧
    (∀ op, op ∈ posted N W r →
      (op.buf = 0 ∨ op.buf = N ∨ op.buf = my_rows N W r * N ∨
        op.buf = (my_rows N W r + 1) * N) ∧ op.count = N ∧
      op.buf + op.count ≤ (my_rows N W r + 2) * N) ∧
    (∀ p, p ∈ interiorCells N (my_rows N W r) ++ borderCells N (my_rows N W r) →
      writeIndex N p < my_rows N W r * N) ∧
    interiorOk N W r = true ∧ borderOk N W r = true ∧
    (∀ op, op ∈ posted N W r →
      inBlock (local_A_elems N W r) (op.buf : Int) (op.count : Int) = true) ∧
    n_req N W (my_rows N W r) r ≤ 4 := by
  have e2 : (my_rows N W r + 2) * N = my_rows N W r * N + N + N := by ring
  have e1 : (my_rows N W r + 1) * N = my_rows N W r * N + N := by ring
  obtain ⟨b1, b2, b3, b4⟩ := stencil_index_bounds N W r (my_rows N W r)
  have hhalo := haloOk_of_fits N W hfit
  unfold haloOk at hhalo
  rw [decide_eq_true_eq] at hhalo
  refine ⟨local_A_elems_eq N W hfit r hr, local_T_elems_eq N W hfit r hr, b1, b2, b3, ?_, b4,
    interiorOk_of_fits N W hfit r hr, borderOk_of_fits N W hfit r hr, hhalo r hr, ?_⟩
  · intro op hop
    have hp : posted N W r = reqs N W (my_rows N W r) r := rfl
    rw [hp] at hop
    rcases mem_reqs N W _ r op hop with h | h | h | h <;> obtain ⟨rfl, _⟩ := h
    · exact ⟨Or.inl rfl, rfl, by simp only []; omega⟩
    · exact ⟨Or.inr (Or.inr (Or.inr rfl)), rfl, by simp only []; omega⟩
    · exact ⟨Or.inr (Or.inl rfl), rfl, by simp only []; omega⟩
    · exact ⟨Or.inr (Or.inr (Or.inl rfl)), rfl, by simp only []; omega⟩
  · rw [n_req_eq]
    split_ifs <;> omega

/-- Witness of the amended C19 at `N = 3`, `W = 2`, rank `1`. -/
theorem C19_accesses_in_bounds_witness :
    3 ≤ 46339 ∧ 1 < 2 ∧
    local_A_elems 3 2 1 = some ((my_rows 3 2 1 + 2) * 3) ∧
    local_T_elems 3 2 1 = some (my_rows 3 2 1 * 3) ∧
    interiorOk 3 2 1 = true ∧ borderOk 3 2 1 = true ∧
    n_req 3 2 (my_rows 3 2 1) 1 ≤ 4 :=
  ⟨by decide, by decide,
    (C19_accesses_in_bounds 3 2 1 (by decide) (by decide)).1,
    (C19_accesses_in_bounds 3 2 1 (by decide) (by decide)).2.1,
    (C19_accesses_in_bounds 3 2 1 (by decide) (by decide)).2.2.2.2.2.2.2.1,
    (C19_accesses_in_bounds 3 2 1 (by decide) (by decide)).2.2.2.2.2.2.2.2.1,
    (C19_accesses_in_bounds 3 2 1 (by decide) (by decide)).2.2.2.2.2.2.2.2.2.2⟩

/-! ## Range of the `int` expressions -/

/-- Claim C20: for `0 ≤ N ≤ 46339`, every `W ≥ 1` and rank `r < W`, none of `N * N`,
`rows * N` (`sendcounts`), the running `offset` (`displs`), `(my_rows + 2) * N`,
`(my_rows + 1) * N`, `my_rows * N`, the read indices `r * N + c` and `i * N + j`, and the
write indices `(i - 1) * N + j` exceeds `2^31 - 1`, and the read indices are not
negative; the `int` values the plan loop stores are the exact products and sums, none
negative; for `W = 1`, `N = 46340` the expression `(my_rows + 2) * N` exceeds
`2^31 - 1`. -/
theorem C20_int_expressions_in_range (N W r : Nat) (hN : N ≤ 46339) (hW : 1 ≤ W)
    (hr : r < W) (sc0 dp0 : Nat → Int) :
    INT_MAX = 2 ^ 31 - 1 ∧
    N * N ≤ INT_MAX ∧
    (∀ i, i < W → (N / W + (if i < N % W then 1 else 0)) * N ≤ INT_MAX ∧
      (planLoop N W sc0 dp0).sendcounts i =
        (((N / W + (if i < N % W then 1 else 0)) * N : Nat) : Int) ∧
      0 ≤ (planLoop N W sc0 dp0).sendcounts i ∧
      (planLoop N W sc0 dp0).sendcounts i ≤ (INT_MAX : Int) ∧
      0 ≤ (planLoop N W sc0 dp0).displs i ∧
      (planLoop N W sc0 dp0).displs i ≤ (INT_MAX : Int)) ∧
    (∀ n, n ≤ W →
      0 ≤ (forLoop 0 n (planStep N W) ⟨sc0, dp0, 0⟩).offset ∧
      (forLoop 0 n (planStep N W) ⟨sc0, dp0, 0⟩).offset ≤ (INT_MAX : Int)) ∧
    (my_rows N W r + 2) * N ≤ INT_MAX ∧
    (my_rows N W r + 1) * N ≤ INT_MAX ∧
    my_rows N W r * N ≤ INT_MAX ∧
    (∀ i j d x, 2 ≤ i → i < my_rows N W r → j < N → d ∈ window →
      interiorRead N i j d = some x → 0 ≤ x ∧ x ≤ (INT_MAX : Int)) ∧
    (∀ i j d x, i ∈ rows_to_calc (my_rows N W r) → j < N → d ∈ window →
      borderRead N (my_rows N W r) r W i j d = some x → 0 ≤ x ∧ x ≤ (INT_MAX : Int)) ∧
    (∀ p, p ∈ interiorCells N (my_rows N W r) ++ borderCells N (my_rows N W r) →
      p.1 * N + p.2 ≤ INT_MAX ∧ writeIndex N p ≤ INT_MAX) ∧
    INT_MAX < (my_rows 46340 1 0 + 2) * 46340 := by
  have hm := my_rows_le N W r hW hr
  have h2 : (my_rows N W r + 2) * N ≤ INT_MAX := mul_le_INT_MAX _ _ (by omega) hN
  have hacc := stencil_index_bounds N W r (my_rows N W r)
  refine ⟨by decide, mul_le_INT_MAX _ _ (by omega) hN, ?_, ?_, h2,
    le_trans (Nat.mul_le_mul_right N (by omega)) h2,
    le_trans (Nat.mul_le_mul_right N (by omega)) h2, ?_, ?_, ?_, by decide⟩
  · intro i hi
    have hmi := my_rows_le N W i hW hi
    have hrows : (N / W + (if i < N % W then 1 else 0)) = my_rows N W i := rfl
    have hoff := rowOffset_le N W i hW (by omega)
    rw [hrows, planLoop_sendcounts N W hN sc0 dp0 i hi, planLoop_displs N W hN sc0 dp0 i hi]
    exact ⟨mul_le_INT_MAX _ _ (by omega) hN, rfl, Int.natCast_nonneg _,
      by exact_mod_cast mul_le_INT_MAX _ _ (by omega) hN, Int.natCast_nonneg _,
      by exact_mod_cast mul_le_INT_MAX _ _ (by omega) hN⟩
  · intro n hn
    have hoff := rowOffset_le N W n hW hn
    rw [(planLoop_inv N W hN hW sc0 dp0 n hn).1]
    exact ⟨Int.natCast_nonneg _, by exact_mod_cast mul_le_INT_MAX _ _ (by omega) hN⟩
  · intro i j d x hi1 hi2 hj hd hx
    obtain ⟨a, b⟩ := hacc.1 i j d x hi1 hi2 hj hd hx
    refine ⟨a, ?_⟩
    have : x < ((INT_MAX + 1 : Nat) : Int) := lt_of_lt_of_le b (by exact_mod_cast (by omega))
    omega
  · intro i j d x hi hj hd hx
    obtain ⟨a, b⟩ := hacc.2.1 i j d x hi hj hd hx
    refine ⟨a, ?_⟩
    have : x < ((INT_MAX + 1 : Nat) : Int) := lt_of_lt_of_le b (by exact_mod_cast (by omega))
    omega
  · intro p hp
    have a := hacc.2.2.1 p hp
    have b := hacc.2.2.2 p hp
    have c : my_rows N W r * N ≤ (my_rows N W r + 2) * N := Nat.mul_le_mul_right N (by omega)
    omega

/-- Witness of C20 at `N = 46339`, `W = 1`, rank `0`. -/
theorem C20_int_expressions_witness :
    46339 ≤ 46339 ∧ 1 ≤ 1 ∧ 0 < 1 ∧
    46339 * 46339 ≤ INT_MAX ∧ (my_rows 46339 1 0 + 2) * 46339 ≤ INT_MAX :=
  ⟨by decide, by decide, by decide,
    (C20_int_expressions_in_range 46339 1 0 (by decide) (by decide) (by decide)
      (fun _ => 0) (fun _ => 0)).2.1,
    (C20_int_expressions_in_range 46339 1 0 (by decide) (by decide) (by decide)
      (fun _ => 0) (fun _ => 0)).2.2.2.2.1⟩

end HpcHybrid
